import Mathlib

set_option maxRecDepth 4000


/-!
# Verification of the LSM-vs-BTREE key-value workbench

Shallow embedding of the two storage engines of the repository
(`src/btree/btree.h`, `src/old_implementation/lsm/*`, `src/lsm/*`) and proofs
about them.

Modelling conventions:
* C++ `uint64_t` keys are `Nat`; arithmetic that can wrap in C++ carries an
  explicit `% 2^64`.  Operations used here (comparisons, min/max, xor/or/and,
  shifts by < 64) never overflow, which is noted where relevant.
* C++ `std::string` values are `String`; the tombstone is the concrete
  sentinel string used by the code.
* `tbb::concurrent_hash_map` is an unordered map with distinct keys.  It is
  embedded as an association list with insert-overwrite semantics
  (`mapInsert`); iteration order of the map is realised as list order (one
  fixed iteration order of the unordered container).
* `std::hash<uint64_t>` is an arbitrary function `h : Nat → Nat` passed as a
  parameter; theorems hold for every `h` (libstdc++'s identity hash is used
  in concrete evaluations).
-/

/-- Keys are C++ `uint64_t` (`KeyType` in `global.h`). -/
abbrev KeyType := Nat

/-- Values are C++ `std::string` (`ValueType` in `global.h`). -/
abbrev ValueType := String

/-- The tombstone sentinel from `global.h`. -/
def TOMBSTONE_VALUE : ValueType := "%%__TOMBSTONE__%%"

/-- 2^64, the modulus of `uint64_t` arithmetic. -/
def U64 : Nat := 2 ^ 64

/-- Insert-overwrite on an association list: the embedding of
`tbb::concurrent_hash_map::insert(acc, key); acc->second = value`.
An existing key keeps its position; a fresh key goes to the back
(a fixed realisation of the unordered container's iteration order). -/
def mapInsert (k : KeyType) (v : ValueType) : List (KeyType × ValueType) → List (KeyType × ValueType)
  | [] => [(k, v)]
  | (k', v') :: rest => if k' = k then (k', v) :: rest else (k', v') :: mapInsert k v rest

/-- Lookup in an association list: the embedding of
`tbb::concurrent_hash_map::find`. -/
def lookupKV (k : KeyType) : List (KeyType × ValueType) → Option ValueType
  | [] => none
  | (k', v') :: rest => if k' = k then some v' else lookupKV k rest

/-- Keys of an association list. -/
def keysOfKV (m : List (KeyType × ValueType)) : List KeyType := m.map Prod.fst

/-! ## Register-blocked Bloom filter (`RegisterBlockedBloomFilter.h`) -/

/-- The filter state: `num_blocks_`, `num_hashes_` and the `blocks_` vector of
64-bit words. -/
structure RegisterBlockedBloomFilter where
  num_blocks : Nat
  num_hashes : Nat
  blocks : List Nat

/-- The constructor `RegisterBlockedBloomFilter(num_blocks, num_hashes)`. -/
def bloomNew (num_blocks num_hashes : Nat) : RegisterBlockedBloomFilter :=
  ⟨num_blocks, num_hashes, List.replicate num_blocks 0⟩

/-- `ComputeHash(key, i) = std::hash<uint64_t>{}(key ^ (0x9e3779b9 * i))`;
the multiplication wraps in `uint64_t`, hence the explicit modulus. -/
def ComputeHash (h : Nat → Nat) (key : Nat) (i : Nat) : Nat :=
  h (key ^^^ (0x9e3779b9 * i) % U64)

/-- `ConstructMask(hash)`: OR of `num_hashes - 1` single-bit masks at positions
`ComputeHash(hash, i) % 64`, `i = 1 .. num_hashes-1`. -/
def ConstructMask (h : Nat → Nat) (hash : Nat) (num_hashes : Nat) : Nat :=
  (List.range' 1 (num_hashes - 1)).foldl
    (fun mask i => mask ||| (1 <<< (ComputeHash h hash i % 64))) 0

/-- The block index selected by `GetBlock`. -/
def bloomBlockIdx (h : Nat → Nat) (num_blocks : Nat) (hash : Nat) : Nat :=
  ComputeHash h hash 0 % num_blocks

/-- `Insert(key)`: OR the mask into the selected block.  OR of two `uint64_t`
words cannot overflow, so no modulus is needed. -/
def bloomInsert (h : Nat → Nat) (f : RegisterBlockedBloomFilter) (key : Nat) :
    RegisterBlockedBloomFilter :=
  let hash := h key
  let idx := bloomBlockIdx h f.num_blocks hash
  let mask := ConstructMask h hash f.num_hashes
  { f with blocks := f.blocks.set idx (f.blocks.getD idx 0 ||| mask) }

/-- `Query(key)`: recompute block and mask, test `(block & mask) == mask`. -/
def bloomQuery (h : Nat → Nat) (f : RegisterBlockedBloomFilter) (key : Nat) : Bool :=
  let hash := h key
  let idx := bloomBlockIdx h f.num_blocks hash
  let mask := ConstructMask h hash f.num_hashes
  (f.blocks.getD idx 0 &&& mask) == mask

/-- A filter "holds" key `k` when the block selected for `k` contains the whole
mask of `k`; this is exactly `Query(k) = true`. -/
def bloomHolds (h : Nat → Nat) (f : RegisterBlockedBloomFilter) (k : Nat) : Prop :=
  f.blocks.getD (bloomBlockIdx h f.num_blocks (h k)) 0 &&& ConstructMask h (h k) f.num_hashes =
    ConstructMask h (h k) f.num_hashes

/-- Folding `Insert` over a list of keys. -/
def bloomInsertAll (h : Nat → Nat) (f : RegisterBlockedBloomFilter) (ks : List Nat) :
    RegisterBlockedBloomFilter :=
  ks.foldl (bloomInsert h) f

/-! ## SSTable (`old_implementation/lsm/SSTables.h`, with `ENABLE_LEARNED_INDEX = 0`
as set in `global.h`; `src/lsm/SSTables.h` computes the same `min_key`/`max_key`
over the same entries) -/

/-- An immutable SSTable: id, key range, and the in-memory data map.
`entry_count` is `data.size` and is represented by `data.length`; the Bloom
filter is populated from `data` in the constructor and the table is immutable,
so the filter is recovered as the pure function `sstBloom` of `data`. -/
structure SSTable where
  id : Nat
  min_key : KeyType
  max_key : KeyType
  data : List (KeyType × ValueType)

/-- The Bloom filter built by the `SSTable` constructor: `bloom(512, 7)` with
every key of `data` inserted. -/
def sstBloom (h : Nat → Nat) (t : SSTable) : RegisterBlockedBloomFilter :=
  bloomInsertAll h (bloomNew 512 7) (keysOfKV t.data)

/-- `SSTable::find_key` (learned index compiled out): range check, Bloom
check, then map lookup with the tombstone reported as not-found. -/
def SSTable.find_key (h : Nat → Nat) (t : SSTable) (key : KeyType) : Option ValueType :=
  if key < t.min_key ∨ t.max_key < key then none
  else if bloomQuery h (sstBloom h t) key then
    match lookupKV key t.data with
    | some v => if v = TOMBSTONE_VALUE then none else some v
    | none => none
  else none

/-- `src/lsm/SSTables.h`'s `find_key`: no range or Bloom step, just the map
lookup with the tombstone reported as not-found. -/
def SSTable.find_key_plain (t : SSTable) (key : KeyType) : Option ValueType :=
  match lookupKV key t.data with
  | some v => if v = TOMBSTONE_VALUE then none else some v
  | none => none

/-- Rebuilding a `tbb` map from a sequence of entries (the per-entry
`insert(acc, kv.first); acc->second = kv.second` loop). -/
def rebuildMap (entries : List (KeyType × ValueType)) : List (KeyType × ValueType) :=
  entries.foldl (fun m kv => mapInsert kv.1 kv.2 m) []

/-- The running minimum of the `min_k = std::min(min_k, kv.first)` loop. -/
def foldMinKey (entries : List (KeyType × ValueType)) (init : KeyType) : KeyType :=
  entries.foldl (fun a kv => min a kv.1) init

/-- The running maximum of the `max_k = std::max(max_k, kv.first)` loop. -/
def foldMaxKey (entries : List (KeyType × ValueType)) (init : KeyType) : KeyType :=
  entries.foldl (fun a kv => max a kv.1) init

/-- `SSTable::create_from_memtable`: null on an empty map; otherwise the
first key initialises `min_k`/`max_k` and the rest are folded in, and the
data map is rebuilt entry by entry. -/
def create_from_memtable (entries : List (KeyType × ValueType)) (sstable_id : Nat) :
    Option SSTable :=
  match entries with
  | [] => none
  | kv0 :: rest =>
    some { id := sstable_id
           min_key := foldMinKey rest kv0.1
           max_key := foldMaxKey rest kv0.1
           data := rebuildMap (kv0 :: rest) }

/-! ## LSM tree (`old_implementation/lsm/lsm_tree.h`) -/

/-- Configuration of the tree (constructor parameters that the modelled
operations consume; the size/count *trigger* parameters of the background
workers are kept for completeness). -/
structure LSMConfig where
  memtable_max_size_entries : Nat
  max_level0_sstables : Nat
  max_levels : Nat
  sstable_target_entry_count : Nat

/-- `LSMTree` state: the active memtable, the immutable queue (front =
oldest, as consumed by the flush worker), the levels vector, and the
`next_sstable_id_` counter. -/
structure LSMState where
  active : List (KeyType × ValueType)
  imms : List (List (KeyType × ValueType))
  levels : List (List SSTable)
  nextId : Nat

/-- The constructor: empty active memtable, empty queue,
`levels_.resize(max_levels_)`, id counter 0. -/
def lsmInit (cfg : LSMConfig) : LSMState :=
  ⟨[], [], List.replicate cfg.max_levels [], 0⟩

/-- `LSMTree::put`: insert into the active memtable; when the size threshold
is reached, `schedule_flush_active_memtable` swaps in a fresh memtable and
appends the old one to the immutable queue. -/
def lsmPut (cfg : LSMConfig) (s : LSMState) (k : KeyType) (v : ValueType) : LSMState :=
  let active := mapInsert k v s.active
  if cfg.memtable_max_size_entries ≤ active.length then
    { s with active := [], imms := s.imms ++ [active] }
  else
    { s with active := active }

/-- `LSMTree::del` is `put(key, TOMBSTONE_VALUE)`. -/
def lsmDel (cfg : LSMConfig) (s : LSMState) (k : KeyType) : LSMState :=
  lsmPut cfg s k TOMBSTONE_VALUE

/-- Insertion sort by a boolean "≤" (the embedding of `std::sort`; all the
comparators used here are total orders without ties on the lists they sort,
so any correct sort produces this result). -/
def sortedInsertBy {α : Type} (le : α → α → Bool) (a : α) : List α → List α
  | [] => [a]
  | b :: l => if le a b then a :: b :: l else b :: sortedInsertBy le a l

/-- Full insertion sort by a boolean "≤". -/
def sortListBy {α : Type} (le : α → α → Bool) : List α → List α
  | [] => []
  | a :: l => sortedInsertBy le a (sortListBy le l)

/-- The L0 comparator `a->id < b->id` (as a "≤" for sorting; ids are unique). -/
def leById (a b : SSTable) : Bool := a.id ≤ b.id

/-- The L1+ comparator: by `min_key`, ties by `id`. -/
def leByMinKeyId (a b : SSTable) : Bool :=
  if a.min_key ≠ b.min_key then a.min_key ≤ b.min_key else a.id ≤ b.id

/-- `flush_memtable_to_l0` followed by the L0 re-sort, as performed on one
queue entry by the flush worker (and by the destructor's final drain):
an empty memtable is dropped before the id is consumed; otherwise the
new SSTable is appended to L0 and L0 is sorted by id. -/
def lsmFlushOne (s : LSMState) : LSMState :=
  match s.imms with
  | [] => s
  | m :: rest =>
    match create_from_memtable m s.nextId with
    | none => { s with imms := rest }
    | some t =>
      { s with imms := rest
               nextId := s.nextId + 1
               levels := s.levels.set 0 (sortListBy leById (s.levels.getD 0 [] ++ [t])) }

/-- `load_map_from_sst_list`: insert every entry of every listed SSTable into
the merged map (later inserts overwrite). -/
def loadMapFromSstList (sst_list : List SSTable) (m : List (KeyType × ValueType)) :
    List (KeyType × ValueType) :=
  sst_list.foldl (fun m t => t.data.foldl (fun m kv => mapInsert kv.1 kv.2 m) m) m

/-- Tombstone removal from the merged map (`keys_to_erase` collection plus
`erase`, which amounts to filtering out tombstone-valued entries). -/
def stripTombstones (m : List (KeyType × ValueType)) : List (KeyType × ValueType) :=
  m.filter (fun kv => ¬ (kv.2 = TOMBSTONE_VALUE))

/-- The partition loop of `compact_sstables`: accumulate entries into
`current_sstable_build_data`; each time it reaches
`sstable_target_entry_count_` entries, emit an SSTable with a fresh id and
clear; emit the non-empty remainder at the end.  Returns the new SSTables
and the advanced id counter. -/
def buildSstChunks (target : Nat) :
    List (KeyType × ValueType) → List (KeyType × ValueType) → Nat → List SSTable →
    List SSTable × Nat
  | [], build, nid, acc =>
    if build.isEmpty then (acc, nid)
    else
      match create_from_memtable build nid with
      | some t => (acc ++ [t], nid + 1)
      | none => (acc, nid + 1)
  | kv :: rest, build, nid, acc =>
    let build' := mapInsert kv.1 kv.2 build
    if target ≤ build'.length then
      match create_from_memtable build' nid with
      | some t => buildSstChunks target rest [] (nid + 1) (acc ++ [t])
      | none => buildSstChunks target rest [] (nid + 1) acc
    else buildSstChunks target rest build' nid acc

/-- The data-producing part of `LSMTree::compact_sstables`: merge older
(target-overlap) tables first, then newer (source) tables, strip
tombstones, and partition the merged map into SSTables.  Returns `none`
exactly when the function returns without touching the levels (empty
source, or target level past `max_levels_`). -/
def compact_sstables_data (max_levels : Nat) (target : Nat) (source_level_idx : Nat)
    (ssts_from_source ssts_from_target_overlap : List SSTable) (nextId : Nat) :
    Option (List SSTable × Nat) :=
  if ssts_from_source.isEmpty then none
  else if max_levels ≤ source_level_idx + 1 then none
  else
    let merged := loadMapFromSstList ssts_from_source
      (loadMapFromSstList ssts_from_target_overlap [])
    some (buildSstChunks target (stripTombstones merged) [] nextId [])

/-- `find_overlapping_sstables_nolock`: the target-level tables whose key
range intersects the overall range of the source tables. -/
def findOverlapping (source_ssts : List SSTable) (target_level : List SSTable) :
    List SSTable :=
  match source_ssts with
  | [] => []
  | s0 :: _ =>
    let mn := source_ssts.foldl (fun a t => min a t.min_key) s0.min_key
    let mx := source_ssts.foldl (fun a t => max a t.max_key) s0.max_key
    target_level.filter (fun t => t.min_key ≤ mx ∧ mn ≤ t.max_key)

/-- `remove_compacted_ssts`: drop from a level every table whose id matches a
compacted one. -/
def removeCompacted (level : List SSTable) (compacted : List SSTable) : List SSTable :=
  level.filter (fun t => ¬ (compacted.any (fun c => c.id = t.id)))

/-- One compaction of level `i` into level `i+1` as performed by
`perform_compaction_check` + `compact_sstables`: the whole source level is
taken, the overlapping target tables are computed, and the metadata update
removes both inputs and installs the new tables, re-sorting the target
level by `(min_key, id)`.  The trigger conditions of the compaction worker
decide *when* this runs; the state transition itself is modelled for any
`i`. -/
def lsmCompact (cfg : LSMConfig) (s : LSMState) (i : Nat) : LSMState :=
  let sources := s.levels.getD i []
  let targets := if i + 1 < cfg.max_levels then findOverlapping sources (s.levels.getD (i + 1) []) else []
  match compact_sstables_data cfg.max_levels cfg.sstable_target_entry_count i sources targets s.nextId with
  | none => s
  | some (newTables, nid) =>
    let levels1 := s.levels.set i (removeCompacted (s.levels.getD i []) sources)
    let levels2 := levels1.set (i + 1)
      (sortListBy leByMinKeyId
        (removeCompacted (levels1.getD (i + 1) []) targets ++ newTables))
    { s with levels := levels2, nextId := nid }

/-- Scan a list of memtables for `key` (active then the immutable queue
newest-first): the first memtable containing the key decides — tombstone
means not-found. -/
def scanMems (ms : List (List (KeyType × ValueType))) (k : KeyType) : Option (Option ValueType) :=
  match ms with
  | [] => none
  | m :: rest =>
    match lookupKV k m with
    | some v => some (if v = TOMBSTONE_VALUE then none else some v)
    | none => scanMems rest k

/-- The L0 scan of `LSMTree::get` (callers pass L0 reversed, newest first):
range check, then `find_key`; a `find_key` miss (absent key, Bloom
negative, or tombstone) moves on to the next table. -/
def scanL0 (h : Nat → Nat) (ts : List SSTable) (k : KeyType) : Option ValueType :=
  match ts with
  | [] => none
  | t :: rest =>
    if t.min_key ≤ k ∧ k ≤ t.max_key then
      match t.find_key h k with
      | some v => some v
      | none => scanL0 h rest k
    else scanL0 h rest k

/-- The L1+ per-level scan of `LSMTree::get`: in-range tables are probed with
`find_key`; a table with `min_key > key` that is not the front of the level
stops the scan (sorted non-overlapping levels). -/
def scanLevel (h : Nat → Nat) (ts : List SSTable) (k : KeyType) (isFront : Bool) :
    Option ValueType :=
  match ts with
  | [] => none
  | t :: rest =>
    if t.min_key ≤ k ∧ k ≤ t.max_key then
      match t.find_key h k with
      | some v => some v
      | none => scanLevel h rest k false
    else if k < t.min_key ∧ isFront then scanLevel h rest k false
    else if k < t.min_key then none
    else scanLevel h rest k false

/-- The loop over levels 1..N-1. -/
def scanUpperLevels (h : Nat → Nat) (lvls : List (List SSTable)) (k : KeyType) :
    Option ValueType :=
  match lvls with
  | [] => none
  | l :: rest =>
    match scanLevel h l k true with
    | some v => some v
    | none => scanUpperLevels h rest k

/-- `LSMTree::get`: active memtable, immutable queue newest-first, L0
newest-first, then levels 1..N-1. -/
def lsmGet (h : Nat → Nat) (s : LSMState) (k : KeyType) : Option ValueType :=
  match scanMems (s.active :: s.imms.reverse) k with
  | some r => r
  | none =>
    match scanL0 h (s.levels.getD 0 []).reverse k with
    | some v => some v
    | none => scanUpperLevels h (s.levels.drop 1) k

/-- The single-threaded event alphabet: client operations (`put`, `del`) plus
one step of each background worker (`flush` processes the oldest queued
memtable; `compact i` runs one compaction of level `i`).  The worker events
may occur at any point, which covers every schedule the trigger conditions
can produce. -/
inductive LSMOp where
  | put (k : KeyType) (v : ValueType)
  | del (k : KeyType)
  | flush
  | compact (i : Nat)

/-- One event. -/
def lsmStep (cfg : LSMConfig) (s : LSMState) : LSMOp → LSMState
  | .put k v => lsmPut cfg s k v
  | .del k => lsmDel cfg s k
  | .flush => lsmFlushOne s
  | .compact i => lsmCompact cfg s i

/-- A run from a state. -/
def lsmRunFrom (cfg : LSMConfig) (s : LSMState) (ops : List LSMOp) : LSMState :=
  ops.foldl (lsmStep cfg) s

/-- A run from the initial state. -/
def lsmRun (cfg : LSMConfig) (ops : List LSMOp) : LSMState :=
  lsmRunFrom cfg (lsmInit cfg) ops

/-! ## Learned index (`learned_index.cpp` / `learned_index.h`)

The C++ `double` / `long double` arithmetic is modelled exactly over `ℚ`
(idealised exact real arithmetic; the algorithms and all control flow are
translated literally).  Constants are from `global.h`. -/

def LEARNED_INDEX_TARGET_KEYS_PER_SEGMENT : Nat := 256

def LEARNED_INDEX_MIN_KEYS_FOR_MULTISEGMENT : Nat :=
  LEARNED_INDEX_TARGET_KEYS_PER_SEGMENT * 2

def LEARNED_INDEX_MIN_KEYS_PER_SEGMENT_TRAINING : Nat := 5

/-- One per-segment linear model. -/
structure SegmentModel where
  first_key : KeyType
  slope : ℚ
  intercept : ℚ
  max_abs_error : ℚ
  start_index_global : Nat
  num_keys_in_segment : Nat

/-- The `LearnedIndex` fields. -/
structure LearnedIndex where
  segments : List SegmentModel
  model_trained : Bool
  min_overall_key : KeyType
  max_overall_key : KeyType
  total_keys_trained_on : Nat

/-- Sum of keys as rationals (`sum_x`). -/
def sumX (keys : List Nat) : ℚ := keys.foldl (fun a k => a + (k : ℚ)) 0

/-- `sum_x_sq`. -/
def sumXsq (keys : List Nat) : ℚ := keys.foldl (fun a k => a + (k : ℚ) * (k : ℚ)) 0

/-- `sum_xy` over paired keys and global indices. -/
def sumXY (pairs : List (Nat × Nat)) : ℚ :=
  pairs.foldl (fun a p => a + (p.1 : ℚ) * (p.2 : ℚ)) 0

/-- The `out_max_abs_error` loop: maximum absolute residual of the fitted
line over the training pairs, starting from `0.0`. -/
def residualMax (slope intercept : ℚ) (pairs : List (Nat × Nat)) : ℚ :=
  pairs.foldl (fun acc p => max acc |slope * (p.1 : ℚ) + intercept - (p.2 : ℚ)|) 0

/-- `LearnedIndex::train_linear_model`.  Returns `none` exactly when
`num_keys == 0`; otherwise the fitted `(slope, intercept, max_abs_error)`.
The `num_keys == 1` case short-circuits; segments whose keys are all equal
get a horizontal line through the mean index; the least-squares fit falls
back to a horizontal line when the denominator is below `1e-12`. -/
def trainLinearModel (keys gidx : List Nat) : Option (ℚ × ℚ × ℚ) :=
  if keys.length = 0 then none
  else if keys.length = 1 then some (0, ((gidx.headD 0 : Nat) : ℚ), 0)
  else if keys.headD 0 = keys.getLastD 0 then
    let intercept : ℚ := (sumX gidx) / (keys.length : ℚ)
    some (0, intercept, residualMax 0 intercept (keys.zip gidx))
  else
    let n : ℚ := (keys.length : ℚ)
    let sx := sumX keys
    let sy := sumX gidx
    let sxy := sumXY (keys.zip gidx)
    let sxx := sumXsq keys
    let denom := n * sxx - sx * sx
    if |denom| < 1 / 1000000000000 then
      let intercept := sy / n
      some (0, intercept, residualMax 0 intercept (keys.zip gidx))
    else
      let slope := (n * sxy - sx * sy) / denom
      let intercept := (sy - slope * sx) / n
      some (slope, intercept, residualMax slope intercept (keys.zip gidx))

/-- The start offset of segment `i` (`(i * num_total_keys) / num_segments`). -/
def segStart (N S i : Nat) : Nat := i * N / S

/-- The end offset of segment `i` (forced to `N` for the last segment). -/
def segEnd (N S i : Nat) : Nat := if i = S - 1 then N else (i + 1) * N / S

/-- The number of segments chosen by `train`. -/
def numSegmentsOf (N : Nat) : Nat :=
  if N < LEARNED_INDEX_MIN_KEYS_FOR_MULTISEGMENT then 1
  else Nat.max 1
    ((N + LEARNED_INDEX_TARGET_KEYS_PER_SEGMENT - 1) / LEARNED_INDEX_TARGET_KEYS_PER_SEGMENT)

/-- The segment-construction loop of `train`: each iteration trains a model
on the contiguous slice `[segStart, segEnd)` of the sorted keys (global
indices are the corresponding slice of `0, 1, …, N-1`) and appends a
`SegmentModel`; empty slices and failed fits are skipped. -/
def liTrainSegments (sorted_keys : List KeyType) (N S : Nat) : List SegmentModel :=
  (List.range S).foldl (fun acc i =>
    let start := segStart N S i
    let cnt := segEnd N S i - start
    if cnt = 0 then acc
    else
      match trainLinearModel ((sorted_keys.drop start).take cnt)
          (((List.range N).drop start).take cnt) with
      | some (s, c, e) =>
        acc ++ [⟨sorted_keys.getD start 0, s, c, e, (List.range N).getD start 0, cnt⟩]
      | none => acc) []

/-- `LearnedIndex::train` on a freshly constructed index (the only use in
the code: the `SSTable` constructor).  On an empty vector the overall
min/max keys keep their constructor values `0` and `2^64 - 1`. -/
def liTrain (sorted_keys : List KeyType) : LearnedIndex :=
  if sorted_keys.length = 0 then ⟨[], false, 0, U64 - 1, 0⟩
  else
    let N := sorted_keys.length
    let S := numSegmentsOf N
    let segs := liTrainSegments sorted_keys N S
    ⟨segs, ¬ segs.isEmpty, sorted_keys.headD 0, sorted_keys.getLastD 0, N⟩

/-- The `std::upper_bound` segment selection of `predict_index_range`: the
segment immediately before the first one whose `first_key` exceeds the key,
or the first segment when the key precedes all of them. -/
def chooseSegment (segs : List SegmentModel) (key : KeyType) : Option SegmentModel :=
  let cnt := (segs.takeWhile (fun sm => sm.first_key ≤ key)).length
  if cnt = 0 then segs.head? else segs[cnt - 1]?

/-- `LearnedIndex::predict_index_range`; result `(prediction_made,
effective_min_idx, effective_max_idx)`. -/
def predictIndexRange (li : LearnedIndex) (key : KeyType) : Bool × Int × Int :=
  if ¬ li.model_trained ∨ li.segments.isEmpty ∨ li.total_keys_trained_on = 0 then
    (false, 0, Int.ofNat (if 0 < li.total_keys_trained_on then li.total_keys_trained_on - 1 else 0))
  else if key < li.min_overall_key ∨ li.max_overall_key < key then
    (true, 1, 0)
  else
    match chooseSegment li.segments key with
    | none => (true, 1, 0)
    | some seg =>
      let p := seg.slope * (key : ℚ) + seg.intercept
      (true, ⌈max (0 : ℚ) (p - seg.max_abs_error)⌉,
        ⌊min ((li.total_keys_trained_on - 1 : Nat) : ℚ) (p + seg.max_abs_error)⌋)

/-- The segment that iteration `i` of the training loop appends (the `none`
branch of the match is unreachable for non-empty slices). -/
def segModelAt (ks : List KeyType) (N S i : Nat) : SegmentModel :=
  let start := segStart N S i
  let cnt := segEnd N S i - start
  match trainLinearModel ((ks.drop start).take cnt) (((List.range N).drop start).take cnt) with
  | some (s, c, e) => ⟨ks.getD start 0, s, c, e, (List.range N).getD start 0, cnt⟩
  | none => ⟨ks.getD start 0, 0, 0, 0, (List.range N).getD start 0, cnt⟩

/-- The index of the training segment containing sorted position `i`. -/
def segIdxOf (N S i : Nat) : Nat := Nat.findGreatest (fun j => segStart N S j ≤ i) S

/-! ## B+ tree (`src/btree/btree.h`)

The arena of nodes (`nodes_` + index references) is embedded as an inductive
tree: a child index denotes the child subtree, and the sibling links of the
leaves (`nextLeaf`) realise exactly the in-order leaf chain, which is how the
sequential code maintains them (`splitLeaf` links the new leaf between the
old leaf and its former successor).  `splitLeafA` below additionally models
`splitLeaf` at the arena level, with explicit `nextLeaf` offsets. -/

def MAX_KEYS_INTERNAL : Nat := 120

def MAX_KEYS_LEAF : Nat := 30

def MAX_RANGE_RESULTS : Nat := 1000

/-- A node: leaf (sorted keys with values) or internal (separator keys with
children). -/
inductive BNode where
  | leaf (keys : List Nat) (values : List String)
  | internal (keys : List Nat) (children : List BNode)

/-- The child-selection loop `while (i < numKeys && key >= keys[i]) i++`:
the number of leading separators that are ≤ the key. -/
def selIdx (keys : List Nat) (k : Nat) : Nat :=
  (keys.takeWhile (fun s => s ≤ k)).length

/-- The equality scan of `searchKey` over a leaf. -/
def leafLookup (ks : List Nat) (vs : List String) (k : Nat) : Option String :=
  match ks, vs with
  | k' :: kt, v' :: vt => if k' = k then some v' else leafLookup kt vt k
  | _, _ => none

/-- `BPlusTree::searchKey`. -/
def btSearch (t : BNode) (k : Nat) : Option String :=
  match t with
  | .leaf ks vs => leafLookup ks vs k
  | .internal keys children =>
    match h : children[selIdx keys k]? with
    | some c => btSearch c k
    | none => none
termination_by sizeOf t
decreasing_by
  have hm : c ∈ children := by
    have := List.getElem?_eq_some.mp h
    obtain ⟨hlt, hval⟩ := this
    exact hval ▸ List.getElem_mem hlt
  have := List.sizeOf_lt_of_mem hm
  simp only [BNode.internal.sizeOf_spec]
  omega

/-- `InsertResult`: either the updated node, or the updated node plus the
newly allocated sibling and the promoted key. -/
inductive InsResult where
  | noSplit (node : BNode)
  | split (node : BNode) (newSibling : BNode) (promotedKey : Nat)

/-- The overwrite loop of `insertLeaf`: replace the value at the first
position whose key equals `k`. -/
def leafReplaceValue (ks : List Nat) (vs : List String) (k : Nat) (v : String) : List String :=
  match ks, vs with
  | k' :: kt, v' :: vt => if k' = k then v :: vt else v' :: leafReplaceValue kt vt k v
  | _, vs => vs

/-- The shifting loop of `insertLeaf` (`pos = numKeys; while (pos > 0 &&
keys[pos-1] > key) pos--`): the insert position counted from the front. -/
def shiftInsertPos (ks : List Nat) (k : Nat) : Nat :=
  ks.length - (ks.reverse.takeWhile (fun x => k < x)).length

/-- The position scan of `splitLeaf` (first index whose key exceeds `k`,
else the length). -/
def splitInsertPos (ks : List Nat) (k : Nat) : Nat :=
  (ks.takeWhile (fun x => ¬ (k < x))).length

/-- `BPlusTree::insertLeaf` on the leaf's contents: overwrite in place,
insert by shifting when there is room, else split via the merged sorted
lists (`splitLeaf`): lower half (`size/2` records) stays, upper half goes to
the new leaf, and the new leaf's first key is promoted. -/
def insertLeafNode (ks : List Nat) (vs : List String) (k : Nat) (v : String) : InsResult :=
  if k ∈ ks then .noSplit (.leaf ks (leafReplaceValue ks vs k v))
  else if ks.length < MAX_KEYS_LEAF then
    let pos := shiftInsertPos ks k
    .noSplit (.leaf (ks.insertIdx pos k) (vs.insertIdx pos v))
  else
    let pos := splitInsertPos ks k
    let tmpKeys := ks.insertIdx pos k
    let tmpValues := vs.insertIdx pos v
    let split := tmpKeys.length / 2
    .split (.leaf (tmpKeys.take split) (tmpValues.take split))
      (.leaf (tmpKeys.drop split) (tmpValues.drop split))
      ((tmpKeys.drop split).headD 0)

/-- `BPlusTree::splitInternal` on the node's contents: merge the promoted
key and new child at the child position, promote the middle key, keep keys
and children before it, move the rest to the new node. -/
def splitInternalNode (keys : List Nat) (children : List BNode) (childIndex : Nat)
    (cl cr : BNode) (pk : Nat) : InsResult :=
  let tmpKeys := keys.insertIdx childIndex pk
  let tmpChildren := (children.set childIndex cl).insertIdx (childIndex + 1) cr
  let midIndex := tmpKeys.length / 2
  .split (.internal (tmpKeys.take midIndex) (tmpChildren.take (midIndex + 1)))
    (.internal (tmpKeys.drop (midIndex + 1)) (tmpChildren.drop (midIndex + 1)))
    (tmpKeys.getD midIndex 0)

/-- `BPlusTree::insertInternal` / `insertIntoInternal`: descend into the
selected child; absorb a child split by splicing the promoted key and the
new sibling in place, splitting this node when it is full. -/
def insertNode (t : BNode) (k : Nat) (v : String) : InsResult :=
  match t with
  | .leaf ks vs => insertLeafNode ks vs k v
  | .internal keys children =>
    match h : children[selIdx keys k]? with
    | none => .noSplit (.internal keys children)
    | some c =>
      match insertNode c k v with
      | .noSplit c' => .noSplit (.internal keys (children.set (selIdx keys k) c'))
      | .split cl cr pk =>
        if keys.length < MAX_KEYS_INTERNAL then
          .noSplit (.internal (keys.insertIdx (selIdx keys k) pk)
            ((children.set (selIdx keys k) cl).insertIdx (selIdx keys k + 1) cr))
        else splitInternalNode keys children (selIdx keys k) cl cr pk
termination_by sizeOf t
decreasing_by
  have hm : c ∈ children := by
    have := List.getElem?_eq_some.mp h
    obtain ⟨hlt, hval⟩ := this
    exact hval ▸ List.getElem_mem hlt
  have := List.sizeOf_lt_of_mem hm
  simp only [BNode.internal.sizeOf_spec]
  omega

/-- The tree created by the `BPlusTree` constructor: one empty leaf root. -/
def btEmpty : BNode := .leaf [] []

/-- `BPlusTree::put`: insert from the root; on a root split, a new internal
root holds the promoted key with the two halves as children. -/
def btPut (t : BNode) (k : Nat) (v : String) : BNode :=
  match insertNode t k v with
  | .noSplit t' => t'
  | .split l r pk => .internal [pk] [l, r]

/-- `BPlusTree::get`. -/
def btGet (t : BNode) (k : Nat) : Option String :=
  btSearch t k

/-- A sequence of puts from the empty tree. -/
def btRun (ops : List (Nat × String)) : BNode :=
  ops.foldl (fun t p => btPut t p.1 p.2) btEmpty

mutual

/-- The in-order records of a subtree. -/
def entriesOf : BNode → List (KeyType × ValueType)
  | .leaf ks vs => ks.zip vs
  | .internal _ children => entriesFlat children

/-- The in-order records of a list of subtrees. -/
def entriesFlat : List BNode → List (KeyType × ValueType)
  | [] => []
  | c :: cs => entriesOf c ++ entriesFlat cs

end

mutual

/-- The in-order leaves (keys and values) of a subtree — the `nextLeaf`
chain restricted to the subtree. -/
def leafListOf : BNode → List (List Nat × List String)
  | .leaf ks vs => [(ks, vs)]
  | .internal _ children => leafListFlat children

/-- In-order leaves of a list of subtrees. -/
def leafListFlat : List BNode → List (List Nat × List String)
  | [] => []
  | c :: cs => leafListOf c ++ leafListFlat cs

end

/-- `findLeafForKey` composed with the walk along `nextLeaf`: the leaf the
descent reaches for `low`, followed by all in-order successor leaves. -/
def leafChainFrom (t : BNode) (low : Nat) : List (List Nat × List String) :=
  match t with
  | .leaf ks vs => [(ks, vs)]
  | .internal keys children =>
    match h : children[selIdx keys low]? with
    | some c => leafChainFrom c low ++ leafListFlat (children.drop (selIdx keys low + 1))
    | none => []
termination_by sizeOf t
decreasing_by
  have hm : c ∈ children := by
    have := List.getElem?_eq_some.mp h
    obtain ⟨hlt, hval⟩ := this
    exact hval ▸ List.getElem_mem hlt
  have := List.sizeOf_lt_of_mem hm
  simp only [BNode.internal.sizeOf_spec]
  omega

/-- The inner record loop of `rangeQuery`: skip keys below `low`, return on
a key above `high` (second component true = stop the whole query), append
in-range records while below `max_results`. -/
def emitLeafRecords (low high maxr : Nat) (ks : List Nat) (vs : List String)
    (out : List (Nat × String)) : List (Nat × String) × Bool :=
  match ks, vs with
  | k' :: kt, v' :: vt =>
    if maxr ≤ out.length then (out, false)
    else if k' < low then emitLeafRecords low high maxr kt vt out
    else if high < k' then (out, true)
    else emitLeafRecords low high maxr kt vt (out ++ [(k', v')])
  | _, _ => (out, false)

/-- The outer leaf loop of `rangeQuery`, walking `nextLeaf` links. -/
def rangeWalk (low high maxr : Nat) (chain : List (List Nat × List String))
    (out : List (Nat × String)) : List (Nat × String) :=
  match chain with
  | [] => out
  | (ks, vs) :: rest =>
    if maxr ≤ out.length then out
    else
      let r := emitLeafRecords low high maxr ks vs out
      if r.2 then r.1 else rangeWalk low high maxr rest r.1

/-- `BPlusTree::rangeQuery`. -/
def rangeQuery (t : BNode) (low high : Nat) (maxr : Nat) : List (Nat × String) :=
  if high < low then [] else rangeWalk low high maxr (leafChainFrom t low) []

/-- The arena-level leaf node of `splitLeaf` (`LeafNode` with its
`nextLeaf` arena index). -/
structure LeafNodeA where
  keys : List Nat
  values : List String
  nextLeaf : Option Nat

/-- `BPlusTree::splitLeaf` at the arena level: build the merged key/value
lists, keep the lower `size/2` records in the original leaf, move the upper
half into the newly allocated leaf at `newLeafOffset`, link the new leaf to
the old leaf's former successor and the old leaf to the new leaf, and
promote the new leaf's first key.  Returns (updated old leaf, new leaf,
promoted key). -/
def splitLeafA (leaf : LeafNodeA) (key : Nat) (val : String) (newLeafOffset : Nat) :
    LeafNodeA × LeafNodeA × Nat :=
  let pos := splitInsertPos leaf.keys key
  let tmpKeys := leaf.keys.insertIdx pos key
  let tmpValues := leaf.values.insertIdx pos val
  let split := tmpKeys.length / 2
  (⟨tmpKeys.take split, tmpValues.take split, some newLeafOffset⟩,
   ⟨tmpKeys.drop split, tmpValues.drop split, leaf.nextLeaf⟩,
   (tmpKeys.drop split).headD 0)

/-- Lower-bound side condition: every bound in `lb` is ≤ `k` (keys of a
child are ≥ the separator to its left; `none` = unbounded). -/
def lbOk (lb : Option Nat) (k : Nat) : Prop := ∀ b ∈ lb, b ≤ k

/-- Upper-bound side condition: `k` is < every bound in `ub` (keys of a
child are < the separator to its right). -/
def ubOk (ub : Option Nat) (k : Nat) : Prop := ∀ b ∈ ub, k < b

mutual

/-- Well-formedness of a subtree within the key interval `[lb, ub)`:
leaves hold strictly sorted, bounded keys with matching value counts;
internal nodes hold a separator/child sequence in which `children[i]` holds
keys in `[keys[i-1], keys[i])` (the invariant the child-selection rule of
`searchKey`/`insertInternal` relies on). -/
inductive WFNode : Option Nat → Option Nat → BNode → Prop where
  | leaf : ∀ (lb ub : Option Nat) (ks : List Nat) (vs : List String),
      ks.Pairwise (· < ·) → (∀ k ∈ ks, lbOk lb k ∧ ubOk ub k) → vs.length = ks.length →
      WFNode lb ub (.leaf ks vs)
  | internal : ∀ (lb ub : Option Nat) (keys : List Nat) (children : List BNode),
      WFChildren lb ub keys children → WFNode lb ub (.internal keys children)

/-- Well-formedness of a separator/child sequence in `[lb, ub)`; separators
are strictly above the lower bound (they strictly increase left to right). -/
inductive WFChildren : Option Nat → Option Nat → List Nat → List BNode → Prop where
  | single : ∀ (lb ub : Option Nat) (c : BNode), WFNode lb ub c → WFChildren lb ub [] [c]
  | cons : ∀ (lb ub : Option Nat) (s : Nat) (seps : List Nat) (c : BNode) (cs : List BNode),
      (∀ b ∈ lb, b < s) → ubOk ub s → WFNode lb (some s) c → WFChildren (some s) ub seps cs →
      WFChildren lb ub (s :: seps) (c :: cs)

end

/-- Strict lower-bound side condition (used for separators/promoted keys). -/
def lbLT (lb : Option Nat) (k : Nat) : Prop := ∀ b ∈ lb, b < k

/-- Sorted insert-or-replace on an association list: the abstract effect of
one `put` on the in-order records. -/
def upsertKV (k : KeyType) (v : ValueType) : List (KeyType × ValueType) → List (KeyType × ValueType)
  | [] => [(k, v)]
  | (k', v') :: rest =>
    if k < k' then (k, v) :: (k', v') :: rest
    else if k = k' then (k, v) :: rest
    else (k', v') :: upsertKV k v rest

/-- The inductive property of `insertInternal`/`insertLeaf` on a well-formed
subtree: the result is well-formed and its in-order records are the sorted
insert-or-replace of the inserted pair. -/
def InsertSpecP (t : BNode) : Prop :=
  ∀ (lb ub : Option Nat), WFNode lb ub t → ∀ (k : Nat) (v : String), lbOk lb k → ubOk ub k →
    (∀ t', insertNode t k v = .noSplit t' →
       WFNode lb ub t' ∧ entriesOf t' = upsertKV k v (entriesOf t)) ∧
    (∀ l r p, insertNode t k v = .split l r p →
       WFNode lb (some p) l ∧ WFNode (some p) ub r ∧ lbLT lb p ∧ ubOk ub p ∧
       entriesOf l ++ entriesOf r = upsertKV k v (entriesOf t))

/-- The fan-out bound: every leaf holds at most `MAX_KEYS_LEAF` keys and
every internal node at most `MAX_KEYS_INTERNAL` keys. -/
inductive SizeOk : BNode → Prop where
  | leaf : ∀ (ks : List Nat) (vs : List String), ks.length ≤ MAX_KEYS_LEAF →
      SizeOk (.leaf ks vs)
  | internal : ∀ (keys : List Nat) (children : List BNode),
      keys.length ≤ MAX_KEYS_INTERNAL → (∀ c ∈ children, SizeOk c) →
      SizeOk (.internal keys children)

/-- Inductive property for size preservation through `insertNode`. -/
def InsSizeP (t : BNode) : Prop :=
  ∀ (k : Nat) (v : String), SizeOk t →
    (∀ t', insertNode t k v = .noSplit t' → SizeOk t') ∧
    (∀ l r p, insertNode t k v = .split l r p → SizeOk l ∧ SizeOk r)

/-- Concatenated records of a list of leaves (the records seen when walking
`nextLeaf` links). -/
def leavesEntries : List (List Nat × List String) → List (KeyType × ValueType)
  | [] => []
  | (ks, vs) :: rest => ks.zip vs ++ leavesEntries rest

/-- The descent property of `findLeafForKey`: the chain of leaves reached
for `low` is a suffix of the in-order leaf list, and every record in the
skipped prefix has key `< low`. -/
def ChainP (t : BNode) : Prop :=
  ∀ (lb ub : Option Nat), WFNode lb ub t → ∀ low, lbOk lb low → ubOk ub low →
    ∃ pre, leafListOf t = pre ++ leafChainFrom t low ∧
      ∀ p ∈ leavesEntries pre, p.1 < low

/-- The record filter of `rangeQuery`: `low ≤ key ≤ high`. -/
def inRange (low high : Nat) (p : KeyType × ValueType) : Bool :=
  decide (low ≤ p.1) && decide (p.1 ≤ high)

/-- A concrete full leaf used to witness the leaf-split postcondition. -/
def c4leaf : LeafNodeA := ⟨List.range 30, List.replicate 30 "a", some 99⟩

/-! ## Last-writer-wins machinery for the LSM tree -/

/-- First raw memtable hit for `k` (tombstones included), in scan order. -/
def rawMems (k : KeyType) : List (List (KeyType × ValueType)) → Option ValueType
  | [] => none
  | m :: rest =>
    match lookupKV k m with
    | some v => some v
    | none => rawMems k rest

/-- First raw SSTable hit for `k` (tombstones included), in scan order. -/
def rawTabs (k : KeyType) : List SSTable → Option ValueType
  | [] => none
  | t :: rest =>
    match lookupKV k t.data with
    | some v => some v
    | none => rawTabs k rest

/-- All SSTables in read order: L0 newest-first, then levels 1.. in level
order. -/
def tabsOf (s : LSMState) : List SSTable :=
  (s.levels.getD 0 []).reverse ++ (s.levels.drop 1).flatten

/-- Structural well-formedness of an LSM state, maintained by every event:
level count, L0 id-sorting, id freshness and uniqueness, SSTable key-range
bounds and map key uniqueness, upper-level min-key sorting, and memtable key
uniqueness. -/
structure WfL (cfg : LSMConfig) (s : LSMState) : Prop where
  len : s.levels.length = cfg.max_levels
  l0sorted : (s.levels.getD 0 []).Pairwise (fun a b => a.id < b.id)
  idsLt : ∀ l ∈ s.levels, ∀ t ∈ l, t.id < s.nextId
  idsNodup : ∀ l ∈ s.levels, (l.map SSTable.id).Nodup
  bounds : ∀ l ∈ s.levels, ∀ t ∈ l, ∀ p ∈ t.data, t.min_key ≤ p.1 ∧ p.1 ≤ t.max_key
  dataNodup : ∀ l ∈ s.levels, ∀ t ∈ l, (keysOfKV t.data).Nodup
  upperSorted : ∀ l ∈ s.levels.drop 1, l.Pairwise (fun a b => a.min_key ≤ b.min_key)
  activeNodup : (keysOfKV s.active).Nodup
  immsNodup : ∀ m ∈ s.imms, (keysOfKV m).Nodup

/-- Key-localised read invariant: the first raw hit for `k` is `v`, either
in the memtables, or (with `k` absent from every memtable) in the SSTables. -/
def KState (k : KeyType) (v : ValueType) (s : LSMState) : Prop :=
  rawMems k (s.active :: s.imms.reverse) = some v ∨
  (rawMems k (s.active :: s.imms.reverse) = none ∧
   rawTabs k (tabsOf s) = some v)

/-- At most one table per upper level holds `k` (maintained by every event;
needed to track the merge value through a compaction). -/
def KUnique (k : KeyType) (s : LSMState) : Prop :=
  ∀ l ∈ s.levels.drop 1, ∀ t1 ∈ l, ∀ t2 ∈ l,
    lookupKV k t1.data ≠ none → lookupKV k t2.data ≠ none → t1 = t2

/-- An event that is not a write to key `k`. -/
def OtherKeyOp (k : KeyType) : LSMOp → Bool
  | .put k' _ => k' ≠ k
  | .del k' => k' ≠ k
  | .flush => true
  | .compact _ => true

theorem lookupKV_mapInsert_self (k : KeyType) (v : ValueType) (m : List (KeyType × ValueType)) :
    lookupKV k (mapInsert k v m) = some v := by
  induction m with
  | nil => simp [mapInsert, lookupKV]
  | cons p rest ih =>
    obtain ⟨k', v'⟩ := p
    by_cases h : k' = k <;> simp [mapInsert, lookupKV, h, ih]

theorem lookupKV_mapInsert_ne (k k' : KeyType) (v : ValueType) (m : List (KeyType × ValueType))
    (h : k ≠ k') : lookupKV k' (mapInsert k v m) = lookupKV k' m := by
  induction m with
  | nil => simp [mapInsert, lookupKV, h]
  | cons p rest ih =>
    obtain ⟨k₀, v₀⟩ := p
    by_cases h0 : k₀ = k
    · subst h0
      simp [mapInsert, lookupKV, h]
    · simp [mapInsert, lookupKV, h0, ih]

theorem mapInsert_of_not_mem (k : KeyType) (v : ValueType) (m : List (KeyType × ValueType))
    (h : k ∉ keysOfKV m) : mapInsert k v m = m ++ [(k, v)] := by
  induction m with
  | nil => simp [mapInsert]
  | cons p rest ih =>
    obtain ⟨k', v'⟩ := p
    simp only [keysOfKV, List.map_cons, List.mem_cons] at h
    push_neg at h
    have h1 : ¬ k' = k := fun hh => h.1 hh.symm
    simp only [mapInsert, if_neg h1, List.cons_append, List.cons.injEq, true_and]
    exact ih (by simpa [keysOfKV] using h.2)

theorem keysOfKV_mapInsert (k : KeyType) (v : ValueType) (m : List (KeyType × ValueType)) :
    keysOfKV (mapInsert k v m) = if k ∈ keysOfKV m then keysOfKV m else keysOfKV m ++ [k] := by
  induction m with
  | nil => simp [mapInsert, keysOfKV]
  | cons p rest ih =>
    obtain ⟨k', v'⟩ := p
    by_cases h : k' = k
    · subst h
      simp [mapInsert, keysOfKV]
    · have hne : ¬ k = k' := fun hh => h hh.symm
      simp only [mapInsert, if_neg h, keysOfKV, List.map_cons, List.mem_cons]
      by_cases hm : k ∈ keysOfKV rest
      · simp only [keysOfKV] at hm ih
        simp [hm, hne, ih]
      · simp only [keysOfKV] at hm ih
        simp [hm, hne, ih]

theorem nodup_keys_mapInsert (k : KeyType) (v : ValueType) (m : List (KeyType × ValueType))
    (h : (keysOfKV m).Nodup) : (keysOfKV (mapInsert k v m)).Nodup := by
  rw [keysOfKV_mapInsert]
  by_cases hm : k ∈ keysOfKV m
  · simpa [hm]
  · simp only [if_neg hm]
    simpa [List.nodup_append] using ⟨h, hm⟩

theorem lookupKV_isSome_of_mem (k : KeyType) (m : List (KeyType × ValueType))
    (h : k ∈ keysOfKV m) : (lookupKV k m).isSome := by
  induction m with
  | nil => simp [keysOfKV] at h
  | cons p rest ih =>
    obtain ⟨k', v'⟩ := p
    by_cases hk : k' = k
    · simp [lookupKV, hk]
    · simp only [keysOfKV, List.map_cons, List.mem_cons] at h
      rcases h with h | h

      · exact absurd h.symm hk
      · simp only [lookupKV, if_neg hk]
        exact ih (by simpa [keysOfKV] using h)

theorem mem_of_lookupKV_isSome (k : KeyType) (m : List (KeyType × ValueType))
    (h : (lookupKV k m).isSome) : k ∈ keysOfKV m := by
  induction m with
  | nil => simp [lookupKV] at h
  | cons p rest ih =>
    obtain ⟨k', v'⟩ := p
    by_cases hk : k' = k
    · simp [keysOfKV, hk]
    · simp only [lookupKV, if_neg hk] at h
      simp only [keysOfKV, List.map_cons, List.mem_cons]
      exact Or.inr (ih h)

theorem lookupKV_eq_none_of_not_mem (k : KeyType) (m : List (KeyType × ValueType))
    (h : k ∉ keysOfKV m) : lookupKV k m = none := by
  cases hl : lookupKV k m with
  | none => rfl
  | some v =>
    exact absurd (mem_of_lookupKV_isSome k m (by simp [hl])) h

theorem lookupKV_mem (k : KeyType) (v : ValueType) (m : List (KeyType × ValueType))
    (h : lookupKV k m = some v) : (k, v) ∈ m := by
  induction m with
  | nil => simp [lookupKV] at h
  | cons p rest ih =>
    obtain ⟨k', v'⟩ := p
    by_cases hk : k' = k
    · subst hk
      have h' : some v' = some v := by simpa [lookupKV] using h
      cases h'
      exact List.mem_cons_self _ _
    · simp only [lookupKV, if_neg hk] at h
      exact List.mem_cons_of_mem _ (ih h)

theorem lookupKV_of_mem_nodup (k : KeyType) (v : ValueType) (m : List (KeyType × ValueType))
    (hmem : (k, v) ∈ m) (hnd : (keysOfKV m).Nodup) : lookupKV k m = some v := by
  induction m with
  | nil => simp at hmem
  | cons p rest ih =>
    obtain ⟨k', v'⟩ := p
    simp only [keysOfKV, List.map_cons, List.nodup_cons] at hnd
    rcases List.mem_cons.mp hmem with heq | hmem'
    · rw [Prod.mk.injEq] at heq
      obtain ⟨h1, h2⟩ := heq
      subst h1; subst h2
      simp [lookupKV]
    · have hk : k' ≠ k := by
        intro hkk
        subst hkk
        exact hnd.1 (List.mem_map_of_mem Prod.fst hmem')
      simp only [lookupKV, if_neg hk]
      exact ih hmem' (by simpa [keysOfKV] using hnd.2)

theorem getD_set_self_nat (l : List Nat) (i : Nat) (x : Nat) (h : i < l.length) :
    (l.set i x).getD i 0 = x := by
  rw [List.getD_eq_getElem?_getD, List.getElem?_set_self h]
  rfl

theorem getD_set_ne_nat (l : List Nat) (i j : Nat) (x : Nat) (h : i ≠ j) :
    (l.set i x).getD j 0 = l.getD j 0 := by
  rw [List.getD_eq_getElem?_getD, List.getElem?_set_ne h, ← List.getD_eq_getElem?_getD]

theorem and_or_self_mask (x m : Nat) : (x ||| m) &&& m = m := by
  apply Nat.eq_of_testBit_eq
  intro i
  simp only [Nat.testBit_and, Nat.testBit_or]
  cases hm : m.testBit i <;> simp [hm]

theorem and_mask_mono (b c m : Nat) (h : b &&& m = m) : (b ||| c) &&& m = m := by
  apply Nat.eq_of_testBit_eq
  intro i
  have := congrArg (fun x => x.testBit i) h
  simp only [Nat.testBit_and] at this
  simp only [Nat.testBit_and, Nat.testBit_or]
  cases hm : m.testBit i
  · simp [hm]
  · rw [hm] at this
    simp only [Bool.and_true] at this
    simp [hm, this]

theorem bloomQuery_of_holds (h : Nat → Nat) (f : RegisterBlockedBloomFilter) (k : Nat)
    (hh : bloomHolds h f k) : bloomQuery h f k = true := by
  simp only [bloomQuery, beq_iff_eq]
  exact hh

theorem bloomInsert_blocks_length (h : Nat → Nat) (f : RegisterBlockedBloomFilter) (key : Nat) :
    (bloomInsert h f key).blocks.length = f.blocks.length := by
  simp [bloomInsert]

theorem bloomHolds_insert_self (h : Nat → Nat) (f : RegisterBlockedBloomFilter) (k : Nat)
    (hlen : f.blocks.length = f.num_blocks) (hnb : f.num_blocks ≠ 0) :
    bloomHolds h (bloomInsert h f k) k := by
  have hidx : bloomBlockIdx h f.num_blocks (h k) < f.blocks.length := by
    rw [hlen]
    exact Nat.mod_lt _ (Nat.pos_of_ne_zero hnb)
  simp only [bloomHolds, bloomInsert]
  rw [getD_set_self_nat _ _ _ hidx]
  exact and_or_self_mask _ _

theorem bloomHolds_insert_other (h : Nat → Nat) (f : RegisterBlockedBloomFilter) (k other : Nat)
    (hh : bloomHolds h f k) : bloomHolds h (bloomInsert h f other) k := by
  simp only [bloomHolds, bloomInsert] at hh ⊢
  by_cases heq :
      bloomBlockIdx h f.num_blocks (h other) = bloomBlockIdx h f.num_blocks (h k)
  · rw [heq]
    by_cases hin : bloomBlockIdx h f.num_blocks (h k) < f.blocks.length
    · rw [getD_set_self_nat _ _ _ hin]
      exact and_mask_mono _ _ _ hh
    · rw [List.set_eq_of_length_le (by omega)]
      exact hh
  · rw [getD_set_ne_nat _ _ _ _ heq]
    exact hh

theorem bloomInsertAll_blocks_length (h : Nat → Nat) (f : RegisterBlockedBloomFilter)
    (ks : List Nat) : (bloomInsertAll h f ks).blocks.length = f.blocks.length := by
  induction ks generalizing f with
  | nil => rfl
  | cons a t ih =>
    simpa [bloomInsertAll, bloomInsert_blocks_length] using ih (bloomInsert h f a)

theorem bloomHolds_insertAll (h : Nat → Nat) (f : RegisterBlockedBloomFilter) (ks : List Nat)
    (k : Nat) (hh : bloomHolds h f k) : bloomHolds h (bloomInsertAll h f ks) k := by
  induction ks generalizing f with
  | nil => exact hh
  | cons a t ih => exact ih (bloomInsert h f a) (bloomHolds_insert_other h f k a hh)

theorem bloomHolds_of_mem (h : Nat → Nat) (f : RegisterBlockedBloomFilter) (ks : List Nat)
    (k : Nat) (hk : k ∈ ks) (hlen : f.blocks.length = f.num_blocks)
    (hnb : f.num_blocks ≠ 0) : bloomHolds h (bloomInsertAll h f ks) k := by
  induction ks generalizing f with
  | nil => simp at hk
  | cons a t ih =>
    rcases List.mem_cons.mp hk with rfl | hmem
    · exact bloomHolds_insertAll h _ t k (bloomHolds_insert_self h f k hlen hnb)
    · exact ih (bloomInsert h f a) hmem (by rw [bloomInsert_blocks_length]; exact hlen) hnb

theorem foldMinKey_le_init (entries : List (KeyType × ValueType)) (init : KeyType) :
    foldMinKey entries init ≤ init := by
  induction entries generalizing init with
  | nil => exact le_refl _
  | cons kv rest ih =>
    exact le_trans (ih (min init kv.1)) (min_le_left _ _)

theorem foldMinKey_le_mem (entries : List (KeyType × ValueType)) (init : KeyType)
    (kv : KeyType × ValueType) (h : kv ∈ entries) : foldMinKey entries init ≤ kv.1 := by
  induction entries generalizing init with
  | nil => simp at h
  | cons kv0 rest ih =>
    rcases List.mem_cons.mp h with rfl | hmem
    · exact le_trans (foldMinKey_le_init rest (min init kv.1)) (min_le_right _ _)
    · exact ih _ hmem

theorem init_le_foldMaxKey (entries : List (KeyType × ValueType)) (init : KeyType) :
    init ≤ foldMaxKey entries init := by
  induction entries generalizing init with
  | nil => exact le_refl _
  | cons kv rest ih =>
    exact le_trans (le_max_left _ _) (ih (max init kv.1))

theorem mem_le_foldMaxKey (entries : List (KeyType × ValueType)) (init : KeyType)
    (kv : KeyType × ValueType) (h : kv ∈ entries) : kv.1 ≤ foldMaxKey entries init := by
  induction entries generalizing init with
  | nil => simp at h
  | cons kv0 rest ih =>
    rcases List.mem_cons.mp h with rfl | hmem
    · exact le_trans (le_max_right _ _) (init_le_foldMaxKey rest (max init kv.1))
    · exact ih _ hmem

theorem mapInsert_cons_eq (k : KeyType) (v v' : ValueType) (rest : List (KeyType × ValueType)) :
    mapInsert k v ((k, v') :: rest) = (k, v) :: rest := by
  simp [mapInsert]

theorem mapInsert_cons_ne (k k' : KeyType) (v v' : ValueType)
    (rest : List (KeyType × ValueType)) (h : k' ≠ k) :
    mapInsert k v ((k', v') :: rest) = (k', v') :: mapInsert k v rest := by
  simp [mapInsert, h]

theorem mem_mapInsert_elim (k : KeyType) (v : ValueType) (m : List (KeyType × ValueType))
    (kv : KeyType × ValueType) (h : kv ∈ mapInsert k v m) : kv = (k, v) ∨ kv ∈ m := by
  induction m with
  | nil => simpa [mapInsert] using h
  | cons p rest ih =>
    obtain ⟨k', v'⟩ := p
    by_cases hk : k' = k
    · subst hk
      rw [mapInsert_cons_eq] at h
      rcases List.mem_cons.mp h with h | h
      · exact Or.inl h
      · exact Or.inr (List.mem_cons_of_mem _ h)
    · rw [mapInsert_cons_ne _ _ _ _ _ hk] at h
      rcases List.mem_cons.mp h with h | h
      · exact Or.inr (h ▸ List.mem_cons_self _ _)
      · rcases ih h with h | h
        · exact Or.inl h
        · exact Or.inr (List.mem_cons_of_mem _ h)

theorem mem_foldl_mapInsert_elim (entries : List (KeyType × ValueType))
    (m0 : List (KeyType × ValueType)) (kv : KeyType × ValueType)
    (h : kv ∈ entries.foldl (fun m p => mapInsert p.1 p.2 m) m0) :
    kv ∈ entries ∨ kv ∈ m0 := by
  induction entries generalizing m0 with
  | nil => exact Or.inr h
  | cons p rest ih =>
    rcases ih (mapInsert p.1 p.2 m0) h with h | h
    · exact Or.inl (List.mem_cons_of_mem _ h)
    · rcases mem_mapInsert_elim p.1 p.2 m0 kv h with rfl | h
      · exact Or.inl (List.mem_cons_self _ _)
      · exact Or.inr h

theorem mem_rebuildMap_elim (entries : List (KeyType × ValueType)) (kv : KeyType × ValueType)
    (h : kv ∈ rebuildMap entries) : kv ∈ entries := by
  rcases mem_foldl_mapInsert_elim entries [] kv h with h | h
  · exact h
  · simp at h

theorem create_from_memtable_bounds (entries : List (KeyType × ValueType)) (sid : Nat)
    (t : SSTable) (hc : create_from_memtable entries sid = some t)
    (kv : KeyType × ValueType) (hkv : kv ∈ t.data) :
    t.min_key ≤ kv.1 ∧ kv.1 ≤ t.max_key := by
  match entries, hc with
  | kv0 :: rest, hc =>
    have ht : t = { id := sid, min_key := foldMinKey rest kv0.1,
                    max_key := foldMaxKey rest kv0.1, data := rebuildMap (kv0 :: rest) } := by
      simpa [create_from_memtable] using hc.symm
    subst ht
    have hmem : kv ∈ kv0 :: rest := mem_rebuildMap_elim _ kv hkv
    rcases List.mem_cons.mp hmem with rfl | hmem
    · exact ⟨foldMinKey_le_init _ _, init_le_foldMaxKey _ _⟩
    · exact ⟨foldMinKey_le_mem _ _ _ hmem, mem_le_foldMaxKey _ _ _ hmem⟩

theorem getD_set_self_gen {α : Type} (l : List α) (i : Nat) (x d : α) (h : i < l.length) :
    (l.set i x).getD i d = x := by
  rw [List.getD_eq_getElem?_getD, List.getElem?_set_self h]
  rfl

theorem getD_set_ne_gen {α : Type} (l : List α) (i j : Nat) (x d : α) (h : i ≠ j) :
    (l.set i x).getD j d = l.getD j d := by
  rw [List.getD_eq_getElem?_getD, List.getElem?_set_ne h, ← List.getD_eq_getElem?_getD]

theorem mem_sortedInsertBy {α : Type} (le : α → α → Bool) (x a : α) (l : List α) :
    a ∈ sortedInsertBy le x l ↔ a = x ∨ a ∈ l := by
  induction l with
  | nil => simp [sortedInsertBy]
  | cons b t ih =>
    by_cases h : le x b
    · simp only [sortedInsertBy, if_pos h, List.mem_cons]
    · simp only [sortedInsertBy, if_neg h, List.mem_cons, ih]
      tauto

theorem mem_sortListBy {α : Type} (le : α → α → Bool) (a : α) (l : List α) :
    a ∈ sortListBy le l ↔ a ∈ l := by
  induction l with
  | nil => simp [sortListBy]
  | cons b t ih =>
    simp only [sortListBy, mem_sortedInsertBy, List.mem_cons, ih]

theorem mem_stripTombstones (m : List (KeyType × ValueType)) (kv : KeyType × ValueType)
    (h : kv ∈ stripTombstones m) : kv ∈ m ∧ kv.2 ≠ TOMBSTONE_VALUE := by
  have := List.mem_filter.mp h
  refine ⟨this.1, ?_⟩
  simpa using this.2

theorem create_from_memtable_data_sub (entries : List (KeyType × ValueType)) (sid : Nat)
    (t : SSTable) (hc : create_from_memtable entries sid = some t)
    (kv : KeyType × ValueType) (hkv : kv ∈ t.data) : kv ∈ entries := by
  match entries, hc with
  | kv0 :: rest, hc =>
    have ht : t = { id := sid, min_key := foldMinKey rest kv0.1,
                    max_key := foldMaxKey rest kv0.1, data := rebuildMap (kv0 :: rest) } := by
      simpa [create_from_memtable] using hc.symm
    subst ht
    exact mem_rebuildMap_elim _ kv hkv

theorem buildSstChunks_preserve (P : KeyType × ValueType → Prop) (target : Nat)
    (entries build : List (KeyType × ValueType)) (nid : Nat) (acc : List SSTable)
    (hE : ∀ kv ∈ entries, P kv) (hB : ∀ kv ∈ build, P kv)
    (hA : ∀ t ∈ acc, ∀ kv ∈ t.data, P kv) :
    ∀ t ∈ (buildSstChunks target entries build nid acc).1, ∀ kv ∈ t.data, P kv := by
  induction entries generalizing build nid acc with
  | nil =>
    intro t ht kv hkv
    by_cases hb : build.isEmpty
    · simp only [buildSstChunks, if_pos hb] at ht
      exact hA t ht kv hkv
    · simp only [buildSstChunks, if_neg hb] at ht
      cases hc : create_from_memtable build nid with
      | none =>
        rw [hc] at ht
        exact hA t ht kv hkv
      | some t' =>
        rw [hc] at ht
        rcases List.mem_append.mp ht with ht | ht
        · exact hA t ht kv hkv
        · have : t = t' := by simpa using ht
          subst this
          exact hB kv (create_from_memtable_data_sub _ _ _ hc kv hkv)
  | cons e rest ih =>
    intro t ht kv hkv
    have hB' : ∀ kv ∈ mapInsert e.1 e.2 build, P kv := by
      intro kv' hkv'
      rcases mem_mapInsert_elim _ _ _ _ hkv' with rfl | hkv'
      · exact hE _ (List.mem_cons_self _ _)
      · exact hB _ hkv'
    have hE' : ∀ kv ∈ rest, P kv := fun kv' h' => hE _ (List.mem_cons_of_mem _ h')
    by_cases hfull : target ≤ (mapInsert e.1 e.2 build).length
    · simp only [buildSstChunks, if_pos hfull] at ht
      cases hc : create_from_memtable (mapInsert e.1 e.2 build) nid with
      | none =>
        rw [hc] at ht
        exact ih [] (nid + 1) acc hE' (by simp) hA t ht kv hkv
      | some t' =>
        rw [hc] at ht
        refine ih [] (nid + 1) (acc ++ [t']) hE' (by simp) ?_ t ht kv hkv
        intro u hu kv' hkv'
        rcases List.mem_append.mp hu with hu | hu
        · exact hA u hu kv' hkv'
        · have : u = t' := by simpa using hu
          subst this
          exact hB' kv' (create_from_memtable_data_sub _ _ _ hc kv' hkv')
    · simp only [buildSstChunks, if_neg hfull] at ht
      exact ih (mapInsert e.1 e.2 build) nid acc hE' hB' hA t ht kv hkv

theorem compact_data_no_tombstone (max_levels target i : Nat)
    (sources targets : List SSTable) (nid : Nat) (out : List SSTable × Nat)
    (hc : compact_sstables_data max_levels target i sources targets nid = some out) :
    ∀ t ∈ out.1, ∀ kv ∈ t.data, kv.2 ≠ TOMBSTONE_VALUE := by
  by_cases h1 : sources.isEmpty
  · simp [compact_sstables_data, h1] at hc
  · by_cases h2 : max_levels ≤ i + 1
    · simp [compact_sstables_data, h1, h2] at hc
    · simp only [compact_sstables_data, if_neg h1, if_neg h2, Option.some.injEq] at hc
      subst hc
      exact buildSstChunks_preserve _ _ _ _ _ _
        (fun kv h => (mem_stripTombstones _ kv h).2) (by simp) (by simp)

theorem removeCompacted_sub (level compacted : List SSTable) (t : SSTable)
    (h : t ∈ removeCompacted level compacted) : t ∈ level :=
  (List.mem_filter.mp h).1

theorem segEnd_eq (N S i : Nat) (hS : 0 < S) (hi : i < S) :
    segEnd N S i = (i + 1) * N / S := by
  unfold segEnd
  by_cases h : i = S - 1
  · have hiS : i + 1 = S := by omega
    rw [if_pos h, hiS, Nat.mul_div_cancel_left N hS]
  · rw [if_neg h]

theorem segStart_mono (N S : Nat) (j j' : Nat) (h : j ≤ j') :
    segStart N S j ≤ segStart N S j' :=
  Nat.div_le_div_right (Nat.mul_le_mul_right N h)

theorem segEnd_le_N (N S j : Nat) (hS : 0 < S) (hj : j < S) :
    segEnd N S j ≤ N := by
  rw [segEnd_eq N S j hS hj]
  calc (j + 1) * N / S ≤ S * N / S := Nat.div_le_div_right (Nat.mul_le_mul_right N hj)
    _ = N := Nat.mul_div_cancel_left N hS

theorem segStart_lt_segEnd (N S j : Nat) (hS : 0 < S) (hSN : S ≤ N) (hj : j < S) :
    segStart N S j < segEnd N S j := by
  rw [segEnd_eq N S j hS hj]
  unfold segStart
  rw [show (j + 1) * N = j * N + N from by ring]
  have h1 : j * N / S + 1 = (j * N + S) / S := (Nat.add_div_right _ hS).symm
  have h2 : (j * N + S) / S ≤ (j * N + N) / S :=
    Nat.div_le_div_right (Nat.add_le_add_left hSN _)
  omega

theorem segEnd_eq_segStart_succ (N S j : Nat) (hS : 0 < S) (hj : j < S) :
    segEnd N S j = segStart N S (j + 1) := by
  rw [segEnd_eq N S j hS hj]
  rfl

theorem trainLinearModel_isSome (keys gidx : List Nat) (h : keys.length ≠ 0) :
    ∃ s c e, trainLinearModel keys gidx = some (s, c, e) := by
  unfold trainLinearModel
  rw [if_neg h]
  by_cases h1 : keys.length = 1
  · rw [if_pos h1]
    exact ⟨_, _, _, rfl⟩
  · rw [if_neg h1]
    by_cases h2 : keys.headD 0 = keys.getLastD 0
    · rw [if_pos h2]
      exact ⟨_, _, _, rfl⟩
    · rw [if_neg h2]
      by_cases h3 : |(keys.length : ℚ) * sumXsq keys - sumX keys * sumX keys| <
          1 / 1000000000000
      · rw [if_pos h3]
        exact ⟨_, _, _, rfl⟩
      · rw [if_neg h3]
        exact ⟨_, _, _, rfl⟩

theorem foldl_body_append {β : Type} (l : List Nat) (body : List β → Nat → List β)
    (g : Nat → β) (hb : ∀ acc, ∀ i ∈ l, body acc i = acc ++ [g i]) (init : List β) :
    l.foldl body init = init ++ l.map g := by
  induction l generalizing init with
  | nil => simp
  | cons a t ih =>
    simp only [List.foldl_cons, List.map_cons]
    rw [hb init a (List.mem_cons_self _ _),
      ih (fun acc i hi => hb acc i (List.mem_cons_of_mem _ hi)) (init ++ [g a])]
    simp

theorem slice_length (ks : List KeyType) (start cnt : Nat) (h : start + cnt ≤ ks.length) :
    ((ks.drop start).take cnt).length = cnt := by
  simp only [List.length_take, List.length_drop]
  omega

theorem liTrainSegments_eq_map (ks : List KeyType) (S : Nat) (hS : 0 < S)
    (hSN : S ≤ ks.length) :
    liTrainSegments ks ks.length S = (List.range S).map (segModelAt ks ks.length S) := by
  unfold liTrainSegments
  apply foldl_body_append
  intro acc i hi
  have hiS : i < S := List.mem_range.mp hi
  have hcnt : segEnd ks.length S i - segStart ks.length S i ≠ 0 := by
    have := segStart_lt_segEnd ks.length S i hS hSN hiS
    omega
  have hlen : ((ks.drop (segStart ks.length S i)).take
      (segEnd ks.length S i - segStart ks.length S i)).length =
      segEnd ks.length S i - segStart ks.length S i := by
    apply slice_length
    have := segEnd_le_N ks.length S i hS hiS
    have := segStart_lt_segEnd ks.length S i hS hSN hiS
    omega
  obtain ⟨s, c, e, hsome⟩ := trainLinearModel_isSome _
    (((List.range ks.length).drop (segStart ks.length S i)).take
      (segEnd ks.length S i - segStart ks.length S i)) (by rw [hlen]; exact hcnt)
  simp only [if_neg hcnt, hsome]
  unfold segModelAt
  simp only [hsome]

theorem numSegmentsOf_pos (N : Nat) : 0 < numSegmentsOf N := by
  unfold numSegmentsOf
  by_cases h : N < LEARNED_INDEX_MIN_KEYS_FOR_MULTISEGMENT
  · simp [h]
  · rw [if_neg h]
    exact lt_of_lt_of_le Nat.zero_lt_one (Nat.le_max_left _ _)

theorem numSegmentsOf_le (N : Nat) (hN : 0 < N) : numSegmentsOf N ≤ N := by
  unfold numSegmentsOf LEARNED_INDEX_MIN_KEYS_FOR_MULTISEGMENT
    LEARNED_INDEX_TARGET_KEYS_PER_SEGMENT
  by_cases h : N < 256 * 2
  · simpa [h] using hN
  · rw [if_neg h]
    have h1 : (N + 256 - 1) / 256 ≤ N := by
      have : N + 256 - 1 < 256 * (N + 1) := by omega
      have := (Nat.div_lt_iff_lt_mul (by norm_num : 0 < 256)).mpr
        (by omega : N + 256 - 1 < (N + 1) * 256)
      omega
    have h2 : 1 ≤ N := hN
    exact max_le h2 h1

theorem liTrain_segments_length (ks : List KeyType) (hne : ks.length ≠ 0) :
    (liTrain ks).segments.length = numSegmentsOf ks.length := by
  unfold liTrain
  rw [if_neg hne]
  simp only
  rw [liTrainSegments_eq_map ks (numSegmentsOf ks.length) (numSegmentsOf_pos _)
    (numSegmentsOf_le _ (Nat.pos_of_ne_zero hne))]
  simp

theorem le_residual_foldl (s c : ℚ) (pairs : List (Nat × Nat)) (init : ℚ) :
    init ≤ pairs.foldl (fun acc p => max acc |s * (p.1 : ℚ) + c - (p.2 : ℚ)|) init := by
  induction pairs generalizing init with
  | nil => exact le_refl _
  | cons p t ih => exact le_trans (le_max_left _ _) (ih _)

theorem residual_le_foldl (s c : ℚ) (pairs : List (Nat × Nat)) (init : ℚ)
    (p : Nat × Nat) (hp : p ∈ pairs) :
    |s * (p.1 : ℚ) + c - (p.2 : ℚ)| ≤
      pairs.foldl (fun acc q => max acc |s * (q.1 : ℚ) + c - (q.2 : ℚ)|) init := by
  induction pairs generalizing init with
  | nil => simp at hp
  | cons q t ih =>
    rcases List.mem_cons.mp hp with rfl | hp'
    · exact le_trans (le_max_right _ _) (le_residual_foldl s c t _)
    · exact ih _ hp'

theorem residual_le_residualMax (s c : ℚ) (pairs : List (Nat × Nat))
    (p : Nat × Nat) (hp : p ∈ pairs) :
    |s * (p.1 : ℚ) + c - (p.2 : ℚ)| ≤ residualMax s c pairs :=
  residual_le_foldl s c pairs 0 p hp

theorem trainLinearModel_residual (keys gidx : List Nat) (s c e : ℚ)
    (h : trainLinearModel keys gidx = some (s, c, e)) :
    ∀ p ∈ keys.zip gidx, |s * (p.1 : ℚ) + c - (p.2 : ℚ)| ≤ e := by
  intro p hp
  by_cases h0 : keys.length = 0
  · simp [trainLinearModel, h0] at h
  by_cases h1 : keys.length = 1
  · simp only [trainLinearModel, if_neg h0, if_pos h1, Option.some.injEq,
      Prod.mk.injEq] at h
    obtain ⟨rfl, hc, rfl⟩ := h
    obtain ⟨k0, hk0⟩ := List.length_eq_one.mp h1
    subst hk0
    cases gidx with
    | nil => simp at hp
    | cons g t =>
      have hps : p = (k0, g) := by simpa using hp
      subst hps
      simp only [List.headD] at hc
      simp [← hc]
  by_cases h2 : keys.headD 0 = keys.getLastD 0
  · simp only [trainLinearModel, if_neg h0, if_neg h1, if_pos h2, Option.some.injEq,
      Prod.mk.injEq] at h
    obtain ⟨rfl, hc, rfl⟩ := h
    rw [← hc]
    exact residual_le_residualMax _ _ _ p hp
  by_cases h3 : |(keys.length : ℚ) * sumXsq keys - sumX keys * sumX keys| <
      1 / 1000000000000
  · simp only [trainLinearModel, if_neg h0, if_neg h1, if_neg h2, if_pos h3,
      Option.some.injEq, Prod.mk.injEq] at h
    obtain ⟨rfl, hc, rfl⟩ := h
    rw [← hc]
    exact residual_le_residualMax _ _ _ p hp
  · simp only [trainLinearModel, if_neg h0, if_neg h1, if_neg h2, if_neg h3,
      Option.some.injEq, Prod.mk.injEq] at h
    obtain ⟨hs, hc, he⟩ := h
    rw [← hs, ← hc, ← he]
    exact residual_le_residualMax _ _ _ p hp

theorem takeWhile_length_range' (q : Nat → Bool) (a n m : Nat) (hm : m ≤ n)
    (htrue : ∀ j, j < m → q (a + j) = true) (hfalse : m < n → q (a + m) = false) :
    ((List.range' a n).takeWhile q).length = m := by
  induction n generalizing a m with
  | zero =>
    have : m = 0 := by omega
    subst this
    simp
  | succ n ih =>
    rw [List.range'_succ]
    cases m with
    | zero =>
      have hqa : q a = false := by simpa using hfalse (by omega)
      simp [List.takeWhile_cons, hqa]
    | succ m' =>
      have hqa : q a = true := by simpa using htrue 0 (by omega)
      rw [List.takeWhile_cons, if_pos hqa, List.length_cons]
      rw [ih (a + 1) m' (by omega) ?ht ?hf]
      case ht =>
        intro j hj
        have := htrue (j + 1) (by omega)
        rwa [show a + (j + 1) = a + 1 + j from by omega] at this
      case hf =>
        intro hlt
        have := hfalse (by omega)
        rwa [show a + (m' + 1) = a + 1 + m' from by omega] at this

theorem sorted_getD_lt (ks : List Nat) (hs : ks.Pairwise (· < ·)) (i j : Nat)
    (hj : j < ks.length) (hij : i < j) : ks.getD i 0 < ks.getD j 0 := by
  have hi : i < ks.length := lt_trans hij hj
  rw [List.getD_eq_getElem _ _ hi, List.getD_eq_getElem _ _ hj]
  exact List.pairwise_iff_get.mp hs ⟨i, hi⟩ ⟨j, hj⟩ hij

theorem sorted_getD_le (ks : List Nat) (hs : ks.Pairwise (· < ·)) (i j : Nat)
    (hi : i ≤ j) (hj : j < ks.length) : ks.getD i 0 ≤ ks.getD j 0 := by
  rcases Nat.lt_or_ge i j with h | h
  · exact le_of_lt (sorted_getD_lt ks hs i j hj h)
  · have : i = j := by omega
    subst this
    exact le_refl _

theorem segIdxOf_spec (N S i : Nat) (hS : 0 < S) (_hSN : S ≤ N) (hi : i < N) :
    segIdxOf N S i < S ∧ segStart N S (segIdxOf N S i) ≤ i ∧ i < segEnd N S (segIdxOf N S i) := by
  have hP0 : segStart N S 0 ≤ i := by
    simp [segStart]
  have hspec : segStart N S (segIdxOf N S i) ≤ i := by
    have := @Nat.findGreatest_spec 0 (fun j => segStart N S j ≤ i) _ S (Nat.zero_le S) hP0
    simpa [segIdxOf] using this
  have hSS : segStart N S S = N := by
    unfold segStart
    exact Nat.mul_div_cancel_left N hS
  have hlt : segIdxOf N S i < S := by
    have hle : segIdxOf N S i ≤ S := Nat.findGreatest_le S
    rcases Nat.lt_or_ge (segIdxOf N S i) S with h | h
    · exact h
    · exfalso
      have heq : segIdxOf N S i = S := by omega
      rw [heq, hSS] at hspec
      omega
  refine ⟨hlt, hspec, ?_⟩
  have hnext : ¬ segStart N S (segIdxOf N S i + 1) ≤ i := by
    have := @Nat.findGreatest_is_greatest (segIdxOf N S i + 1)
      (fun j => segStart N S j ≤ i) _ S (by simp [segIdxOf]) (by omega)
    simpa using this
  rw [segEnd_eq_segStart_succ N S _ hS hlt]
  omega

theorem segModelAt_first_key (ks : List KeyType) (N S i : Nat) :
    (segModelAt ks N S i).first_key = ks.getD (segStart N S i) 0 := by
  unfold segModelAt
  dsimp only
  split <;> rfl

theorem segStart_lt_N (N S j : Nat) (hS : 0 < S) (hSN : S ≤ N) (hj : j < S) :
    segStart N S j < N :=
  lt_of_lt_of_le (segStart_lt_segEnd N S j hS hSN hj) (segEnd_le_N N S j hS hj)

theorem liTrain_segments_eq (ks : List KeyType) (hne : ks.length ≠ 0) :
    (liTrain ks).segments =
      (List.range (numSegmentsOf ks.length)).map
        (segModelAt ks ks.length (numSegmentsOf ks.length)) := by
  unfold liTrain
  rw [if_neg hne]
  exact liTrainSegments_eq_map ks (numSegmentsOf ks.length) (numSegmentsOf_pos _)
    (numSegmentsOf_le _ (Nat.pos_of_ne_zero hne))

theorem chooseSegment_liTrain (ks : List KeyType) (hs : ks.Pairwise (· < ·))
    (hne : ks.length ≠ 0) (i : Nat) (hi : i < ks.length) :
    chooseSegment (liTrain ks).segments (ks.getD i 0) =
      some (segModelAt ks ks.length (numSegmentsOf ks.length)
        (segIdxOf ks.length (numSegmentsOf ks.length) i)) := by
  have hS : 0 < numSegmentsOf ks.length := numSegmentsOf_pos _
  have hSN : numSegmentsOf ks.length ≤ ks.length :=
    numSegmentsOf_le _ (Nat.pos_of_ne_zero hne)
  obtain ⟨hjS, hjlo, hjhi⟩ := segIdxOf_spec ks.length (numSegmentsOf ks.length) i hS hSN hi
  set N := ks.length with hN
  set S := numSegmentsOf N with hSdef
  set jstar := segIdxOf N S i with hjdef
  have hcnt : (((liTrain ks).segments).takeWhile
      (fun sm => sm.first_key ≤ ks.getD i 0)).length = jstar + 1 := by
    rw [liTrain_segments_eq ks hne, List.takeWhile_map, List.length_map,
      List.range_eq_range']
    apply takeWhile_length_range' _ 0 S (jstar + 1) (by omega)
    · intro j hj
      have hjS' : j < S := by omega
      simp only [Function.comp_apply, Nat.zero_add]
      rw [segModelAt_first_key]
      have h1 : segStart N S j ≤ i := by
        calc segStart N S j ≤ segStart N S jstar := segStart_mono N S _ _ (by omega)
          _ ≤ i := hjlo
      simpa using sorted_getD_le ks hs (segStart N S j) i h1 hi
    · intro hlt
      simp only [Function.comp_apply, Nat.zero_add]
      rw [segModelAt_first_key]
      have h1 : i < segStart N S (jstar + 1) := by
        rw [← segEnd_eq_segStart_succ N S jstar hS hjS]
        exact hjhi
      have h2 : segStart N S (jstar + 1) < N := segStart_lt_N N S (jstar + 1) hS hSN hlt
      have := sorted_getD_lt ks hs i (segStart N S (jstar + 1)) h2 h1
      simpa using not_le.mpr this
  unfold chooseSegment
  rw [hcnt, if_neg (by omega)]
  rw [liTrain_segments_eq ks hne]
  rw [show jstar + 1 - 1 = jstar from by omega]
  rw [List.getElem?_map, List.getElem?_range hjS]
  rfl

theorem headD_eq_getD (ks : List Nat) (h : ks ≠ []) : ks.headD 0 = ks.getD 0 0 := by
  cases ks with
  | nil => exact absurd rfl h
  | cons a t => rfl

theorem getLastD_eq_getD (ks : List Nat) : ks.getLastD 0 = ks.getD (ks.length - 1) 0 := by
  rw [List.getLastD_eq_getLast?, List.getLast?_eq_getElem?, List.getD_eq_getElem?_getD]

theorem liTrain_min_key (ks : List KeyType) (hne : ks.length ≠ 0) :
    (liTrain ks).min_overall_key = ks.getD 0 0 := by
  unfold liTrain
  rw [if_neg hne]
  exact headD_eq_getD ks (by intro h; rw [h] at hne; exact hne rfl)

theorem liTrain_max_key (ks : List KeyType) (hne : ks.length ≠ 0) :
    (liTrain ks).max_overall_key = ks.getD (ks.length - 1) 0 := by
  unfold liTrain
  rw [if_neg hne]
  exact getLastD_eq_getD ks

theorem liTrain_total (ks : List KeyType) (hne : ks.length ≠ 0) :
    (liTrain ks).total_keys_trained_on = ks.length := by
  unfold liTrain
  rw [if_neg hne]

theorem liTrain_trained (ks : List KeyType) (hne : ks.length ≠ 0) :
    (liTrain ks).model_trained = true := by
  have hlen := liTrain_segments_length ks hne
  have hpos := numSegmentsOf_pos ks.length
  have hnonempty : (liTrain ks).segments ≠ [] := by
    intro h
    rw [h] at hlen
    simp at hlen
    omega
  unfold liTrain at hnonempty ⊢
  rw [if_neg hne] at hnonempty ⊢
  simpa using hnonempty

theorem liTrain_segments_not_empty (ks : List KeyType) (hne : ks.length ≠ 0) :
    (liTrain ks).segments.isEmpty = false := by
  have hlen := liTrain_segments_length ks hne
  have hpos := numSegmentsOf_pos ks.length
  rw [List.isEmpty_eq_false_iff_exists_mem]
  have : 0 < (liTrain ks).segments.length := by omega
  exact ⟨_, List.getElem_mem this⟩

theorem segModelAt_eq_of_tlm (ks : List KeyType) (N S j : Nat) (s c e : ℚ)
    (htlm : trainLinearModel
      ((ks.drop (segStart N S j)).take (segEnd N S j - segStart N S j))
      (((List.range N).drop (segStart N S j)).take (segEnd N S j - segStart N S j)) =
      some (s, c, e)) :
    segModelAt ks N S j = ⟨ks.getD (segStart N S j) 0, s, c, e,
      (List.range N).getD (segStart N S j) 0, segEnd N S j - segStart N S j⟩ := by
  unfold segModelAt
  dsimp only
  rw [htlm]

theorem predict_in_range (ks : List KeyType) (hs : ks.Pairwise (· < ·)) (i : Nat)
    (hi : i < ks.length) :
    (predictIndexRange (liTrain ks) (ks.getD i 0)).1 = true ∧
    (predictIndexRange (liTrain ks) (ks.getD i 0)).2.1 ≤ (i : Int) ∧
    (i : Int) ≤ (predictIndexRange (liTrain ks) (ks.getD i 0)).2.2 := by
  have hne : ks.length ≠ 0 := by omega
  have hS : 0 < numSegmentsOf ks.length := numSegmentsOf_pos _
  have hSN : numSegmentsOf ks.length ≤ ks.length :=
    numSegmentsOf_le _ (Nat.pos_of_ne_zero hne)
  obtain ⟨hjS, hjlo, hjhi⟩ :=
    segIdxOf_spec ks.length (numSegmentsOf ks.length) i hS hSN hi
  have hoend : segStart ks.length (numSegmentsOf ks.length)
        (segIdxOf ks.length (numSegmentsOf ks.length) i) +
      (segEnd ks.length (numSegmentsOf ks.length)
          (segIdxOf ks.length (numSegmentsOf ks.length) i) -
        segStart ks.length (numSegmentsOf ks.length)
          (segIdxOf ks.length (numSegmentsOf ks.length) i)) ≤ ks.length := by
    have := segEnd_le_N ks.length (numSegmentsOf ks.length)
      (segIdxOf ks.length (numSegmentsOf ks.length) i) hS hjS
    omega
  set N := ks.length with hN
  set S := numSegmentsOf N with hSdef
  set jstar := segIdxOf N S i with hjdef
  set o := segStart N S jstar with hodef
  set cnt := segEnd N S jstar - o with hcntdef
  have hlen_slice : ((ks.drop o).take cnt).length = cnt := slice_length ks o cnt hoend
  have hlen_g : (((List.range N).drop o).take cnt).length = cnt := by
    apply slice_length
    simpa using hoend
  have hcnt_pos : cnt ≠ 0 := by
    have := segStart_lt_segEnd N S jstar hS hSN hjS
    omega
  obtain ⟨s, c, e, htlm⟩ := trainLinearModel_isSome ((ks.drop o).take cnt)
    (((List.range N).drop o).take cnt) (by rw [hlen_slice]; exact hcnt_pos)
  have hchoose := chooseSegment_liTrain ks hs hne i hi
  have hseg := segModelAt_eq_of_tlm ks N S jstar s c e htlm
  have hpos : i - o < cnt := by omega
  have hzipmem : (ks.getD i 0, i) ∈
      ((ks.drop o).take cnt).zip (((List.range N).drop o).take cnt) := by
    have hidx : i - o < (((ks.drop o).take cnt).zip
        (((List.range N).drop o).take cnt)).length := by
      rw [List.length_zip, hlen_slice, hlen_g]
      omega
    have hval : (((ks.drop o).take cnt).zip (((List.range N).drop o).take cnt))[i - o] =
        (ks.getD i 0, i) := by
      rw [List.getElem_zip, Prod.mk.injEq]
      refine ⟨?_, ?_⟩
      · rw [List.getElem_take, List.getElem_drop,
          List.getD_eq_getElem ks 0 (show i < ks.length from hi)]
        congr 1
        omega
      · rw [List.getElem_take, List.getElem_drop, List.getElem_range]
        omega
    rw [← hval]
    exact List.getElem_mem hidx
  have habs := trainLinearModel_residual _ _ s c e htlm (ks.getD i 0, i) hzipmem
  simp only at habs
  have hab := abs_le.mp habs
  have hcond1 : ¬(¬(liTrain ks).model_trained = true ∨
      (liTrain ks).segments.isEmpty = true ∨ (liTrain ks).total_keys_trained_on = 0) := by
    rw [liTrain_trained ks hne, liTrain_segments_not_empty ks hne, liTrain_total ks hne]
    simp [hne]
  have hcond2 : ¬(ks.getD i 0 < (liTrain ks).min_overall_key ∨
      (liTrain ks).max_overall_key < ks.getD i 0) := by
    rw [liTrain_min_key ks hne, liTrain_max_key ks hne]
    push_neg
    refine ⟨sorted_getD_le ks hs 0 i (Nat.zero_le i) hi,
      sorted_getD_le ks hs i (ks.length - 1) (by omega) (by omega)⟩
  unfold predictIndexRange
  rw [if_neg hcond1, if_neg hcond2, hchoose, hseg]
  refine ⟨rfl, ?_, ?_⟩
  · show ⌈max (0 : ℚ) (s * ((ks.getD i 0 : Nat) : ℚ) + c - e)⌉ ≤ (i : Int)
    rw [Int.ceil_le]
    push_cast
    apply max_le
    · positivity
    · linarith [hab.2]
  · show (i : Int) ≤ ⌊min (((liTrain ks).total_keys_trained_on - 1 : Nat) : ℚ)
      (s * ((ks.getD i 0 : Nat) : ℚ) + c + e)⌋
    rw [Int.le_floor, liTrain_total ks hne]
    apply le_min
    · have h1 : i ≤ N - 1 := by omega
      have h2 : ((i : Nat) : ℚ) ≤ ((N - 1 : Nat) : ℚ) := Nat.cast_le.mpr h1
      push_cast
      push_cast at h2
      convert h2 using 2
    · push_cast
      linarith [hab.1]

theorem numSegmentsOf_eq (N : Nat) :
    numSegmentsOf N = if N < LEARNED_INDEX_MIN_KEYS_FOR_MULTISEGMENT then 1
      else (N + LEARNED_INDEX_TARGET_KEYS_PER_SEGMENT - 1) /
        LEARNED_INDEX_TARGET_KEYS_PER_SEGMENT := by
  unfold numSegmentsOf
  by_cases h : N < LEARNED_INDEX_MIN_KEYS_FOR_MULTISEGMENT
  · rw [if_pos h, if_pos h]
  · rw [if_neg h, if_neg h]
    apply Nat.max_eq_right
    rw [Nat.le_div_iff_mul_le]
    · unfold LEARNED_INDEX_MIN_KEYS_FOR_MULTISEGMENT LEARNED_INDEX_TARGET_KEYS_PER_SEGMENT at *
      omega
    · unfold LEARNED_INDEX_TARGET_KEYS_PER_SEGMENT
      omega

theorem liTrain_segment_content (ks : List KeyType) (hne : ks.length ≠ 0)
    (j : Nat) (hj : j < (liTrain ks).segments.length) :
    ∃ s c e, trainLinearModel
        ((ks.drop (segStart ks.length (numSegmentsOf ks.length) j)).take
          (segEnd ks.length (numSegmentsOf ks.length) j -
            segStart ks.length (numSegmentsOf ks.length) j))
        (((List.range ks.length).drop (segStart ks.length (numSegmentsOf ks.length) j)).take
          (segEnd ks.length (numSegmentsOf ks.length) j -
            segStart ks.length (numSegmentsOf ks.length) j)) = some (s, c, e) ∧
      (liTrain ks).segments.get ⟨j, hj⟩ =
        ⟨ks.getD (segStart ks.length (numSegmentsOf ks.length) j) 0, s, c, e,
          (List.range ks.length).getD (segStart ks.length (numSegmentsOf ks.length) j) 0,
          segEnd ks.length (numSegmentsOf ks.length) j -
            segStart ks.length (numSegmentsOf ks.length) j⟩ := by
  have hS : 0 < numSegmentsOf ks.length := numSegmentsOf_pos _
  have hSN : numSegmentsOf ks.length ≤ ks.length :=
    numSegmentsOf_le _ (Nat.pos_of_ne_zero hne)
  have hjS : j < numSegmentsOf ks.length := by
    have := liTrain_segments_length ks hne
    omega
  have hcnt : segEnd ks.length (numSegmentsOf ks.length) j -
      segStart ks.length (numSegmentsOf ks.length) j ≠ 0 := by
    have := segStart_lt_segEnd ks.length (numSegmentsOf ks.length) j hS hSN hjS
    omega
  have hoend : segStart ks.length (numSegmentsOf ks.length) j +
      (segEnd ks.length (numSegmentsOf ks.length) j -
        segStart ks.length (numSegmentsOf ks.length) j) ≤ ks.length := by
    have := segEnd_le_N ks.length (numSegmentsOf ks.length) j hS hjS
    omega
  obtain ⟨s, c, e, htlm⟩ := trainLinearModel_isSome _ _
    (by rw [slice_length ks _ _ hoend]; exact hcnt)
  refine ⟨s, c, e, htlm, ?_⟩
  have hget : (liTrain ks).segments.get ⟨j, hj⟩ =
      segModelAt ks ks.length (numSegmentsOf ks.length) j := by
    rw [List.get_eq_getElem]
    simp only [liTrain_segments_eq ks hne, List.getElem_map, List.getElem_range]
  rw [hget, segModelAt_eq_of_tlm ks _ _ j s c e htlm]

theorem lsmCompact_new_tables_no_tombstone (cfg : LSMConfig) (s : LSMState) (i : Nat) :
    ∀ t ∈ (lsmCompact cfg s i).levels.getD (i + 1) [],
      t ∈ s.levels.getD (i + 1) [] ∨ ∀ kv ∈ t.data, kv.2 ≠ TOMBSTONE_VALUE := by
  intro t ht
  unfold lsmCompact at ht
  dsimp only at ht
  cases hc : compact_sstables_data cfg.max_levels cfg.sstable_target_entry_count i
      (s.levels.getD i [])
      (if i + 1 < cfg.max_levels then
        findOverlapping (s.levels.getD i []) (s.levels.getD (i + 1) []) else [])
      s.nextId with
  | none =>
    rw [hc] at ht
    exact Or.inl ht
  | some out =>
    obtain ⟨newTs, nid⟩ := out
    rw [hc] at ht
    dsimp only at ht
    by_cases hlen : i + 1 <
        (s.levels.set i (removeCompacted (s.levels.getD i []) (s.levels.getD i []))).length
    · rw [getD_set_self_gen _ _ _ _ hlen, mem_sortListBy] at ht
      rcases List.mem_append.mp ht with hmem | hmem
      · left
        have := removeCompacted_sub _ _ _ hmem
        rwa [getD_set_ne_gen _ _ _ _ _ (by omega)] at this
      · right
        exact compact_data_no_tombstone cfg.max_levels cfg.sstable_target_entry_count i
          _ _ s.nextId (newTs, nid) hc t hmem
    · rw [List.set_eq_of_length_le (by omega), getD_set_ne_gen _ _ _ _ _ (by omega)] at ht
      exact Or.inl ht

/-! ## Claim theorems -/

/-- C1: the spec says that after put (7,"x"), rotate/flush, delete(7),
rotate/flush, `get(7)` must return not-found (the newer tombstone wins, and in
general a tombstone in the newest range-containing SSTable must stop the
scan).  The code violates this: `SSTable::find_key` reports a tombstone as a
plain miss, so `LSMTree::get` falls through to the older SSTable and
resurrects the deleted value.  This theorem evaluates the embedded code on
exactly the S4 scenario (memtable threshold 1, identity `std::hash`): L0
holds the older table `{7 ↦ "x"}` and the newer table `{7 ↦ tombstone}`, and
`get(7)` returns `some "x"` instead of not-found. -/
theorem claim_C1_tombstone_bug_eval :
    lsmGet (fun n => n)
      (lsmRun ⟨1, 4, 4, 256⟩ [.put 7 "x", .flush, .del 7, .flush]) 7 = some "x" := by
  rfl

/-- C2: every SSTable newly installed into level `i+1` by a compaction is free
of tombstone entries — any table of level `i+1` after `lsmCompact` either was
already there or contains no entry whose value is the tombstone sentinel
(when the compaction is skipped, e.g. `i+1 ≥ max_levels`, nothing new is
installed and the left disjunct holds). -/
theorem claim_C2_compaction_strips_tombstones (cfg : LSMConfig) (s : LSMState) (i : Nat) :
    ∀ t ∈ (lsmCompact cfg s i).levels.getD (i + 1) [],
      t ∈ s.levels.getD (i + 1) [] ∨ ∀ kv ∈ t.data, kv.2 ≠ TOMBSTONE_VALUE :=
  lsmCompact_new_tables_no_tombstone cfg s i

/-- Witness for C2: compacting level 0 of the state built by
`put(7,"x"); flush` installs the tombstone-free table with id 1 into
level 1. -/
theorem claim_C2_witness :
    (⟨1, 7, 7, [(7, "x")]⟩ : SSTable) ∈
      (lsmCompact ⟨1, 4, 4, 256⟩
        (lsmRun ⟨1, 4, 4, 256⟩ [.put 7 "x", .flush]) 0).levels.getD 1 [] ∧
    ((⟨1, 7, 7, [(7, "x")]⟩ : SSTable) ∈
        (lsmRun ⟨1, 4, 4, 256⟩ [.put 7 "x", .flush]).levels.getD 1 [] ∨
      ∀ kv ∈ (⟨1, 7, 7, [(7, "x")]⟩ : SSTable).data, kv.2 ≠ TOMBSTONE_VALUE) :=
  ⟨List.mem_cons_self _ _,
   claim_C2_compaction_strips_tombstones ⟨1, 4, 4, 256⟩
     (lsmRun ⟨1, 4, 4, 256⟩ [.put 7 "x", .flush]) 0 _ (List.mem_cons_self _ _)⟩

/-- C7: the Bloom filter has no false negatives: for every hash function,
every filter geometry with at least one block, and every sequence of
`Insert` calls containing `Insert(k)`, `Query(k)` answers true. -/
theorem claim_C7_bloom_no_false_negatives (h : Nat → Nat) (nb nh : Nat) (ks : List Nat)
    (k : Nat) (hk : k ∈ ks) (hnb : nb ≠ 0) :
    bloomQuery h (bloomInsertAll h (bloomNew nb nh) ks) k = true :=
  bloomQuery_of_holds h _ k
    (bloomHolds_of_mem h (bloomNew nb nh) ks k hk (by simp [bloomNew]) hnb)

/-- Witness for C7 at the default geometry (512 blocks, 7 hashes), the
identity hash, inserts {10, 20, 30} and query 10. -/
theorem claim_C7_witness :
    (10 ∈ [10, 20, 30]) ∧ ((512 : Nat) ≠ 0) ∧
    bloomQuery (fun n => n) (bloomInsertAll (fun n => n) (bloomNew 512 7) [10, 20, 30])
      10 = true :=
  ⟨by decide, by decide,
    claim_C7_bloom_no_false_negatives (fun n => n) 512 7 [10, 20, 30] 10
      (by decide) (by decide)⟩

/-- C8: the learned index has no false negatives on its training set: for a
strictly sorted training vector (the SSTable trains on the sorted distinct
keys of its map) and any key at sorted position `i`, `predict_index_range`
makes a prediction and the returned `[effective_min_idx, effective_max_idx]`
contains `i`.  (`double` arithmetic is modelled exactly over `ℚ`.) -/
theorem claim_C8_learned_index_no_false_negatives (ks : List KeyType) (i : Nat)
    (hs : ks.Pairwise (· < ·)) (hi : i < ks.length) :
    (predictIndexRange (liTrain ks) (ks.getD i 0)).1 = true ∧
    (predictIndexRange (liTrain ks) (ks.getD i 0)).2.1 ≤ (i : Int) ∧
    (i : Int) ≤ (predictIndexRange (liTrain ks) (ks.getD i 0)).2.2 :=
  predict_in_range ks hs i hi

/-- Witness for C8: training set {10, 20, 30}, queried at sorted position 1. -/
theorem claim_C8_witness :
    ([10, 20, 30] : List KeyType).Pairwise (· < ·) ∧ 1 < ([10, 20, 30] : List KeyType).length ∧
    ((predictIndexRange (liTrain [10, 20, 30]) (([10, 20, 30] : List KeyType).getD 1 0)).1 = true ∧
     (predictIndexRange (liTrain [10, 20, 30]) (([10, 20, 30] : List KeyType).getD 1 0)).2.1 ≤ (1 : Int) ∧
     (1 : Int) ≤ (predictIndexRange (liTrain [10, 20, 30]) (([10, 20, 30] : List KeyType).getD 1 0)).2.2) :=
  ⟨by decide, by decide,
    claim_C8_learned_index_no_false_negatives [10, 20, 30] 1 (by decide) (by decide)⟩

/-- C9 counterexample: the claim says `train` always produces
`⌈N/256⌉ = (N+255)/256` segments, but on 257 keys the code produces 1
segment (`N < LEARNED_INDEX_MIN_KEYS_FOR_MULTISEGMENT = 512` forces a single
segment) while `⌈257/256⌉ = 2`. -/
theorem claim_C9_counterexample :
    (liTrain (List.range 257)).segments.length = 1 ∧ (257 + 255) / 256 = 2 := by
  refine ⟨?_, by decide⟩
  rw [liTrain_segments_length (List.range 257) (by decide)]
  decide

/-- C9 amended: on a non-empty sorted vector of `N` keys, `train` produces
`1` segment when `N < 512` and `⌈N/256⌉` segments otherwise, and the `j`-th
segment's model is fitted (by `train_linear_model`) on the contiguous slice
`[segStart, segEnd)` of the keys, with global indices the same slice of
`0..N-1`, first key `keys[segStart]` and start index `segStart`. -/
theorem claim_C9_amended_segmentation (ks : List KeyType) (hne : ks.length ≠ 0) :
    (liTrain ks).segments.length =
      (if ks.length < LEARNED_INDEX_MIN_KEYS_FOR_MULTISEGMENT then 1
       else (ks.length + LEARNED_INDEX_TARGET_KEYS_PER_SEGMENT - 1) /
         LEARNED_INDEX_TARGET_KEYS_PER_SEGMENT) ∧
    ∀ j (hj : j < (liTrain ks).segments.length),
      ∃ s c e, trainLinearModel
          ((ks.drop (segStart ks.length (numSegmentsOf ks.length) j)).take
            (segEnd ks.length (numSegmentsOf ks.length) j -
              segStart ks.length (numSegmentsOf ks.length) j))
          (((List.range ks.length).drop (segStart ks.length (numSegmentsOf ks.length) j)).take
            (segEnd ks.length (numSegmentsOf ks.length) j -
              segStart ks.length (numSegmentsOf ks.length) j)) = some (s, c, e) ∧
        (liTrain ks).segments.get ⟨j, hj⟩ =
          ⟨ks.getD (segStart ks.length (numSegmentsOf ks.length) j) 0, s, c, e,
            (List.range ks.length).getD (segStart ks.length (numSegmentsOf ks.length) j) 0,
            segEnd ks.length (numSegmentsOf ks.length) j -
              segStart ks.length (numSegmentsOf ks.length) j⟩ := by
  refine ⟨?_, fun j hj => liTrain_segment_content ks hne j hj⟩
  rw [liTrain_segments_length ks hne, numSegmentsOf_eq]

/-- Witness for the amended C9 on the 3-key training set {10, 20, 30}. -/
theorem claim_C9_witness :
    (([10, 20, 30] : List KeyType).length ≠ 0) ∧
    (liTrain ([10, 20, 30] : List KeyType)).segments.length =
      (if ([10, 20, 30] : List KeyType).length < LEARNED_INDEX_MIN_KEYS_FOR_MULTISEGMENT then 1
       else (([10, 20, 30] : List KeyType).length + LEARNED_INDEX_TARGET_KEYS_PER_SEGMENT - 1) /
         LEARNED_INDEX_TARGET_KEYS_PER_SEGMENT) :=
  ⟨by decide, (claim_C9_amended_segmentation [10, 20, 30] (by decide)).1⟩

/-- C10: every SSTable built by `create_from_memtable` from a non-empty map
bounds all of its keys by `[min_key, max_key]`, and hence the early range
rejection in `find_key` can never fire for a key that is present in the
table's data map. -/
theorem claim_C10_sstable_range_invariant (entries : List (KeyType × ValueType)) (sid : Nat)
    (t : SSTable) (hc : create_from_memtable entries sid = some t) :
    (∀ kv ∈ t.data, t.min_key ≤ kv.1 ∧ kv.1 ≤ t.max_key) ∧
    (∀ k v, lookupKV k t.data = some v → ¬ (k < t.min_key ∨ t.max_key < k)) := by
  refine ⟨fun kv hkv => create_from_memtable_bounds entries sid t hc kv hkv, ?_⟩
  intro k v hl
  have hmem := lookupKV_mem k v t.data hl
  have := create_from_memtable_bounds entries sid t hc (k, v) hmem
  push_neg
  exact ⟨this.1, this.2⟩

/-- Witness for C10 on the two-entry map {5 ↦ "a", 2 ↦ "b"}. -/
theorem claim_C10_witness :
    create_from_memtable [(5, "a"), (2, "b")] 0 =
      some ⟨0, 2, 5, [(5, "a"), (2, "b")]⟩ ∧
    ((∀ kv ∈ (⟨0, 2, 5, [(5, "a"), (2, "b")]⟩ : SSTable).data,
        (2 : KeyType) ≤ kv.1 ∧ kv.1 ≤ 5) ∧
     (∀ k v, lookupKV k [(5, "a"), (2, "b")] = some v → ¬ (k < 2 ∨ 5 < k))) :=
  ⟨rfl, claim_C10_sstable_range_invariant [(5, "a"), (2, "b")] 0 _ rfl⟩

/-- Strong induction over `BNode` (nested inductive): to prove `P` for every
node it suffices to handle leaves and internal nodes given `P` on all
children. -/
theorem bnode_strong_ind (P : BNode → Prop)
    (hleaf : ∀ ks vs, P (.leaf ks vs))
    (hint : ∀ keys children, (∀ c ∈ children, P c) → P (.internal keys children)) :
    ∀ t, P t := by
  have main : ∀ n t, sizeOf t ≤ n → P t := by
    intro n
    induction n with
    | zero =>
      intro t ht
      cases t <;> simp_all
    | succ n ih =>
      intro t ht
      cases t with
      | leaf ks vs => exact hleaf ks vs
      | internal keys children =>
        apply hint
        intro c hc
        apply ih
        have := List.sizeOf_lt_of_mem hc
        simp only [BNode.internal.sizeOf_spec] at ht
        omega
  exact fun t => main (sizeOf t) t (le_refl _)

theorem selIdx_nil (k : Nat) : selIdx [] k = 0 := rfl

theorem selIdx_cons_le (s k : Nat) (seps : List Nat) (h : s ≤ k) :
    selIdx (s :: seps) k = selIdx seps k + 1 := by
  simp [selIdx, List.takeWhile_cons_of_pos, h]

theorem selIdx_cons_gt (s k : Nat) (seps : List Nat) (h : ¬ s ≤ k) :
    selIdx (s :: seps) k = 0 := by
  unfold selIdx
  rw [List.takeWhile_cons_of_neg]
  · rfl
  · simpa using h

theorem selIdx_le_length (seps : List Nat) (k : Nat) : selIdx seps k ≤ seps.length :=
  le_trans (List.Sublist.length_le (List.takeWhile_sublist _)) (le_refl _)

theorem lookupKV_upsertKV_self (k : KeyType) (v : ValueType) (m : List (KeyType × ValueType)) :
    lookupKV k (upsertKV k v m) = some v := by
  induction m with
  | nil => simp [upsertKV, lookupKV]
  | cons p rest ih =>
    obtain ⟨k', v'⟩ := p
    by_cases h1 : k < k'
    · simp [upsertKV, lookupKV, h1]
    · by_cases h2 : k = k'
      · simp [upsertKV, lookupKV, h1, h2]
      · have : k' ≠ k := fun hh => h2 hh.symm
        simp [upsertKV, lookupKV, h1, h2, this, ih]

theorem lookupKV_upsertKV_ne (k q : KeyType) (v : ValueType) (m : List (KeyType × ValueType))
    (h : q ≠ k) : lookupKV q (upsertKV k v m) = lookupKV q m := by
  induction m with
  | nil => simp [upsertKV, lookupKV, Ne.symm h]
  | cons p rest ih =>
    obtain ⟨k', v'⟩ := p
    by_cases h1 : k < k'
    · simp only [upsertKV, if_pos h1, lookupKV, if_neg (Ne.symm h)]
    · by_cases h2 : k = k'
      · subst h2
        simp only [upsertKV, if_neg h1, if_pos rfl, lookupKV, if_neg (Ne.symm h)]
      · simp only [upsertKV, if_neg h1, if_neg h2, lookupKV]
        by_cases h3 : k' = q
        · simp [h3]
        · simp [h3, ih]

theorem upsertKV_append_left (k : KeyType) (v : ValueType)
    (A B : List (KeyType × ValueType)) (hB : ∀ p ∈ B, k < p.1) :
    upsertKV k v (A ++ B) = upsertKV k v A ++ B := by
  induction A with
  | nil =>
    cases B with
    | nil => rfl
    | cons b bs =>
      obtain ⟨bk, bv⟩ := b
      have := hB (bk, bv) (List.mem_cons_self _ _)
      simp only [List.nil_append, upsertKV, if_pos this]
      rfl
  | cons a as ih =>
    obtain ⟨ak, av⟩ := a
    by_cases h1 : k < ak
    · simp [upsertKV, h1]
    · by_cases h2 : k = ak
      · simp [upsertKV, h1, h2]
      · simp [upsertKV, h1, h2, ih]

theorem upsertKV_append_right (k : KeyType) (v : ValueType)
    (A B : List (KeyType × ValueType)) (hA : ∀ p ∈ A, p.1 < k) :
    upsertKV k v (A ++ B) = A ++ upsertKV k v B := by
  induction A with
  | nil => rfl
  | cons a as ih =>
    obtain ⟨ak, av⟩ := a
    have hak : ak < k := by simpa using hA (ak, av) (List.mem_cons_self _ _)
    have h1 : ¬ k < ak := hak.asymm
    have h2 : ¬ k = ak := ne_of_gt hak
    simp only [List.cons_append, upsertKV, if_neg h1, if_neg h2]
    exact congrArg (fun l => (ak, av) :: l) (ih (fun p hp => hA p (List.mem_cons_of_mem _ hp)))

theorem mem_keys_upsertKV (k : KeyType) (v : ValueType) (m : List (KeyType × ValueType))
    (q : KeyType × ValueType) (hq : q ∈ upsertKV k v m) : q.1 = k ∨ q ∈ m := by
  induction m with
  | nil => simp only [upsertKV, List.mem_singleton] at hq; exact Or.inl (by rw [hq])
  | cons p rest ih =>
    obtain ⟨k', v'⟩ := p
    by_cases h1 : k < k'
    · simp only [upsertKV, if_pos h1, List.mem_cons] at hq
      rcases hq with rfl | hq
      · exact Or.inl rfl
      · exact Or.inr (by simpa using hq)
    · by_cases h2 : k = k'
      · simp only [upsertKV, if_neg h1, if_pos h2, List.mem_cons] at hq
        rcases hq with rfl | hq
        · exact Or.inl rfl
        · exact Or.inr (List.mem_cons_of_mem _ hq)
      · simp only [upsertKV, if_neg h1, if_neg h2, List.mem_cons] at hq
        rcases hq with rfl | hq
        · exact Or.inr (List.mem_cons_self _ _)
        · rcases ih hq with h | h
          · exact Or.inl h
          · exact Or.inr (List.mem_cons_of_mem _ h)

theorem upsertKV_sorted (k : KeyType) (v : ValueType) (m : List (KeyType × ValueType))
    (hm : (m.map Prod.fst).Pairwise (· < ·)) :
    ((upsertKV k v m).map Prod.fst).Pairwise (· < ·) := by
  induction m with
  | nil => simp [upsertKV]
  | cons p rest ih =>
    obtain ⟨k', v'⟩ := p
    simp only [List.map_cons, List.pairwise_cons] at hm
    by_cases h1 : k < k'
    · simp only [upsertKV, if_pos h1, List.map_cons, List.pairwise_cons]
      refine ⟨?_, hm.1, hm.2⟩
      intro b hb
      simp only [List.mem_cons] at hb
      rcases hb with rfl | hb
      · exact h1
      · exact lt_trans h1 (hm.1 b hb)
    · by_cases h2 : k = k'
      · subst h2
        have hrw : upsertKV k v ((k, v') :: rest) = (k, v) :: rest := by
          simp [upsertKV, h1]
        rw [hrw]
        simp only [List.map_cons, List.pairwise_cons]
        exact hm
      · simp only [upsertKV, if_neg h1, if_neg h2, List.map_cons, List.pairwise_cons]
        refine ⟨?_, ih hm.2⟩
        intro b hb
        simp only [List.mem_map] at hb
        obtain ⟨q, hq, rfl⟩ := hb
        rcases mem_keys_upsertKV k v rest q hq with hqk | hqm
        · rw [hqk]
          exact lt_of_le_of_ne (not_lt.mp h1) (fun hh => h2 hh.symm)
        · exact hm.1 q.1 (List.mem_map_of_mem Prod.fst hqm)

theorem leafLookup_eq_lookupKV (ks : List Nat) (vs : List String) (k : Nat) :
    leafLookup ks vs k = lookupKV k (ks.zip vs) := by
  induction ks generalizing vs with
  | nil => cases vs <;> rfl
  | cons k' kt ih =>
    cases vs with
    | nil => rfl
    | cons v' vt =>
      simp only [leafLookup, List.zip_cons_cons, lookupKV]
      by_cases h : k' = k
      · simp [h]
      · simp [h, ih, List.zip]

theorem leafReplaceValue_length (ks : List Nat) (vs : List String) (k : Nat) (v : String) :
    (leafReplaceValue ks vs k v).length = vs.length := by
  induction ks generalizing vs with
  | nil => cases vs <;> rfl
  | cons k' kt ih =>
    cases vs with
    | nil => rfl
    | cons v' vt =>
      simp only [leafReplaceValue]
      by_cases h : k' = k
      · simp [h]
      · simp [h, ih]

theorem zip_replace_eq_upsert (ks : List Nat) (vs : List String) (k : Nat) (v : String)
    (hs : ks.Pairwise (· < ·)) (hk : k ∈ ks) (hlen : vs.length = ks.length) :
    ks.zip (leafReplaceValue ks vs k v) = upsertKV k v (ks.zip vs) := by
  induction ks generalizing vs with
  | nil => simp at hk
  | cons k' kt ih =>
    cases vs with
    | nil => simp at hlen
    | cons v' vt =>
      simp only [List.pairwise_cons] at hs
      simp only [List.length_cons, Nat.succ.injEq] at hlen
      by_cases h : k' = k
      · subst h
        simp only [leafReplaceValue, if_pos rfl, List.zip_cons_cons]
        have h1 : ¬ k' < k' := lt_irrefl k'
        simp [upsertKV, h1]
      · have hmem : k ∈ kt := by
          rcases List.mem_cons.mp hk with hh | hh
          · exact absurd hh.symm h
          · exact hh
        have hlt : k' < k := hs.1 k hmem
        have hn1 : ¬ k < k' := by omega
        have hn2 : ¬ k = k' := by omega
        simp only [leafReplaceValue, if_neg h, List.zip_cons_cons, upsertKV,
          if_neg hn1, if_neg hn2]
        rw [ih vt hs.2 hmem hlen]
        rfl

theorem splitInsertPos_cons_ge (k k' : Nat) (kt : List Nat) (h : ¬ k < k') :
    splitInsertPos (k' :: kt) k = splitInsertPos kt k + 1 := by
  unfold splitInsertPos
  rw [List.takeWhile_cons_of_pos]
  · simp
  · simpa using h

theorem splitInsertPos_cons_lt (k k' : Nat) (kt : List Nat) (h : k < k') :
    splitInsertPos (k' :: kt) k = 0 := by
  unfold splitInsertPos
  rw [List.takeWhile_cons_of_neg]
  · rfl
  · simpa using h

theorem splitInsertPos_le_length (ks : List Nat) (k : Nat) :
    splitInsertPos ks k ≤ ks.length :=
  List.Sublist.length_le (List.takeWhile_sublist _)

theorem zip_insertIdx_eq_upsert (ks : List Nat) (vs : List String) (k : Nat) (v : String)
    (hs : ks.Pairwise (· < ·)) (hk : k ∉ ks) (hlen : vs.length = ks.length) :
    (ks.insertIdx (splitInsertPos ks k) k).zip (vs.insertIdx (splitInsertPos ks k) v) =
      upsertKV k v (ks.zip vs) := by
  induction ks generalizing vs with
  | nil =>
    cases vs with
    | nil => rfl
    | cons v' vt => simp at hlen
  | cons k' kt ih =>
    cases vs with
    | nil => simp at hlen
    | cons v' vt =>
      simp only [List.pairwise_cons] at hs
      simp only [List.length_cons, Nat.succ.injEq] at hlen
      have hne : k ≠ k' := fun hh => hk (hh ▸ List.mem_cons_self _ _)
      by_cases h : k < k'
      · rw [splitInsertPos_cons_lt k k' kt h, List.insertIdx_zero, List.insertIdx_zero]
        simp only [List.zip_cons_cons, upsertKV, if_pos h]
        rfl
      · rw [splitInsertPos_cons_ge k k' kt h, List.insertIdx_succ_cons,
          List.insertIdx_succ_cons]
        simp only [List.zip_cons_cons, upsertKV, if_neg h, if_neg hne]
        rw [ih vt hs.2 (fun hh => hk (List.mem_cons_of_mem _ hh)) hlen]
        rfl

theorem takeWhile_length_append_singleton_of_neg {q : Nat → Bool} (L : List Nat) (a : Nat)
    (ha : q a = false) :
    ((L ++ [a]).takeWhile q).length = (L.takeWhile q).length := by
  induction L with
  | nil => simp [List.takeWhile_cons_of_neg, ha]
  | cons b t ih =>
    by_cases hb : q b
    · rw [List.cons_append, List.takeWhile_cons_of_pos hb, List.takeWhile_cons_of_pos hb]
      simp [ih]
    · rw [List.cons_append, List.takeWhile_cons_of_neg (by simpa using hb),
        List.takeWhile_cons_of_neg (by simpa using hb)]

theorem takeWhile_all_true {q : Nat → Bool} (L : List Nat) (h : ∀ x ∈ L, q x = true) :
    (L.takeWhile q) = L := by
  induction L with
  | nil => rfl
  | cons b t ih =>
    rw [List.takeWhile_cons_of_pos (h b (List.mem_cons_self _ _))]
    rw [ih (fun x hx => h x (List.mem_cons_of_mem _ hx))]

theorem shiftInsertPos_eq_splitInsertPos (ks : List Nat) (k : Nat)
    (hs : ks.Pairwise (· < ·)) : shiftInsertPos ks k = splitInsertPos ks k := by
  induction ks with
  | nil => rfl
  | cons k' kt ih =>
    simp only [List.pairwise_cons] at hs
    by_cases h : k < k'
    · rw [splitInsertPos_cons_lt k k' kt h]
      unfold shiftInsertPos
      have hall : ∀ x ∈ (k' :: kt).reverse, (fun x => decide (k < x)) x = true := by
        intro x hx
        rw [List.mem_reverse] at hx
        rcases List.mem_cons.mp hx with rfl | hx
        · simpa using h
        · simpa using lt_trans h (hs.1 x hx)
      rw [takeWhile_all_true _ hall]
      simp
    · rw [splitInsertPos_cons_ge k k' kt h]
      have hih := ih hs.2
      unfold shiftInsertPos at hih ⊢
      rw [show (k' :: kt).reverse = kt.reverse ++ [k'] from by simp]
      rw [takeWhile_length_append_singleton_of_neg kt.reverse k' (by simpa using h)]
      have hsub : List.Sublist (List.takeWhile (fun x => decide (k < x)) kt.reverse)
          kt.reverse :=
        List.takeWhile_sublist _
      have hle := List.Sublist.length_le hsub
      simp only [List.length_reverse] at hle
      simp only [List.length_cons]
      omega

theorem headD_drop {α : Type} (l : List α) (n : Nat) (d : α) :
    (l.drop n).headD d = l.getD n d := by
  induction l generalizing n with
  | nil => simp
  | cons a t ih =>
    cases n with
    | zero => rfl
    | succ n => simpa using ih n

theorem entries_bounds_children (seps : List Nat) : ∀ (lb ub : Option Nat) (cs : List BNode),
    WFChildren lb ub seps cs →
    (∀ c ∈ cs, ∀ lb' ub', WFNode lb' ub' c →
      ∀ p ∈ entriesOf c, lbOk lb' p.1 ∧ ubOk ub' p.1) →
    ∀ p ∈ entriesFlat cs, lbOk lb p.1 ∧ ubOk ub p.1 := by
  induction seps with
  | nil =>
    intro lb ub cs hwf hih p hp
    cases hwf with
    | single lb ub c hc =>
      simp only [entriesFlat, List.append_nil] at hp
      exact hih c (List.mem_cons_self _ _) lb ub hc p hp
  | cons s seps ih =>
    intro lb ub cs hwf hih p hp
    cases hwf with
    | cons lb ub s seps c cs hlbs hubs hc hrest =>
      simp only [entriesFlat] at hp
      rcases List.mem_append.mp hp with hp | hp
      · obtain ⟨h1, h2⟩ := hih c (List.mem_cons_self _ _) lb (some s) hc p hp
        refine ⟨h1, ?_⟩
        intro b hb
        exact lt_trans (h2 s rfl) (hubs b hb)
      · obtain ⟨h1, h2⟩ := ih (some s) ub cs hrest
          (fun c' hc' => hih c' (List.mem_cons_of_mem _ hc')) p hp
        refine ⟨?_, h2⟩
        intro b hb
        exact le_of_lt (lt_of_lt_of_le (hlbs b hb) (h1 s rfl))

theorem entries_bounds_node : ∀ (t : BNode) (lb ub : Option Nat), WFNode lb ub t →
    ∀ p ∈ entriesOf t, lbOk lb p.1 ∧ ubOk ub p.1 := by
  apply bnode_strong_ind (fun t => ∀ lb ub, WFNode lb ub t →
    ∀ p ∈ entriesOf t, lbOk lb p.1 ∧ ubOk ub p.1)
  · intro ks vs lb ub hwf p hp
    cases hwf with
    | leaf lb ub ks vs hsort hbnd hlen =>
      simp only [entriesOf] at hp
      obtain ⟨k, v⟩ := p
      have := List.mem_zip hp
      exact hbnd k this.1
  · intro keys children hchild lb ub hwf p hp
    cases hwf with
    | internal lb ub keys children hwfc =>
      simp only [entriesOf] at hp
      exact entries_bounds_children keys lb ub children hwfc hchild p hp

theorem sep_bounds (seps : List Nat) : ∀ (lb ub : Option Nat) (cs : List BNode),
    WFChildren lb ub seps cs → ∀ σ ∈ seps, lbLT lb σ ∧ ubOk ub σ := by
  induction seps with
  | nil => intro lb ub cs hwf σ hσ; simp at hσ
  | cons s seps ih =>
    intro lb ub cs hwf σ hσ
    cases hwf with
    | cons lb ub s seps c cs hlbs hubs hc hrest =>
      rcases List.mem_cons.mp hσ with rfl | hσ
      · exact ⟨hlbs, hubs⟩
      · obtain ⟨h1, h2⟩ := ih (some s) ub cs hrest σ hσ
        refine ⟨?_, h2⟩
        intro b hb
        exact lt_trans (hlbs b hb) (h1 s rfl)

theorem wfchildren_split (seps : List Nat) : ∀ (lb ub : Option Nat) (cs : List BNode),
    WFChildren lb ub seps cs → ∀ m, m < seps.length →
    WFChildren lb (some (seps.getD m 0)) (seps.take m) (cs.take (m + 1)) ∧
    WFChildren (some (seps.getD m 0)) ub (seps.drop (m + 1)) (cs.drop (m + 1)) ∧
    lbLT lb (seps.getD m 0) ∧ ubOk ub (seps.getD m 0) ∧
    entriesFlat cs = entriesFlat (cs.take (m + 1)) ++ entriesFlat (cs.drop (m + 1)) := by
  induction seps with
  | nil => intro lb ub cs hwf m hm; simp at hm
  | cons s seps ih =>
    intro lb ub cs hwf m hm
    cases hwf with
    | cons lb ub s seps c cs hlbs hubs hc hrest =>
      cases m with
      | zero =>
        refine ⟨?_, ?_, hlbs, hubs, ?_⟩
        · simpa using WFChildren.single lb (some s) c hc
        · simpa using hrest
        · simp [entriesFlat]
      | succ m =>
        simp only [List.length_cons, Nat.succ_lt_succ_iff] at hm
        obtain ⟨hl, hr, hblb, hbub, hent⟩ := ih (some s) ub cs hrest m hm
        have hgetD : (s :: seps).getD (m + 1) 0 = seps.getD m 0 := rfl
        refine ⟨?_, ?_, ?_, hbub, ?_⟩
        · rw [hgetD]
          rw [show (s :: seps).take (m + 1) = s :: seps.take m from rfl,
            show (c :: cs).take (m + 1 + 1) = c :: cs.take (m + 1) from rfl]
          refine WFChildren.cons lb (some (seps.getD m 0)) s (seps.take m) c (cs.take (m + 1))
            hlbs ?_ hc hl
          intro b hb
          cases hb
          exact hblb s rfl
        · rw [hgetD]
          exact hr
        · rw [hgetD]
          intro b hb
          exact lt_trans (hlbs b hb) (hblb s rfl)
        · rw [show (c :: cs).take (m + 1 + 1) = c :: cs.take (m + 1) from rfl,
            show (c :: cs).drop (m + 1 + 1) = cs.drop (m + 1) from rfl]
          simp only [entriesFlat, hent, List.append_assoc]

theorem insertLeafNode_spec (ks : List Nat) (vs : List String) (k : Nat) (v : String)
    (lb ub : Option Nat) (hWF : WFNode lb ub (.leaf ks vs)) (hlb : lbOk lb k)
    (hub : ubOk ub k) :
    match insertLeafNode ks vs k v with
    | .noSplit t' => WFNode lb ub t' ∧ entriesOf t' = upsertKV k v (ks.zip vs)
    | .split l r p => WFNode lb (some p) l ∧ WFNode (some p) ub r ∧ lbLT lb p ∧ ubOk ub p ∧
        entriesOf l ++ entriesOf r = upsertKV k v (ks.zip vs) := by
  cases hWF with
  | leaf lb ub ks vs hsort hbnd hlen =>
  have hfst : (ks.zip vs).map Prod.fst = ks := List.map_fst_zip ks vs (le_of_eq hlen.symm)
  by_cases hmem : k ∈ ks
  · simp only [insertLeafNode, if_pos hmem]
    refine ⟨WFNode.leaf lb ub ks _ hsort hbnd ?_, ?_⟩
    · rw [leafReplaceValue_length]
      exact hlen
    · simp only [entriesOf]
      exact zip_replace_eq_upsert ks vs k v hsort hmem hlen
  · by_cases hroom : ks.length < MAX_KEYS_LEAF
    · simp only [insertLeafNode, if_neg hmem, if_pos hroom]
      have hpos := shiftInsertPos_eq_splitInsertPos ks k hsort
      have hzip : (ks.insertIdx (shiftInsertPos ks k) k).zip
          (vs.insertIdx (shiftInsertPos ks k) v) = upsertKV k v (ks.zip vs) := by
        rw [hpos]
        exact zip_insertIdx_eq_upsert ks vs k v hsort hmem hlen
      have hklen : (ks.insertIdx (shiftInsertPos ks k) k).length = ks.length + 1 := by
        apply List.length_insertIdx
        rw [hpos]
        exact splitInsertPos_le_length ks k
      have hvlen : (vs.insertIdx (shiftInsertPos ks k) v).length = vs.length + 1 := by
        apply List.length_insertIdx
        rw [hpos, hlen]
        exact splitInsertPos_le_length ks k
      have hfst' : (upsertKV k v (ks.zip vs)).map Prod.fst =
          ks.insertIdx (shiftInsertPos ks k) k := by
        rw [← hzip]
        exact List.map_fst_zip _ _ (by rw [hklen, hvlen, hlen])
      refine ⟨WFNode.leaf lb ub _ _ ?_ ?_ ?_, ?_⟩
      · rw [← hfst']
        apply upsertKV_sorted
        rw [hfst]
        exact hsort
      · intro x hx
        rw [← hfst'] at hx
        simp only [List.mem_map] at hx
        obtain ⟨q, hq, rfl⟩ := hx
        rcases mem_keys_upsertKV k v _ q hq with hqk | hqm
        · rw [hqk]
          exact ⟨hlb, hub⟩
        · obtain ⟨kq, vq⟩ := q
          have := (List.mem_zip hqm).1
          exact hbnd _ this
      · rw [hklen, hvlen, hlen]
      · simp only [entriesOf]
        exact hzip
    · simp only [insertLeafNode, if_neg hmem, if_neg hroom]
      have hposle : splitInsertPos ks k ≤ ks.length := splitInsertPos_le_length ks k
      have hklen : (ks.insertIdx (splitInsertPos ks k) k).length = ks.length + 1 :=
        List.length_insertIdx _ _ hposle
      have hvlen : (vs.insertIdx (splitInsertPos ks k) v).length = vs.length + 1 :=
        List.length_insertIdx _ _ (hlen ▸ hposle)
      have hzip : (ks.insertIdx (splitInsertPos ks k) k).zip
          (vs.insertIdx (splitInsertPos ks k) v) = upsertKV k v (ks.zip vs) :=
        zip_insertIdx_eq_upsert ks vs k v hsort hmem hlen
      set tmpK := ks.insertIdx (splitInsertPos ks k) k with htmpK
      set tmpV := vs.insertIdx (splitInsertPos ks k) v with htmpV
      set mid := tmpK.length / 2 with hmid
      have hfst' : (upsertKV k v (ks.zip vs)).map Prod.fst = tmpK := by
        rw [← hzip]
        exact List.map_fst_zip _ _ (by rw [hklen, hvlen, hlen])
      have hsorted' : tmpK.Pairwise (· < ·) := by
        rw [← hfst']
        apply upsertKV_sorted
        rw [hfst]
        exact hsort
      have hbnd' : ∀ x ∈ tmpK, lbOk lb x ∧ ubOk ub x := by
        intro x hx
        rw [← hfst'] at hx
        simp only [List.mem_map] at hx
        obtain ⟨q, hq, rfl⟩ := hx
        rcases mem_keys_upsertKV k v _ q hq with hqk | hqm
        · rw [hqk]
          exact ⟨hlb, hub⟩
        · obtain ⟨kq, vq⟩ := q
          exact hbnd _ (List.mem_zip hqm).1
      have hlen30 : MAX_KEYS_LEAF ≤ ks.length := le_of_not_lt hroom
      have hmid1 : 1 ≤ mid := by
        rw [hmid, hklen]
        unfold MAX_KEYS_LEAF at hlen30
        omega
      have hmidlt : mid < tmpK.length := by
        rw [hmid, hklen]
        unfold MAX_KEYS_LEAF at hlen30
        omega
      -- decompose tmpK at mid
      have hsplitK := List.take_append_drop mid tmpK
      have hdropne : tmpK.drop mid ≠ [] := by
        intro hh
        have := congrArg List.length hh
        simp only [List.length_drop, List.length_nil] at this
        omega
      obtain ⟨p, tl, hdrop⟩ : ∃ p tl, tmpK.drop mid = p :: tl := by
        cases hd : tmpK.drop mid with
        | nil => exact absurd hd hdropne
        | cons p tl => exact ⟨p, tl, rfl⟩
      have hheadD : (tmpK.drop mid).headD 0 = p := by rw [hdrop]; rfl
      have hpairsIff : (tmpK.take mid ++ tmpK.drop mid).Pairwise (· < ·) ↔
          (tmpK.take mid).Pairwise (· < ·) ∧ (tmpK.drop mid).Pairwise (· < ·) ∧
          ∀ a ∈ tmpK.take mid, ∀ b ∈ tmpK.drop mid, a < b :=
        List.pairwise_append
      have hsortedApp : (tmpK.take mid ++ tmpK.drop mid).Pairwise (· < ·) := by
        rw [List.take_append_drop]
        exact hsorted'
      have hpairs := hpairsIff.mp hsortedApp
      have hcross : ∀ a ∈ tmpK.take mid, a < p := by
        intro a ha
        exact hpairs.2.2 a ha p (by rw [hdrop]; exact List.mem_cons_self _ _)
      have hpmem : p ∈ tmpK := by
        have : p ∈ tmpK.drop mid := by rw [hdrop]; exact List.mem_cons_self _ _
        exact List.Sublist.mem this (List.drop_sublist _ _)
      have hdropbound : ∀ x ∈ tmpK.drop mid, p ≤ x := by
        intro x hx
        rw [hdrop] at hx
        rcases List.mem_cons.mp hx with rfl | hx
        · exact le_refl _
        · rw [hdrop] at hpairs
          exact le_of_lt ((List.pairwise_cons.mp hpairs.2.1).1 x hx)
      have htakelen : (tmpK.take mid).length = mid := by
        rw [List.length_take]
        omega
      have htakeVlen : (tmpV.take mid).length = mid := by
        rw [List.length_take]
        rw [htmpV] at *
        rw [hvlen, hlen]
        rw [hklen] at hmidlt
        omega
      refine ⟨?_, ?_, ?_, ?_, ?_⟩
      · rw [hheadD]
        refine WFNode.leaf lb (some p) _ _ (hsorted'.sublist (List.take_sublist _ _)) ?_ ?_
        · intro x hx
          refine ⟨(hbnd' x (List.Sublist.mem hx (List.take_sublist _ _))).1, ?_⟩
          intro b hb
          cases hb
          exact hcross x hx
        · rw [htakelen, htakeVlen]
      · rw [hheadD]
        refine WFNode.leaf (some p) ub _ _ (hsorted'.sublist (List.drop_sublist _ _)) ?_ ?_
        · intro x hx
          refine ⟨?_, (hbnd' x (List.Sublist.mem hx (List.drop_sublist _ _))).2⟩
          intro b hb
          cases hb
          exact hdropbound x hx
        · simp only [List.length_drop]
          rw [htmpV] at *
          rw [hvlen, hlen, ← hklen]
      · rw [hheadD]
        intro b hb
        have h0mem : tmpK.getD 0 0 ∈ tmpK.take mid := by
          have h0lt : 0 < tmpK.length := by omega
          rw [List.getD_eq_getElem _ _ h0lt]
          have hb0 : 0 < (tmpK.take mid).length := by
            rw [htakelen]
            omega
          have : tmpK[0] = (tmpK.take mid).get ⟨0, hb0⟩ :=
            (List.getElem_take _ ).symm
          rw [this]
          exact List.getElem_mem _
        have hb0 : b ≤ tmpK.getD 0 0 := by
          have := hbnd' _ (List.Sublist.mem h0mem (List.take_sublist _ _))
          exact this.1 b hb
        exact lt_of_le_of_lt hb0 (hcross _ h0mem)
      · rw [hheadD]
        exact (hbnd' p hpmem).2
      · rw [← hzip]
        simp only [entriesOf]
        rw [← List.zip_append (by rw [htakelen, htakeVlen])]
        rw [List.take_append_drop, List.take_append_drop]

theorem insertNode_leaf_eq (ks : List Nat) (vs : List String) (k : Nat) (v : String) :
    insertNode (.leaf ks vs) k v = insertLeafNode ks vs k v := by
  rw [insertNode]

theorem insertNode_internal_eq (keys : List Nat) (children : List BNode) (k : Nat) (v : String)
    (c : BNode) (hget : children[selIdx keys k]? = some c) :
    insertNode (.internal keys children) k v =
      match insertNode c k v with
      | .noSplit c' => .noSplit (.internal keys (children.set (selIdx keys k) c'))
      | .split cl cr pk =>
        if keys.length < MAX_KEYS_INTERNAL then
          .noSplit (.internal (keys.insertIdx (selIdx keys k) pk)
            ((children.set (selIdx keys k) cl).insertIdx (selIdx keys k + 1) cr))
        else splitInternalNode keys children (selIdx keys k) cl cr pk := by
  rw [insertNode]
  split
  · next heq =>
    rw [hget] at heq
    cases heq
  · next c1 heq =>
    rw [hget] at heq
    cases heq
    rfl

theorem children_insert_spec (seps : List Nat) : ∀ (lb ub : Option Nat) (cs : List BNode),
    WFChildren lb ub seps cs → (∀ c ∈ cs, InsertSpecP c) →
    ∀ (k : Nat) (v : String), lbOk lb k → ubOk ub k →
    ∃ c, cs[selIdx seps k]? = some c ∧
      (∀ c', insertNode c k v = .noSplit c' →
          WFChildren lb ub seps (cs.set (selIdx seps k) c') ∧
          entriesFlat (cs.set (selIdx seps k) c') = upsertKV k v (entriesFlat cs)) ∧
      (∀ cl cr pk, insertNode c k v = .split cl cr pk →
          WFChildren lb ub (seps.insertIdx (selIdx seps k) pk)
            ((cs.set (selIdx seps k) cl).insertIdx (selIdx seps k + 1) cr) ∧
          entriesFlat ((cs.set (selIdx seps k) cl).insertIdx (selIdx seps k + 1) cr) =
            upsertKV k v (entriesFlat cs)) := by
  induction seps with
  | nil =>
    intro lb ub cs hwf hih k v hlb hub
    cases hwf with
    | single lb ub c hc =>
      refine ⟨c, rfl, ?_, ?_⟩
      · intro c' hres
        obtain ⟨hns, _⟩ := hih c (List.mem_cons_self _ _) lb ub hc k v hlb hub
        obtain ⟨hwf', hent'⟩ := hns c' hres
        refine ⟨WFChildren.single lb ub c' hwf', ?_⟩
        show entriesFlat [c'] = upsertKV k v (entriesFlat [c])
        simp only [entriesFlat, List.append_nil, hent']
      · intro cl cr pk hres
        obtain ⟨_, hsp⟩ := hih c (List.mem_cons_self _ _) lb ub hc k v hlb hub
        obtain ⟨hwl, hwr, hplb, hpub, hent'⟩ := hsp cl cr pk hres
        constructor
        · show WFChildren lb ub [pk] [cl, cr]
          exact WFChildren.cons lb ub pk [] cl [cr] hplb hpub hwl
            (WFChildren.single (some pk) ub cr hwr)
        · show entriesFlat [cl, cr] = upsertKV k v (entriesFlat [c])
          simp only [entriesFlat, List.append_nil, List.append_assoc, hent']
  | cons s seps ih =>
    intro lb ub cs hwf hih k v hlb hub
    cases hwf with
    | cons lb ub s seps c cs hlbs hubs hc hrest =>
      by_cases hsk : s ≤ k
      · rw [selIdx_cons_le s k seps hsk]
        have hlb' : lbOk (some s) k := by
          intro b hb
          cases hb
          exact hsk
        obtain ⟨c0, hget, hns, hsp⟩ := ih (some s) ub cs hrest
          (fun c' h => hih c' (List.mem_cons_of_mem _ h)) k v hlb' hub
        have hcbelow : ∀ p ∈ entriesOf c, p.1 < k := by
          intro p hp
          exact lt_of_lt_of_le ((entries_bounds_node c lb (some s) hc p hp).2 s rfl) hsk
        refine ⟨c0, ?_, ?_, ?_⟩
        · rw [List.getElem?_cons_succ]
          exact hget
        · intro c' hres
          obtain ⟨hwfc', hentc'⟩ := hns c' hres
          show WFChildren lb ub (s :: seps) (c :: cs.set (selIdx seps k) c') ∧
            entriesFlat (c :: cs.set (selIdx seps k) c') =
              upsertKV k v (entriesFlat (c :: cs))
          refine ⟨WFChildren.cons lb ub s seps c _ hlbs hubs hc hwfc', ?_⟩
          simp only [entriesFlat, hentc']
          rw [upsertKV_append_right k v (entriesOf c) (entriesFlat cs) hcbelow]
        · intro cl cr pk hres
          obtain ⟨hwfc2, hent2⟩ := hsp cl cr pk hres
          have e1 : (s :: seps).insertIdx (selIdx seps k + 1) pk =
              s :: seps.insertIdx (selIdx seps k) pk := List.insertIdx_succ_cons _ _ _ _
          have e2 : (c :: cs).set (selIdx seps k + 1) cl = c :: cs.set (selIdx seps k) cl := rfl
          have e3 : (c :: cs.set (selIdx seps k) cl).insertIdx (selIdx seps k + 1 + 1) cr =
              c :: (cs.set (selIdx seps k) cl).insertIdx (selIdx seps k + 1) cr :=
            List.insertIdx_succ_cons _ _ _ _
          rw [e1, e2, e3]
          refine ⟨WFChildren.cons lb ub s _ c _ hlbs hubs hc hwfc2, ?_⟩
          simp only [entriesFlat]
          rw [hent2, upsertKV_append_right k v (entriesOf c) (entriesFlat cs) hcbelow]
      · rw [selIdx_cons_gt s k seps hsk]
        have hks : k < s := not_le.mp hsk
        have hub' : ubOk (some s) k := by
          intro b hb
          cases hb
          exact hks
        obtain ⟨hns, hsp⟩ := hih c (List.mem_cons_self _ _) lb (some s) hc k v hlb hub'
        have habove : ∀ p ∈ entriesFlat cs, k < p.1 := by
          intro p hp
          exact lt_of_lt_of_le hks
            ((entries_bounds_children seps (some s) ub cs hrest
              (fun c' _ => entries_bounds_node c') p hp).1 s rfl)
        refine ⟨c, List.getElem?_cons_zero, ?_, ?_⟩
        · intro c' hres
          obtain ⟨hwf', hent'⟩ := hns c' hres
          show WFChildren lb ub (s :: seps) (c' :: cs) ∧
            entriesFlat (c' :: cs) = upsertKV k v (entriesFlat (c :: cs))
          refine ⟨WFChildren.cons lb ub s seps c' cs hlbs hubs hwf' hrest, ?_⟩
          simp only [entriesFlat, hent']
          rw [upsertKV_append_left k v (entriesOf c) (entriesFlat cs) habove]
        · intro cl cr pk hres
          obtain ⟨hwl, hwr, hplb, hpub, hent'⟩ := hsp cl cr pk hres
          rw [List.insertIdx_zero]
          show WFChildren lb ub (pk :: s :: seps) ((cl :: cs).insertIdx 1 cr) ∧ _
          rw [List.insertIdx_succ_cons, List.insertIdx_zero]
          have hpks : pk < s := hpub s rfl
          refine ⟨?_, ?_⟩
          · refine WFChildren.cons lb ub pk (s :: seps) cl (cr :: cs) hplb ?_ hwl ?_
            · intro b hb
              exact lt_trans hpks (hubs b hb)
            · refine WFChildren.cons (some pk) ub s seps cr cs ?_ hubs hwr hrest
              intro b hb
              cases hb
              exact hpks
          · simp only [entriesFlat, ← List.append_assoc, hent']
            rw [upsertKV_append_left k v (entriesOf c) (entriesFlat cs) habove]

theorem insertNode_spec : ∀ t, InsertSpecP t := by
  apply bnode_strong_ind InsertSpecP
  · intro ks vs lb ub hwf k v hlb hub
    have hspec := insertLeafNode_spec ks vs k v lb ub hwf hlb hub
    have heq := insertNode_leaf_eq ks vs k v
    constructor
    · intro t' hres
      rw [heq] at hres
      cases hcase : insertLeafNode ks vs k v with
      | noSplit t0 =>
        rw [hcase] at hres hspec
        injection hres with h
        subst h
        exact hspec
      | split l0 r0 p0 =>
        rw [hcase] at hres
        cases hres
    · intro l r p hres
      rw [heq] at hres
      cases hcase : insertLeafNode ks vs k v with
      | noSplit t0 =>
        rw [hcase] at hres
        cases hres
      | split l0 r0 p0 =>
        rw [hcase] at hres hspec
        injection hres with h1 h2 h3
        subst h1
        subst h2
        subst h3
        exact hspec
  · intro keys children hih lb ub hwf k v hlb hub
    cases hwf with
    | internal lb ub keys children hwfc =>
      obtain ⟨c, hget, hns, hsp⟩ := children_insert_spec keys lb ub children hwfc hih k v hlb hub
      have heq := insertNode_internal_eq keys children k v c hget
      constructor
      · intro t' hres
        cases hcase : insertNode c k v with
        | noSplit c' =>
          have heq2 : insertNode (.internal keys children) k v =
              .noSplit (.internal keys (children.set (selIdx keys k) c')) := by
            rw [heq, hcase]
          rw [heq2] at hres
          injection hres with h
          subst h
          obtain ⟨hwf', hent'⟩ := hns c' hcase
          refine ⟨WFNode.internal lb ub _ _ hwf', ?_⟩
          simp only [entriesOf]
          exact hent'
        | split cl cr pk =>
          by_cases hroom : keys.length < MAX_KEYS_INTERNAL
          · have heq2 : insertNode (.internal keys children) k v =
                .noSplit (.internal (keys.insertIdx (selIdx keys k) pk)
                  ((children.set (selIdx keys k) cl).insertIdx (selIdx keys k + 1) cr)) := by
              rw [heq, hcase]
              simp only [if_pos hroom]
            rw [heq2] at hres
            injection hres with h
            subst h
            obtain ⟨hwfc2, hent2⟩ := hsp cl cr pk hcase
            refine ⟨WFNode.internal lb ub _ _ hwfc2, ?_⟩
            simp only [entriesOf]
            exact hent2
          · have heq2 : insertNode (.internal keys children) k v =
                splitInternalNode keys children (selIdx keys k) cl cr pk := by
              rw [heq, hcase]
              simp only [if_neg hroom]
            rw [heq2] at hres
            simp only [splitInternalNode] at hres
            cases hres
      · intro l r p hres
        cases hcase : insertNode c k v with
        | noSplit c' =>
          have heq2 : insertNode (.internal keys children) k v =
              .noSplit (.internal keys (children.set (selIdx keys k) c')) := by
            rw [heq, hcase]
          rw [heq2] at hres
          cases hres
        | split cl cr pk =>
          by_cases hroom : keys.length < MAX_KEYS_INTERNAL
          · have heq2 : insertNode (.internal keys children) k v =
                .noSplit (.internal (keys.insertIdx (selIdx keys k) pk)
                  ((children.set (selIdx keys k) cl).insertIdx (selIdx keys k + 1) cr)) := by
              rw [heq, hcase]
              simp only [if_pos hroom]
            rw [heq2] at hres
            cases hres
          · have heq2 : insertNode (.internal keys children) k v =
                splitInternalNode keys children (selIdx keys k) cl cr pk := by
              rw [heq, hcase]
              simp only [if_neg hroom]
            rw [heq2] at hres
            simp only [splitInternalNode] at hres
            injection hres with h1 h2 h3
            obtain ⟨hwfc2, hent2⟩ := hsp cl cr pk hcase
            have hilen : selIdx keys k ≤ keys.length := selIdx_le_length keys k
            have htklen : (keys.insertIdx (selIdx keys k) pk).length = keys.length + 1 :=
              List.length_insertIdx _ _ hilen
            have hmidlt : (keys.insertIdx (selIdx keys k) pk).length / 2 <
                (keys.insertIdx (selIdx keys k) pk).length := by
              rw [htklen]
              omega
            obtain ⟨hTake, hDrop, hlbM, hubM, hsplit⟩ :=
              wfchildren_split (keys.insertIdx (selIdx keys k) pk) lb ub
                ((children.set (selIdx keys k) cl).insertIdx (selIdx keys k + 1) cr)
                hwfc2 ((keys.insertIdx (selIdx keys k) pk).length / 2) hmidlt
            subst h1
            subst h2
            subst h3
            refine ⟨WFNode.internal _ _ _ _ hTake, WFNode.internal _ _ _ _ hDrop,
              hlbM, hubM, ?_⟩
            simp only [entriesOf]
            rw [← hsplit]
            exact hent2

theorem lookupKV_append_of_ne_left (k : KeyType) (A B : List (KeyType × ValueType))
    (hA : ∀ p ∈ A, p.1 ≠ k) : lookupKV k (A ++ B) = lookupKV k B := by
  induction A with
  | nil => rfl
  | cons a as ih =>
    obtain ⟨ak, av⟩ := a
    have hne : ak ≠ k := hA (ak, av) (List.mem_cons_self _ _)
    simp only [List.cons_append, lookupKV, if_neg hne]
    exact ih (fun p hp => hA p (List.mem_cons_of_mem _ hp))

theorem lookupKV_append_of_ne_right (k : KeyType) (A B : List (KeyType × ValueType))
    (hB : ∀ p ∈ B, p.1 ≠ k) : lookupKV k (A ++ B) = lookupKV k A := by
  induction A with
  | nil =>
    simp only [List.nil_append]
    induction B with
    | nil => rfl
    | cons b bs ihB =>
      obtain ⟨bk, bv⟩ := b
      have hne : bk ≠ k := hB (bk, bv) (List.mem_cons_self _ _)
      simp only [lookupKV, if_neg hne]
      exact ihB (fun p hp => hB p (List.mem_cons_of_mem _ hp))
  | cons a as ih =>
    obtain ⟨ak, av⟩ := a
    simp only [List.cons_append, lookupKV]
    by_cases h : ak = k
    · simp [h]
    · simp only [if_neg h]
      exact ih

theorem children_lookup_spec (seps : List Nat) : ∀ (lb ub : Option Nat) (cs : List BNode),
    WFChildren lb ub seps cs → ∀ k, lbOk lb k → ubOk ub k →
    ∃ c lb' ub', cs[selIdx seps k]? = some c ∧ WFNode lb' ub' c ∧ lbOk lb' k ∧ ubOk ub' k ∧
      lookupKV k (entriesFlat cs) = lookupKV k (entriesOf c) := by
  induction seps with
  | nil =>
    intro lb ub cs hwf k hlb hub
    cases hwf with
    | single lb ub c hc =>
      refine ⟨c, lb, ub, List.getElem?_cons_zero, hc, hlb, hub, ?_⟩
      show lookupKV k (entriesOf c ++ entriesFlat []) = lookupKV k (entriesOf c)
      simp only [entriesFlat, List.append_nil]
  | cons s seps ih =>
    intro lb ub cs hwf k hlb hub
    cases hwf with
    | cons lb ub s seps c cs hlbs hubs hc hrest =>
      by_cases hsk : s ≤ k
      · rw [selIdx_cons_le s k seps hsk]
        have hlb' : lbOk (some s) k := by
          intro b hb
          cases hb
          exact hsk
        obtain ⟨c0, lb', ub', hget, hwf0, hlb0, hub0, hlook⟩ :=
          ih (some s) ub cs hrest k hlb' hub
        refine ⟨c0, lb', ub', ?_, hwf0, hlb0, hub0, ?_⟩
        · rw [List.getElem?_cons_succ]
          exact hget
        · show lookupKV k (entriesOf c ++ entriesFlat cs) = lookupKV k (entriesOf c0)
          rw [lookupKV_append_of_ne_left k (entriesOf c) (entriesFlat cs) ?_, hlook]
          intro p hp
          exact ne_of_lt (lt_of_lt_of_le ((entries_bounds_node c lb (some s) hc p hp).2 s rfl) hsk)
      · rw [selIdx_cons_gt s k seps hsk]
        have hks : k < s := not_le.mp hsk
        refine ⟨c, lb, some s, List.getElem?_cons_zero, hc, hlb, ?_, ?_⟩
        · intro b hb
          cases hb
          exact hks
        · show lookupKV k (entriesOf c ++ entriesFlat cs) = lookupKV k (entriesOf c)
          apply lookupKV_append_of_ne_right
          intro p hp
          have := (entries_bounds_children seps (some s) ub cs hrest
            (fun c' _ => entries_bounds_node c') p hp).1 s rfl
          exact ne_of_gt (lt_of_lt_of_le hks this)

theorem btSearch_leaf_eq (ks : List Nat) (vs : List String) (k : Nat) :
    btSearch (.leaf ks vs) k = leafLookup ks vs k := by
  rw [btSearch]

theorem btSearch_internal_eq (keys : List Nat) (children : List BNode) (k : Nat) (c : BNode)
    (hget : children[selIdx keys k]? = some c) :
    btSearch (.internal keys children) k = btSearch c k := by
  rw [btSearch]
  split
  · next c1 heq =>
    rw [hget] at heq
    cases heq
    rfl
  · next heq =>
    rw [hget] at heq
    cases heq

theorem btSearch_eq_lookup : ∀ t, ∀ (lb ub : Option Nat), WFNode lb ub t →
    ∀ k, lbOk lb k → ubOk ub k → btSearch t k = lookupKV k (entriesOf t) := by
  apply bnode_strong_ind (fun t => ∀ lb ub, WFNode lb ub t →
    ∀ k, lbOk lb k → ubOk ub k → btSearch t k = lookupKV k (entriesOf t))
  · intro ks vs lb ub hwf k hlb hub
    rw [btSearch_leaf_eq]
    simp only [entriesOf]
    exact leafLookup_eq_lookupKV ks vs k
  · intro keys children hih lb ub hwf k hlb hub
    cases hwf with
    | internal lb ub keys children hwfc =>
      obtain ⟨c, lb', ub', hget, hwfc', hlb', hub', hlook⟩ :=
        children_lookup_spec keys lb ub children hwfc k hlb hub
      have hmem : c ∈ children := by
        obtain ⟨hlt, hval⟩ := List.getElem?_eq_some.mp hget
        exact hval ▸ List.getElem_mem hlt
      rw [btSearch_internal_eq keys children k c hget]
      rw [hih c hmem lb' ub' hwfc' k hlb' hub']
      simp only [entriesOf]
      exact hlook.symm

theorem btPut_spec (t : BNode) (k : Nat) (v : String) (hwf : WFNode none none t) :
    WFNode none none (btPut t k v) ∧
    entriesOf (btPut t k v) = upsertKV k v (entriesOf t) := by
  have hvac : ∀ (b : Nat), b ∈ (none : Option Nat) → True := fun b hb => trivial
  have hlb : lbOk none k := by intro b hb; cases hb
  have hub : ubOk none k := by intro b hb; cases hb
  obtain ⟨hns, hsp⟩ := insertNode_spec t none none hwf k v hlb hub
  cases hcase : insertNode t k v with
  | noSplit t' =>
    have heq2 : btPut t k v = t' := by
      unfold btPut
      rw [hcase]
    rw [heq2]
    exact hns t' hcase
  | split l r p =>
    have heq2 : btPut t k v = .internal [p] [l, r] := by
      unfold btPut
      rw [hcase]
    rw [heq2]
    obtain ⟨hwl, hwr, hplb, hpub, hent⟩ := hsp l r p hcase
    constructor
    · exact WFNode.internal none none [p] [l, r]
        (WFChildren.cons none none p [] l [r] hplb hpub hwl
          (WFChildren.single (some p) none r hwr))
    · simp only [entriesOf, entriesFlat, List.append_nil]
      exact hent

theorem btRun_from (ops : List (Nat × String)) : ∀ t, WFNode none none t →
    WFNode none none (ops.foldl (fun t p => btPut t p.1 p.2) t) ∧
    entriesOf (ops.foldl (fun t p => btPut t p.1 p.2) t) =
      ops.foldl (fun m p => upsertKV p.1 p.2 m) (entriesOf t) := by
  induction ops with
  | nil => intro t hwf; exact ⟨hwf, rfl⟩
  | cons op ops ih =>
    intro t hwf
    obtain ⟨hwf', hent'⟩ := btPut_spec t op.1 op.2 hwf
    obtain ⟨hwf2, hent2⟩ := ih (btPut t op.1 op.2) hwf'
    refine ⟨hwf2, ?_⟩
    simp only [List.foldl_cons]
    rw [hent2, hent']

theorem btEmpty_wf : WFNode none none btEmpty := by
  refine WFNode.leaf none none [] [] (by simp) (by simp) rfl

theorem lookup_foldl_upsert_ne (ops : List (Nat × String)) (k : Nat)
    (h : ∀ p ∈ ops, p.1 ≠ k) : ∀ m,
    lookupKV k (ops.foldl (fun m p => upsertKV p.1 p.2 m) m) = lookupKV k m := by
  induction ops with
  | nil => intro m; rfl
  | cons op ops ih =>
    intro m
    simp only [List.foldl_cons]
    rw [ih (fun p hp => h p (List.mem_cons_of_mem _ hp))]
    exact lookupKV_upsertKV_ne op.1 k op.2 m (Ne.symm (h op (List.mem_cons_self _ _)))

theorem insertNode_size : ∀ t, InsSizeP t := by
  apply bnode_strong_ind InsSizeP
  · intro ks vs k v hsz
    cases hsz with
    | leaf ks vs hlen =>
      have heq := insertNode_leaf_eq ks vs k v
      constructor
      · intro t' hres
        rw [heq] at hres
        unfold insertLeafNode at hres
        by_cases hmem : k ∈ ks
        · rw [if_pos hmem] at hres
          injection hres with h
          subst h
          exact SizeOk.leaf _ _ hlen
        · rw [if_neg hmem] at hres
          by_cases hroom : ks.length < MAX_KEYS_LEAF
          · rw [if_pos hroom] at hres
            injection hres with h
            subst h
            apply SizeOk.leaf
            have hple : shiftInsertPos ks k ≤ ks.length := by
              unfold shiftInsertPos
              omega
            rw [List.length_insertIdx _ _ hple]
            omega
          · rw [if_neg hroom] at hres
            cases hres
      · intro l r p hres
        rw [heq] at hres
        unfold insertLeafNode at hres
        by_cases hmem : k ∈ ks
        · rw [if_pos hmem] at hres
          cases hres
        · rw [if_neg hmem] at hres
          by_cases hroom : ks.length < MAX_KEYS_LEAF
          · rw [if_pos hroom] at hres
            cases hres
          · rw [if_neg hroom] at hres
            injection hres with h1 h2 h3
            subst h1
            subst h2
            have hple : splitInsertPos ks k ≤ ks.length := splitInsertPos_le_length ks k
            have htmplen : (ks.insertIdx (splitInsertPos ks k) k).length = ks.length + 1 :=
              List.length_insertIdx _ _ hple
            have hlen30 : ks.length ≤ 30 := hlen
            constructor
            · apply SizeOk.leaf
              unfold MAX_KEYS_LEAF
              rw [List.length_take, htmplen]
              omega
            · apply SizeOk.leaf
              unfold MAX_KEYS_LEAF
              rw [List.length_drop, htmplen]
              omega
  · intro keys children hih k v hsz
    cases hsz with
    | internal keys children hklen hcsz =>
      cases hget : children[selIdx keys k]? with
      | none =>
        have heq2 : insertNode (.internal keys children) k v =
            .noSplit (.internal keys children) := by
          rw [insertNode]
          split
          · rfl
          · next c1 hsome =>
            rw [hget] at hsome
            cases hsome
        constructor
        · intro t' hres
          rw [heq2] at hres
          injection hres with h
          subst h
          exact SizeOk.internal keys children hklen hcsz
        · intro l r p hres
          rw [heq2] at hres
          cases hres
      | some c =>
        have hmem : c ∈ children := by
          obtain ⟨hlt, hval⟩ := List.getElem?_eq_some.mp hget
          exact hval ▸ List.getElem_mem hlt
        have hclt : selIdx keys k < children.length := (List.getElem?_eq_some.mp hget).1
        have heq := insertNode_internal_eq keys children k v c hget
        have hcspec := hih c hmem k v (hcsz c hmem)
        constructor
        · intro t' hres
          cases hcase : insertNode c k v with
          | noSplit c' =>
            have heq2 : insertNode (.internal keys children) k v =
                .noSplit (.internal keys (children.set (selIdx keys k) c')) := by
              rw [heq, hcase]
            rw [heq2] at hres
            injection hres with h
            subst h
            refine SizeOk.internal _ _ hklen ?_
            intro x hx
            rcases List.mem_or_eq_of_mem_set hx with hx | rfl
            · exact hcsz x hx
            · exact hcspec.1 _ hcase
          | split cl cr pk =>
            obtain ⟨hszl, hszr⟩ := hcspec.2 cl cr pk hcase
            by_cases hroom : keys.length < MAX_KEYS_INTERNAL
            · have heq2 : insertNode (.internal keys children) k v =
                  .noSplit (.internal (keys.insertIdx (selIdx keys k) pk)
                    ((children.set (selIdx keys k) cl).insertIdx (selIdx keys k + 1) cr)) := by
                rw [heq, hcase]
                simp only [if_pos hroom]
              rw [heq2] at hres
              injection hres with h
              subst h
              refine SizeOk.internal _ _ ?_ ?_
              · rw [List.length_insertIdx _ _ (selIdx_le_length keys k)]
                omega
              · intro x hx
                have hsetlen : selIdx keys k + 1 ≤ (children.set (selIdx keys k) cl).length := by
                  rw [List.length_set]
                  omega
                rcases (List.mem_insertIdx hsetlen).mp hx with rfl | hx
                · exact hszr
                · rcases List.mem_or_eq_of_mem_set hx with hx | rfl
                  · exact hcsz x hx
                  · exact hszl
            · have heq2 : insertNode (.internal keys children) k v =
                  splitInternalNode keys children (selIdx keys k) cl cr pk := by
                rw [heq, hcase]
                simp only [if_neg hroom]
              rw [heq2] at hres
              simp only [splitInternalNode] at hres
              cases hres
        · intro l r p hres
          cases hcase : insertNode c k v with
          | noSplit c' =>
            have heq2 : insertNode (.internal keys children) k v =
                .noSplit (.internal keys (children.set (selIdx keys k) c')) := by
              rw [heq, hcase]
            rw [heq2] at hres
            cases hres
          | split cl cr pk =>
            obtain ⟨hszl, hszr⟩ := hcspec.2 cl cr pk hcase
            by_cases hroom : keys.length < MAX_KEYS_INTERNAL
            · have heq2 : insertNode (.internal keys children) k v =
                  .noSplit (.internal (keys.insertIdx (selIdx keys k) pk)
                    ((children.set (selIdx keys k) cl).insertIdx (selIdx keys k + 1) cr)) := by
                rw [heq, hcase]
                simp only [if_pos hroom]
              rw [heq2] at hres
              cases hres
            · have heq2 : insertNode (.internal keys children) k v =
                  splitInternalNode keys children (selIdx keys k) cl cr pk := by
                rw [heq, hcase]
                simp only [if_neg hroom]
              rw [heq2] at hres
              simp only [splitInternalNode] at hres
              injection hres with h1 h2 h3
              subst h1
              subst h2
              have htklen : (keys.insertIdx (selIdx keys k) pk).length = keys.length + 1 :=
                List.length_insertIdx _ _ (selIdx_le_length keys k)
              have hsetlen : selIdx keys k + 1 ≤ (children.set (selIdx keys k) cl).length := by
                rw [List.length_set]
                omega
              have hmemtc : ∀ x ∈ (children.set (selIdx keys k) cl).insertIdx
                  (selIdx keys k + 1) cr, SizeOk x := by
                intro x hx
                rcases (List.mem_insertIdx hsetlen).mp hx with rfl | hx
                · exact hszr
                · rcases List.mem_or_eq_of_mem_set hx with hx | rfl
                  · exact hcsz x hx
                  · exact hszl
              have hklen120 : keys.length ≤ 120 := hklen
              constructor
              · refine SizeOk.internal _ _ ?_ ?_
                · unfold MAX_KEYS_INTERNAL
                  rw [List.length_take, htklen]
                  omega
                · intro x hx
                  exact hmemtc x (List.Sublist.mem hx (List.take_sublist _ _))
              · refine SizeOk.internal _ _ ?_ ?_
                · unfold MAX_KEYS_INTERNAL
                  rw [List.length_drop, htklen]
                  omega
                · intro x hx
                  exact hmemtc x (List.Sublist.mem hx (List.drop_sublist _ _))

theorem btPut_size (t : BNode) (k : Nat) (v : String) (hsz : SizeOk t) :
    SizeOk (btPut t k v) := by
  obtain ⟨hns, hsp⟩ := insertNode_size t k v hsz
  cases hcase : insertNode t k v with
  | noSplit t' =>
    have heq2 : btPut t k v = t' := by
      unfold btPut
      rw [hcase]
    rw [heq2]
    exact hns t' hcase
  | split l r p =>
    have heq2 : btPut t k v = .internal [p] [l, r] := by
      unfold btPut
      rw [hcase]
    rw [heq2]
    obtain ⟨hszl, hszr⟩ := hsp l r p hcase
    refine SizeOk.internal [p] [l, r] ?_ ?_
    · show 1 ≤ MAX_KEYS_INTERNAL
      unfold MAX_KEYS_INTERNAL
      omega
    intro c hc
    rcases List.mem_cons.mp hc with rfl | hc
    · exact hszl
    · rcases List.mem_cons.mp hc with rfl | hc
      · exact hszr
      · simp at hc

theorem btRun_size_from (ops : List (Nat × String)) : ∀ t, SizeOk t →
    SizeOk (ops.foldl (fun t p => btPut t p.1 p.2) t) := by
  induction ops with
  | nil => intro t h; exact h
  | cons op ops ih =>
    intro t h
    simp only [List.foldl_cons]
    exact ih (btPut t op.1 op.2) (btPut_size t op.1 op.2 h)

theorem leavesEntries_append (A B : List (List Nat × List String)) :
    leavesEntries (A ++ B) = leavesEntries A ++ leavesEntries B := by
  induction A with
  | nil => rfl
  | cons a as ih =>
    obtain ⟨ks, vs⟩ := a
    simp only [List.cons_append, leavesEntries, List.append_assoc]
    exact congrArg (fun l => ks.zip vs ++ l) ih

theorem leavesEntries_leafList : ∀ t, leavesEntries (leafListOf t) = entriesOf t := by
  apply bnode_strong_ind (fun t => leavesEntries (leafListOf t) = entriesOf t)
  · intro ks vs
    simp only [leafListOf, leavesEntries, entriesOf, List.append_nil]
  · intro keys children hih
    simp only [leafListOf, entriesOf]
    induction children with
    | nil => rfl
    | cons c cs ihcs =>
      simp only [leafListFlat, entriesFlat, leavesEntries_append]
      rw [hih c (List.mem_cons_self _ _), ihcs (fun x hx => hih x (List.mem_cons_of_mem _ hx))]

theorem leavesEntries_leafListFlat (cs : List BNode) :
    leavesEntries (leafListFlat cs) = entriesFlat cs := by
  induction cs with
  | nil => rfl
  | cons c cs ih =>
    simp only [leafListFlat, entriesFlat, leavesEntries_append, ih,
      leavesEntries_leafList c]

theorem leafList_wf_children (seps : List Nat) : ∀ (lb ub : Option Nat) (cs : List BNode),
    WFChildren lb ub seps cs →
    (∀ c ∈ cs, ∀ lb' ub', WFNode lb' ub' c →
      ∀ lf ∈ leafListOf c, lf.1.Pairwise (· < ·) ∧ lf.2.length = lf.1.length) →
    ∀ lf ∈ leafListFlat cs, lf.1.Pairwise (· < ·) ∧ lf.2.length = lf.1.length := by
  induction seps with
  | nil =>
    intro lb ub cs hwf hih lf hlf
    cases hwf with
    | single lb ub c hc =>
      simp only [leafListFlat, List.append_nil] at hlf
      exact hih c (List.mem_cons_self _ _) lb ub hc lf hlf
  | cons s seps ih =>
    intro lb ub cs hwf hih lf hlf
    cases hwf with
    | cons lb ub s seps c cs hlbs hubs hc hrest =>
      simp only [leafListFlat] at hlf
      rcases List.mem_append.mp hlf with hlf | hlf
      · exact hih c (List.mem_cons_self _ _) lb (some s) hc lf hlf
      · exact ih (some s) ub cs hrest (fun x hx => hih x (List.mem_cons_of_mem _ hx)) lf hlf

/-- Every leaf appearing in the leaf list of a well-formed subtree has
strictly sorted keys and matching value count. -/
theorem leafList_wf : ∀ t, ∀ (lb ub : Option Nat), WFNode lb ub t →
    ∀ lf ∈ leafListOf t, lf.1.Pairwise (· < ·) ∧ lf.2.length = lf.1.length := by
  apply bnode_strong_ind (fun t => ∀ lb ub, WFNode lb ub t →
    ∀ lf ∈ leafListOf t, lf.1.Pairwise (· < ·) ∧ lf.2.length = lf.1.length)
  · intro ks vs lb ub hwf lf hlf
    cases hwf with
    | leaf lb ub ks vs hsort hbnd hlen =>
      simp only [leafListOf, List.mem_singleton] at hlf
      subst hlf
      exact ⟨hsort, hlen⟩
  · intro keys children hih lb ub hwf lf hlf
    cases hwf with
    | internal lb ub keys children hwfc =>
      simp only [leafListOf] at hlf
      exact leafList_wf_children keys lb ub children hwfc hih lf hlf

theorem entries_sorted_children (seps : List Nat) : ∀ (lb ub : Option Nat) (cs : List BNode),
    WFChildren lb ub seps cs →
    (∀ c ∈ cs, ∀ lb' ub', WFNode lb' ub' c → ((entriesOf c).map Prod.fst).Pairwise (· < ·)) →
    ((entriesFlat cs).map Prod.fst).Pairwise (· < ·) := by
  induction seps with
  | nil =>
    intro lb ub cs hwf hih
    cases hwf with
    | single lb ub c hc =>
      simp only [entriesFlat, List.append_nil]
      exact hih c (List.mem_cons_self _ _) lb ub hc
  | cons s seps ih =>
    intro lb ub cs hwf hih
    cases hwf with
    | cons lb ub s seps c cs hlbs hubs hc hrest =>
      simp only [entriesFlat, List.map_append]
      rw [List.pairwise_append]
      refine ⟨hih c (List.mem_cons_self _ _) lb (some s) hc,
        ih (some s) ub cs hrest (fun x hx => hih x (List.mem_cons_of_mem _ hx)), ?_⟩
      intro a ha b hb
      simp only [List.mem_map] at ha hb
      obtain ⟨p, hp, rfl⟩ := ha
      obtain ⟨q, hq, rfl⟩ := hb
      have h1 : p.1 < s := (entries_bounds_node c lb (some s) hc p hp).2 s rfl
      have h2 : s ≤ q.1 := (entries_bounds_children seps (some s) ub cs hrest
        (fun c' _ => entries_bounds_node c') q hq).1 s rfl
      exact lt_of_lt_of_le h1 h2

theorem entries_sorted : ∀ t, ∀ (lb ub : Option Nat), WFNode lb ub t →
    ((entriesOf t).map Prod.fst).Pairwise (· < ·) := by
  apply bnode_strong_ind (fun t => ∀ lb ub, WFNode lb ub t →
    ((entriesOf t).map Prod.fst).Pairwise (· < ·))
  · intro ks vs lb ub hwf
    cases hwf with
    | leaf lb ub ks vs hsort hbnd hlen =>
      simp only [entriesOf]
      rw [List.map_fst_zip ks vs (le_of_eq hlen.symm)]
      exact hsort
  · intro keys children hih lb ub hwf
    cases hwf with
    | internal lb ub keys children hwfc =>
      simp only [entriesOf]
      exact entries_sorted_children keys lb ub children hwfc
        (fun c hc lb' ub' hwf' => hih c hc lb' ub' hwf')

theorem leafChainFrom_leaf_eq (ks : List Nat) (vs : List String) (low : Nat) :
    leafChainFrom (.leaf ks vs) low = [(ks, vs)] := by
  rw [leafChainFrom]

theorem leafChainFrom_internal_eq (keys : List Nat) (children : List BNode) (low : Nat)
    (c : BNode) (hget : children[selIdx keys low]? = some c) :
    leafChainFrom (.internal keys children) low =
      leafChainFrom c low ++ leafListFlat (children.drop (selIdx keys low + 1)) := by
  rw [leafChainFrom]
  split
  · next c1 heq =>
    rw [hget] at heq
    cases heq
    rfl
  · next heq =>
    rw [hget] at heq
    cases heq

theorem children_chain_spec (seps : List Nat) : ∀ (lb ub : Option Nat) (cs : List BNode),
    WFChildren lb ub seps cs → (∀ c ∈ cs, ChainP c) →
    ∀ low, lbOk lb low → ubOk ub low →
    ∃ c pre, cs[selIdx seps low]? = some c ∧
      leafListFlat cs =
        pre ++ (leafChainFrom c low ++ leafListFlat (cs.drop (selIdx seps low + 1))) ∧
      ∀ p ∈ leavesEntries pre, p.1 < low := by
  induction seps with
  | nil =>
    intro lb ub cs hwf hih low hlb hub
    cases hwf with
    | single lb ub c hc =>
      obtain ⟨pre, hsplit, hpre⟩ := hih c (List.mem_cons_self _ _) lb ub hc low hlb hub
      refine ⟨c, pre, List.getElem?_cons_zero, ?_, hpre⟩
      show leafListOf c ++ leafListFlat [] = pre ++ (leafChainFrom c low ++ leafListFlat [])
      simp only [leafListFlat, List.append_nil]
      exact hsplit
  | cons s seps ih =>
    intro lb ub cs hwf hih low hlb hub
    cases hwf with
    | cons lb ub s seps c cs hlbs hubs hc hrest =>
      by_cases hsk : s ≤ low
      · rw [selIdx_cons_le s low seps hsk]
        have hlb' : lbOk (some s) low := by
          intro b hb
          cases hb
          exact hsk
        obtain ⟨c0, pre, hget, hsplit, hpre⟩ := ih (some s) ub cs hrest
          (fun x hx => hih x (List.mem_cons_of_mem _ hx)) low hlb' hub
        refine ⟨c0, leafListOf c ++ pre, ?_, ?_, ?_⟩
        · rw [List.getElem?_cons_succ]
          exact hget
        · show leafListOf c ++ leafListFlat cs = _
          rw [hsplit, List.append_assoc]
          rfl
        · intro p hp
          rw [leavesEntries_append] at hp
          rcases List.mem_append.mp hp with hp | hp
          · rw [leavesEntries_leafList c] at hp
            exact lt_of_lt_of_le ((entries_bounds_node c lb (some s) hc p hp).2 s rfl) hsk
          · exact hpre p hp
      · rw [selIdx_cons_gt s low seps hsk]
        have hls : low < s := not_le.mp hsk
        have hub' : ubOk (some s) low := by
          intro b hb
          cases hb
          exact hls
        obtain ⟨pre, hsplit, hpre⟩ := hih c (List.mem_cons_self _ _) lb (some s) hc low hlb hub'
        refine ⟨c, pre, List.getElem?_cons_zero, ?_, hpre⟩
        show leafListOf c ++ leafListFlat cs = pre ++ (leafChainFrom c low ++ leafListFlat cs)
        rw [hsplit, List.append_assoc]

theorem leafChainFrom_spec : ∀ t, ChainP t := by
  apply bnode_strong_ind ChainP
  · intro ks vs lb ub hwf low hlb hub
    refine ⟨[], ?_, ?_⟩
    · rw [leafChainFrom_leaf_eq]
      rfl
    · intro p hp
      simp [leavesEntries] at hp
  · intro keys children hih lb ub hwf low hlb hub
    cases hwf with
    | internal lb ub keys children hwfc =>
      obtain ⟨c, pre, hget, hsplit, hpre⟩ :=
        children_chain_spec keys lb ub children hwfc hih low hlb hub
      refine ⟨pre, ?_, hpre⟩
      rw [leafChainFrom_internal_eq keys children low c hget]
      show leafListFlat children = _
      rw [hsplit]

theorem filter_nil_of_false {α : Type} (p : α → Bool) (l : List α)
    (h : ∀ a ∈ l, p a = false) : l.filter p = [] := by
  induction l with
  | nil => rfl
  | cons a t ih =>
    rw [List.filter_cons_of_neg (by simp [h a (List.mem_cons_self _ _)])]
    exact ih fun x hx => h x (List.mem_cons_of_mem _ hx)

theorem emit_spec (low high maxr : Nat) : ∀ (ks : List Nat) (vs : List String)
    (out : List (Nat × String)), ks.Pairwise (· < ·) →
    (emitLeafRecords low high maxr ks vs out).1 =
      out ++ ((ks.zip vs).filter (inRange low high)).take (maxr - out.length) ∧
    ((emitLeafRecords low high maxr ks vs out).2 = true → ∃ k0 ∈ ks, high < k0) := by
  intro ks
  induction ks with
  | nil =>
    intro vs out hs
    cases vs <;> exact ⟨by simp [emitLeafRecords], by simp [emitLeafRecords]⟩
  | cons k' kt ih =>
    intro vs out hs
    cases vs with
    | nil => exact ⟨by simp [emitLeafRecords], by simp [emitLeafRecords]⟩
    | cons v' vt =>
      simp only [List.pairwise_cons] at hs
      by_cases h1 : maxr ≤ out.length
      · constructor
        · simp only [emitLeafRecords, if_pos h1, Nat.sub_eq_zero_of_le h1, List.take_zero,
            List.append_nil]
        · simp only [emitLeafRecords, if_pos h1]
          intro hfl
          cases hfl
      · by_cases h2 : k' < low
        · have hf : inRange low high (k', v') = false := by
            show (decide (low ≤ k') && decide (k' ≤ high)) = false
            rw [decide_eq_false (not_le.mpr h2), Bool.false_and]
          obtain ⟨ih1, ih2⟩ := ih vt out hs.2
          have hfc : ((k', v') :: kt.zip vt).filter (inRange low high) =
              (kt.zip vt).filter (inRange low high) :=
            List.filter_cons_of_neg (by simp [hf])
          constructor
          · simp only [emitLeafRecords, if_neg h1, if_pos h2, List.zip_cons_cons, hfc]
            exact ih1
          · simp only [emitLeafRecords, if_neg h1, if_pos h2]
            intro hfl
            obtain ⟨k0, hk0, hk0h⟩ := ih2 hfl
            exact ⟨k0, List.mem_cons_of_mem _ hk0, hk0h⟩
        · by_cases h3 : high < k'
          · have hf : inRange low high (k', v') = false := by
              show (decide (low ≤ k') && decide (k' ≤ high)) = false
              rw [decide_eq_false (not_le.mpr h3), Bool.and_false]
            have hfc : ((k', v') :: kt.zip vt).filter (inRange low high) =
                (kt.zip vt).filter (inRange low high) :=
              List.filter_cons_of_neg (by simp [hf])
            have hrest : (kt.zip vt).filter (inRange low high) = [] := by
              apply filter_nil_of_false
              intro p hp
              obtain ⟨pk, pv⟩ := p
              have hmem := (List.mem_zip hp).1
              have hgt : k' < pk := hs.1 pk hmem
              show (decide (low ≤ pk) && decide (pk ≤ high)) = false
              rw [decide_eq_false (not_le.mpr (lt_trans h3 hgt)), Bool.and_false]
            constructor
            · simp only [emitLeafRecords, if_neg h1, if_neg h2, if_pos h3,
                List.zip_cons_cons, hfc, hrest, List.take_nil, List.append_nil]
            · intro hfl
              exact ⟨k', List.mem_cons_self _ _, h3⟩
          · have ht : inRange low high (k', v') = true := by
              show (decide (low ≤ k') && decide (k' ≤ high)) = true
              rw [decide_eq_true (not_lt.mp h2), decide_eq_true (not_lt.mp h3),
                Bool.true_and]
            obtain ⟨ih1, ih2⟩ := ih vt (out ++ [(k', v')]) hs.2
            have hfc : ((k', v') :: kt.zip vt).filter (inRange low high) =
                (k', v') :: (kt.zip vt).filter (inRange low high) :=
              List.filter_cons_of_pos (by simp [ht])
            constructor
            · simp only [emitLeafRecords, if_neg h1, if_neg h2, if_neg h3,
                List.zip_cons_cons, hfc]
              rw [ih1]
              rw [show maxr - out.length = (maxr - out.length - 1) + 1 from by omega]
              rw [List.take_succ_cons]
              rw [List.length_append, List.length_singleton]
              rw [show maxr - (out.length + 1) = maxr - out.length - 1 from by omega]
              rw [List.append_assoc]
              rfl
            · simp only [emitLeafRecords, if_neg h1, if_neg h2, if_neg h3]
              intro hfl
              obtain ⟨k0, hk0, hk0h⟩ := ih2 hfl
              exact ⟨k0, List.mem_cons_of_mem _ hk0, hk0h⟩

theorem rangeWalk_cons (low high maxr : Nat) (ks : List Nat) (vs : List String)
    (rest : List (List Nat × List String)) (out : List (Nat × String)) :
    rangeWalk low high maxr ((ks, vs) :: rest) out =
      if maxr ≤ out.length then out
      else if (emitLeafRecords low high maxr ks vs out).2 then
        (emitLeafRecords low high maxr ks vs out).1
      else rangeWalk low high maxr rest (emitLeafRecords low high maxr ks vs out).1 := rfl

theorem walk_spec (low high maxr : Nat) : ∀ (chain : List (List Nat × List String)),
    ((leavesEntries chain).map Prod.fst).Pairwise (· < ·) →
    (∀ lf ∈ chain, lf.1.Pairwise (· < ·) ∧ lf.2.length = lf.1.length) →
    ∀ out, rangeWalk low high maxr chain out =
      out ++ ((leavesEntries chain).filter (inRange low high)).take (maxr - out.length) := by
  intro chain
  induction chain with
  | nil =>
    intro hsort hlf out
    simp [rangeWalk, leavesEntries]
  | cons lf rest ih =>
    obtain ⟨ks, vs⟩ := lf
    intro hsort hlf out
    rw [rangeWalk_cons]
    have hks : ks.Pairwise (· < ·) := (hlf (ks, vs) (List.mem_cons_self _ _)).1
    have hlen : vs.length = ks.length := (hlf (ks, vs) (List.mem_cons_self _ _)).2
    have hmapfst : (ks.zip vs).map Prod.fst = ks := List.map_fst_zip ks vs (le_of_eq hlen.symm)
    have hle : leavesEntries ((ks, vs) :: rest) = ks.zip vs ++ leavesEntries rest := rfl
    rw [hle] at hsort ⊢
    rw [List.map_append] at hsort
    have hpairs := List.pairwise_append.mp hsort
    by_cases hfull : maxr ≤ out.length
    · rw [if_pos hfull, Nat.sub_eq_zero_of_le hfull, List.take_zero, List.append_nil]
    · rw [if_neg hfull]
      obtain ⟨hemit1, hemit2⟩ := emit_spec low high maxr ks vs out hks
      cases hflag : (emitLeafRecords low high maxr ks vs out).2 with
      | true =>
        rw [if_pos rfl, hemit1]
        obtain ⟨k0, hk0, hk0h⟩ := hemit2 hflag
        have hrestnil : (leavesEntries rest).filter (inRange low high) = [] := by
          apply filter_nil_of_false
          intro p hp
          have hk0m : k0 ∈ (ks.zip vs).map Prod.fst := by
            rw [hmapfst]
            exact hk0
          have hcross : k0 < p.1 :=
            hpairs.2.2 k0 hk0m p.1 (List.mem_map_of_mem Prod.fst hp)
          show (decide (low ≤ p.1) && decide (p.1 ≤ high)) = false
          rw [decide_eq_false (not_le.mpr (lt_trans hk0h hcross)), Bool.and_false]
        rw [List.filter_append, hrestnil, List.append_nil]
      | false =>
        rw [if_neg Bool.false_ne_true]
        rw [ih hpairs.2.1 (fun x hx => hlf x (List.mem_cons_of_mem _ hx)) _]
        rw [hemit1]
        rw [List.filter_append, List.take_append_eq_append_take, List.append_assoc,
          List.length_append, List.length_take]
        have harith : maxr - (out.length + min (maxr - out.length)
            (((ks.zip vs).filter (inRange low high)).length)) =
            maxr - out.length - ((ks.zip vs).filter (inRange low high)).length := by
          omega
        rw [harith]

theorem rangeQuery_correct (t : BNode) (low high maxr : Nat) (hwf : WFNode none none t) :
    rangeQuery t low high maxr = ((entriesOf t).filter (inRange low high)).take maxr := by
  unfold rangeQuery
  by_cases hlh : high < low
  · rw [if_pos hlh]
    have hnil : (entriesOf t).filter (inRange low high) = [] := by
      apply filter_nil_of_false
      intro p hp
      show (decide (low ≤ p.1) && decide (p.1 ≤ high)) = false
      by_cases hl : low ≤ p.1
      · rw [decide_eq_false (not_le.mpr (lt_of_lt_of_le hlh hl)), Bool.and_false]
      · rw [decide_eq_false hl, Bool.false_and]
    rw [hnil, List.take_nil]
  · rw [if_neg hlh]
    have hvacl : lbOk none low := by intro b hb; cases hb
    have hvacu : ubOk none low := by intro b hb; cases hb
    obtain ⟨pre, hsplit, hpre⟩ := leafChainFrom_spec t none none hwf low hvacl hvacu
    have hent : entriesOf t = leavesEntries pre ++ leavesEntries (leafChainFrom t low) := by
      rw [← leavesEntries_leafList t, hsplit, leavesEntries_append]
    have hsorted := entries_sorted t none none hwf
    rw [hent] at hsorted
    rw [List.map_append] at hsorted
    have hpairs := List.pairwise_append.mp hsorted
    have hlfchain : ∀ lf ∈ leafChainFrom t low,
        lf.1.Pairwise (· < ·) ∧ lf.2.length = lf.1.length := by
      intro lf hlf
      apply leafList_wf t none none hwf
      rw [hsplit]
      exact List.mem_append_right _ hlf
    rw [walk_spec low high maxr (leafChainFrom t low) hpairs.2.1 hlfchain []]
    have hprenil : (leavesEntries pre).filter (inRange low high) = [] := by
      apply filter_nil_of_false
      intro p hp
      show (decide (low ≤ p.1) && decide (p.1 ≤ high)) = false
      rw [decide_eq_false (not_le.mpr (hpre p hp)), Bool.false_and]
    rw [hent, List.filter_append, hprenil, List.nil_append, List.length_nil,
      Nat.sub_zero, List.nil_append]

theorem btGet_iff_mem (t : BNode) (hwf : WFNode none none t) (k : Nat) (v : String) :
    btGet t k = some v ↔ (k, v) ∈ entriesOf t := by
  have hvacl : lbOk none k := by intro b hb; cases hb
  have hvacu : ubOk none k := by intro b hb; cases hb
  have hget : btGet t k = lookupKV k (entriesOf t) :=
    btSearch_eq_lookup t none none hwf k hvacl hvacu
  rw [hget]
  constructor
  · intro h
    exact lookupKV_mem k v (entriesOf t) h
  · intro h
    apply lookupKV_of_mem_nodup k v (entriesOf t) h
    have := entries_sorted t none none hwf
    exact this.imp ne_of_lt

theorem btree_lww (pre mid post : List (Nat × String)) (k : Nat) (v1 v2 : String)
    (hpost : ∀ p ∈ post, p.1 ≠ k) :
    btGet (btRun (pre ++ [(k, v1)] ++ mid ++ [(k, v2)] ++ post)) k = some v2 := by
  have hwf0 : WFNode none none btEmpty := btEmpty_wf
  obtain ⟨hwf, hent⟩ := btRun_from (pre ++ [(k, v1)] ++ mid ++ [(k, v2)] ++ post) btEmpty hwf0
  have hvacl : lbOk none k := by intro b hb; cases hb
  have hvacu : ubOk none k := by intro b hb; cases hb
  have hget := btSearch_eq_lookup _ none none hwf k hvacl hvacu
  show btSearch (List.foldl (fun t p => btPut t p.1 p.2) btEmpty
    (pre ++ [(k, v1)] ++ mid ++ [(k, v2)] ++ post)) k = some v2
  rw [hget, hent]
  rw [show pre ++ [(k, v1)] ++ mid ++ [(k, v2)] ++ post =
    (pre ++ [(k, v1)] ++ mid ++ [(k, v2)]) ++ post from by simp [List.append_assoc]]
  rw [List.foldl_append]
  rw [lookup_foldl_upsert_ne post k (fun p hp => hpost p hp)]
  rw [List.foldl_append]
  simp only [List.foldl_cons, List.foldl_nil]
  exact lookupKV_upsertKV_self k v2 _

/-- C4: B+ tree leaf split postcondition: inserting a new key into a full
leaf (30 keys) forms the sorted union of the 31 records, keeps the lower 15
in the original leaf, moves the upper 16 to the new leaf, links the new leaf
to the old leaf's former successor and the old leaf to the new leaf, and
promotes the new leaf's first key. -/
theorem claim_C4_leaf_split (leaf : LeafNodeA) (key : Nat) (val : String) (off : Nat)
    (hlen : leaf.keys.length = MAX_KEYS_LEAF)
    (hvlen : leaf.values.length = leaf.keys.length)
    (hsort : leaf.keys.Pairwise (· < ·)) (hnew : key ∉ leaf.keys) :
    ((splitLeafA leaf key val off).1.keys.zip (splitLeafA leaf key val off).1.values) ++
      ((splitLeafA leaf key val off).2.1.keys.zip (splitLeafA leaf key val off).2.1.values) =
      upsertKV key val (leaf.keys.zip leaf.values) ∧
    ((splitLeafA leaf key val off).1.keys ++
      (splitLeafA leaf key val off).2.1.keys).Pairwise (· < ·) ∧
    (splitLeafA leaf key val off).1.keys.length = 15 ∧
    (splitLeafA leaf key val off).2.1.keys.length = 16 ∧
    (splitLeafA leaf key val off).1.values.length = 15 ∧
    (splitLeafA leaf key val off).2.1.values.length = 16 ∧
    (splitLeafA leaf key val off).1.nextLeaf = some off ∧
    (splitLeafA leaf key val off).2.1.nextLeaf = leaf.nextLeaf ∧
    (splitLeafA leaf key val off).2.2 = (splitLeafA leaf key val off).2.1.keys.headD 0 := by
  have hlen30 : leaf.keys.length = 30 := hlen
  have hpose : splitInsertPos leaf.keys key ≤ leaf.keys.length :=
    splitInsertPos_le_length leaf.keys key
  have hklen : (leaf.keys.insertIdx (splitInsertPos leaf.keys key) key).length = 31 := by
    rw [List.length_insertIdx _ _ hpose, hlen30]
  have hvlen31 : (leaf.values.insertIdx (splitInsertPos leaf.keys key) val).length = 31 := by
    rw [List.length_insertIdx _ _ (hvlen ▸ hpose), hvlen, hlen30]
  have hr : splitLeafA leaf key val off =
      (⟨(leaf.keys.insertIdx (splitInsertPos leaf.keys key) key).take 15,
        (leaf.values.insertIdx (splitInsertPos leaf.keys key) val).take 15, some off⟩,
       ⟨(leaf.keys.insertIdx (splitInsertPos leaf.keys key) key).drop 15,
        (leaf.values.insertIdx (splitInsertPos leaf.keys key) val).drop 15, leaf.nextLeaf⟩,
       ((leaf.keys.insertIdx (splitInsertPos leaf.keys key) key).drop 15).headD 0) := by
    unfold splitLeafA
    simp only [hklen]
  rw [hr]
  have hzip : (leaf.keys.insertIdx (splitInsertPos leaf.keys key) key).zip
      (leaf.values.insertIdx (splitInsertPos leaf.keys key) val) =
      upsertKV key val (leaf.keys.zip leaf.values) :=
    zip_insertIdx_eq_upsert leaf.keys leaf.values key val hsort hnew hvlen
  have hfst : (upsertKV key val (leaf.keys.zip leaf.values)).map Prod.fst =
      leaf.keys.insertIdx (splitInsertPos leaf.keys key) key := by
    rw [← hzip]
    exact List.map_fst_zip _ _ (by rw [hklen, hvlen31])
  have hsorted31 : (leaf.keys.insertIdx (splitInsertPos leaf.keys key) key).Pairwise (· < ·) := by
    rw [← hfst]
    apply upsertKV_sorted
    rw [List.map_fst_zip leaf.keys leaf.values (le_of_eq hvlen.symm)]
    exact hsort
  refine ⟨?_, ?_, ?_, ?_, ?_, ?_, rfl, rfl, rfl⟩
  · show ((leaf.keys.insertIdx (splitInsertPos leaf.keys key) key).take 15).zip
        ((leaf.values.insertIdx (splitInsertPos leaf.keys key) val).take 15) ++ _ = _
    rw [← List.zip_append (by simp [List.length_take, hklen, hvlen31])]
    rw [List.take_append_drop, List.take_append_drop]
    exact hzip
  · show ((leaf.keys.insertIdx (splitInsertPos leaf.keys key) key).take 15 ++
      (leaf.keys.insertIdx (splitInsertPos leaf.keys key) key).drop 15).Pairwise (· < ·)
    rw [List.take_append_drop]
    exact hsorted31
  · show ((leaf.keys.insertIdx (splitInsertPos leaf.keys key) key).take 15).length = 15
    rw [List.length_take, hklen]
    decide
  · show ((leaf.keys.insertIdx (splitInsertPos leaf.keys key) key).drop 15).length = 16
    rw [List.length_drop, hklen]
  · show ((leaf.values.insertIdx (splitInsertPos leaf.keys key) val).take 15).length = 15
    rw [List.length_take, hvlen31]
    decide
  · show ((leaf.values.insertIdx (splitInsertPos leaf.keys key) val).drop 15).length = 16
    rw [List.length_drop, hvlen31]

theorem claim_C4_witness :
    ((splitLeafA c4leaf 100 "z" 5).1.keys.zip (splitLeafA c4leaf 100 "z" 5).1.values) ++
      ((splitLeafA c4leaf 100 "z" 5).2.1.keys.zip (splitLeafA c4leaf 100 "z" 5).2.1.values) =
      upsertKV 100 "z" (c4leaf.keys.zip c4leaf.values) ∧
    ((splitLeafA c4leaf 100 "z" 5).1.keys ++
      (splitLeafA c4leaf 100 "z" 5).2.1.keys).Pairwise (· < ·) ∧
    (splitLeafA c4leaf 100 "z" 5).1.keys.length = 15 ∧
    (splitLeafA c4leaf 100 "z" 5).2.1.keys.length = 16 ∧
    (splitLeafA c4leaf 100 "z" 5).1.values.length = 15 ∧
    (splitLeafA c4leaf 100 "z" 5).2.1.values.length = 16 ∧
    (splitLeafA c4leaf 100 "z" 5).1.nextLeaf = some 5 ∧
    (splitLeafA c4leaf 100 "z" 5).2.1.nextLeaf = c4leaf.nextLeaf ∧
    (splitLeafA c4leaf 100 "z" 5).2.2 = (splitLeafA c4leaf 100 "z" 5).2.1.keys.headD 0 :=
  claim_C4_leaf_split c4leaf 100 "z" 5 (by decide) (by decide) (by decide) (by decide)

/-- C5: B+ tree fan-out invariant: after any sequence of put operations from
the empty tree, every leaf holds at most `MAX_KEYS_LEAF` = 30 keys and every
internal node at most `MAX_KEYS_INTERNAL` = 120 keys. -/
theorem claim_C5_fanout_invariant (ops : List (Nat × String)) : SizeOk (btRun ops) := by
  unfold btRun
  apply btRun_size_from
  exact SizeOk.leaf [] [] (Nat.zero_le _)

/-- C6: B+ tree range completeness: on any tree built by puts, `rangeQuery
low high maxr` returns exactly the stored pairs with `low ≤ k ≤ high`, in
ascending key order, truncated to the first `maxr`; the stored pairs are the
in-order records, which are strictly sorted by key and characterised by
`get`. -/
theorem claim_C6_range_completeness (ops : List (Nat × String)) (low high maxr : Nat) :
    rangeQuery (btRun ops) low high maxr =
      ((entriesOf (btRun ops)).filter (inRange low high)).take maxr ∧
    ((entriesOf (btRun ops)).map Prod.fst).Pairwise (· < ·) ∧
    (∀ k v, btGet (btRun ops) k = some v ↔ (k, v) ∈ entriesOf (btRun ops)) := by
  have hwf : WFNode none none (btRun ops) := (btRun_from ops btEmpty btEmpty_wf).1
  exact ⟨rangeQuery_correct _ low high maxr hwf, entries_sorted _ none none hwf,
    fun k v => btGet_iff_mem _ hwf k v⟩

theorem rawMems_append (k : KeyType) (A B : List (List (KeyType × ValueType))) :
    rawMems k (A ++ B) = match rawMems k A with
      | some v => some v
      | none => rawMems k B := by
  induction A with
  | nil => rfl
  | cons m rest ih =>
    simp only [List.cons_append, rawMems]
    cases lookupKV k m with
    | some v => rfl
    | none => exact ih

theorem rawTabs_append (k : KeyType) (A B : List SSTable) :
    rawTabs k (A ++ B) = match rawTabs k A with
      | some v => some v
      | none => rawTabs k B := by
  induction A with
  | nil => rfl
  | cons t rest ih =>
    simp only [List.cons_append, rawTabs]
    cases lookupKV k t.data with
    | some v => rfl
    | none => exact ih

theorem rawTabs_none_iff (k : KeyType) (ts : List SSTable) :
    rawTabs k ts = none ↔ ∀ t ∈ ts, lookupKV k t.data = none := by
  induction ts with
  | nil => simp [rawTabs]
  | cons t rest ih =>
    simp only [rawTabs]
    cases hl : lookupKV k t.data with
    | some v =>
      simp only
      constructor
      · intro h; cases h
      · intro h
        have := h t (List.mem_cons_self _ _)
        rw [hl] at this
        cases this
    | none =>
      simp only
      rw [ih]
      constructor
      · intro h t' ht'
        rcases List.mem_cons.mp ht' with rfl | ht'
        · exact hl
        · exact h t' ht'
      · intro h t' ht'
        exact h t' (List.mem_cons_of_mem _ ht')

theorem rawTabs_mem (k : KeyType) (ts : List SSTable) (v : ValueType)
    (h : rawTabs k ts = some v) : ∃ t ∈ ts, lookupKV k t.data = some v := by
  induction ts with
  | nil => cases h
  | cons t rest ih =>
    simp only [rawTabs] at h
    cases hl : lookupKV k t.data with
    | some w =>
      rw [hl] at h
      simp only [Option.some.injEq] at h
      exact ⟨t, List.mem_cons_self _ _, by rw [hl, h]⟩
    | none =>
      rw [hl] at h
      obtain ⟨t', ht', hv⟩ := ih h
      exact ⟨t', List.mem_cons_of_mem _ ht', hv⟩

theorem rawTabs_of_unique (k : KeyType) (ts : List SSTable) (t0 : SSTable) (v : ValueType)
    (hmem : t0 ∈ ts) (hval : lookupKV k t0.data = some v)
    (huniq : ∀ t ∈ ts, lookupKV k t.data ≠ none → t = t0) :
    rawTabs k ts = some v := by
  induction ts with
  | nil => simp at hmem
  | cons t rest ih =>
    simp only [rawTabs]
    cases hl : lookupKV k t.data with
    | some w =>
      have ht0 : t = t0 := huniq t (List.mem_cons_self _ _) (by rw [hl]; exact fun h => by cases h)
      subst ht0
      rw [hval] at hl
      simp only [Option.some.injEq] at hl
      rw [hl]
    | none =>
      rcases List.mem_cons.mp hmem with rfl | hmem'
      · rw [hval] at hl
        cases hl
      · exact ih hmem' (fun t' ht' hne => huniq t' (List.mem_cons_of_mem _ ht') hne)

theorem rawTabs_reverse_of_unique (k : KeyType) (ts : List SSTable)
    (huniq : ∀ t1 ∈ ts, ∀ t2 ∈ ts, lookupKV k t1.data ≠ none →
      lookupKV k t2.data ≠ none → t1 = t2) :
    rawTabs k ts.reverse = rawTabs k ts := by
  cases hr : rawTabs k ts with
  | none =>
    rw [rawTabs_none_iff] at hr ⊢
    intro t ht
    exact hr t (List.mem_reverse.mp ht)
  | some v =>
    obtain ⟨t0, ht0, hv⟩ := rawTabs_mem k ts v hr
    apply rawTabs_of_unique k ts.reverse t0 v (List.mem_reverse.mpr ht0) hv
    intro t ht hne
    exact huniq t (List.mem_reverse.mp ht) t0 ht0 hne (by rw [hv]; exact fun h => by cases h)

theorem find_key_char (h : Nat → Nat) (t : SSTable) (k : KeyType)
    (hin : t.min_key ≤ k ∧ k ≤ t.max_key) :
    t.find_key h k = match lookupKV k t.data with
      | some v => if v = TOMBSTONE_VALUE then none else some v
      | none => none := by
  unfold SSTable.find_key
  rw [if_neg (by rw [not_or]; exact ⟨not_lt.mpr hin.1, not_lt.mpr hin.2⟩)]
  cases hl : lookupKV k t.data with
  | some v =>
    have hmem : k ∈ keysOfKV t.data :=
      mem_of_lookupKV_isSome k t.data (by rw [hl]; rfl)
    have hq : bloomQuery h (sstBloom h t) k = true :=
      bloomQuery_of_holds h _ k
        (bloomHolds_of_mem h (bloomNew 512 7) (keysOfKV t.data) k hmem
          (by simp [bloomNew]) (by simp [bloomNew]))
    rw [if_pos hq]
  | none =>
    cases hq : bloomQuery h (sstBloom h t) k with
    | true =>
      rw [if_pos rfl]
    | false =>
      rw [if_neg Bool.false_ne_true]

theorem find_key_none_of_none (h : Nat → Nat) (t : SSTable) (k : KeyType)
    (hl : lookupKV k t.data = none) : t.find_key h k = none := by
  unfold SSTable.find_key
  by_cases hr : k < t.min_key ∨ t.max_key < k
  · rw [if_pos hr]
  · rw [if_neg hr]
    cases hq : bloomQuery h (sstBloom h t) k with
    | true =>
      rw [if_pos rfl, hl]
    | false =>
      rw [if_neg Bool.false_ne_true]

theorem scanMems_raw (k : KeyType) (ms : List (List (KeyType × ValueType))) :
    scanMems ms k = match rawMems k ms with
      | some v => some (if v = TOMBSTONE_VALUE then none else some v)
      | none => none := by
  induction ms with
  | nil => rfl
  | cons m rest ih =>
    simp only [scanMems, rawMems]
    cases lookupKV k m with
    | some v => rfl
    | none => exact ih

theorem scanL0_none (h : Nat → Nat) (ts : List SSTable) (k : KeyType)
    (hr : rawTabs k ts = none) : scanL0 h ts k = none := by
  induction ts with
  | nil => rfl
  | cons t rest ih =>
    rw [rawTabs_none_iff] at hr
    have hrest : rawTabs k rest = none := by
      rw [rawTabs_none_iff]
      exact fun t' ht' => hr t' (List.mem_cons_of_mem _ ht')
    have hl : lookupKV k t.data = none := hr t (List.mem_cons_self _ _)
    simp only [scanL0]
    by_cases hrange : t.min_key ≤ k ∧ k ≤ t.max_key
    · rw [if_pos hrange, find_key_none_of_none h t k hl]
      exact ih hrest
    · rw [if_neg hrange]
      exact ih hrest

theorem scanL0_raw (h : Nat → Nat) (ts : List SSTable) (k : KeyType) (v : ValueType)
    (hb : ∀ t ∈ ts, ∀ p ∈ t.data, t.min_key ≤ p.1 ∧ p.1 ≤ t.max_key)
    (hr : rawTabs k ts = some v) (hv : v ≠ TOMBSTONE_VALUE) : scanL0 h ts k = some v := by
  induction ts with
  | nil => cases hr
  | cons t rest ih =>
    simp only [rawTabs] at hr
    simp only [scanL0]
    cases hl : lookupKV k t.data with
    | some w =>
      rw [hl] at hr
      simp only [Option.some.injEq] at hr
      subst hr
      have hmem : (k, w) ∈ t.data := lookupKV_mem k w t.data hl
      have hrange := hb t (List.mem_cons_self _ _) (k, w) hmem
      rw [if_pos hrange, find_key_char h t k hrange, hl]
      simp only [if_neg hv]
    | none =>
      rw [hl] at hr
      have ihr := ih (fun t' ht' => hb t' (List.mem_cons_of_mem _ ht')) hr
      by_cases hrange : t.min_key ≤ k ∧ k ≤ t.max_key
      · rw [if_pos hrange, find_key_none_of_none h t k hl]
        exact ihr
      · rw [if_neg hrange]
        exact ihr

theorem scanLevel_none (h : Nat → Nat) (ts : List SSTable) (k : KeyType)
    (hr : rawTabs k ts = none) : ∀ b, scanLevel h ts k b = none := by
  induction ts with
  | nil => intro b; rfl
  | cons t rest ih =>
    intro b
    rw [rawTabs_none_iff] at hr
    have hrest : rawTabs k rest = none := by
      rw [rawTabs_none_iff]
      exact fun t' ht' => hr t' (List.mem_cons_of_mem _ ht')
    have hl : lookupKV k t.data = none := hr t (List.mem_cons_self _ _)
    simp only [scanLevel]
    by_cases hrange : t.min_key ≤ k ∧ k ≤ t.max_key
    · rw [if_pos hrange, find_key_none_of_none h t k hl]
      exact ih hrest false
    · rw [if_neg hrange]
      by_cases hfr : k < t.min_key ∧ b = true
      · rw [if_pos hfr]
        exact ih hrest false
      · rw [if_neg hfr]
        by_cases hlt : k < t.min_key
        · rw [if_pos hlt]
        · rw [if_neg hlt]
          exact ih hrest false

theorem scanLevel_raw (h : Nat → Nat) (ts : List SSTable) (k : KeyType) (v : ValueType)
    (hb : ∀ t ∈ ts, ∀ p ∈ t.data, t.min_key ≤ p.1 ∧ p.1 ≤ t.max_key)
    (hs : ts.Pairwise (fun a b => a.min_key ≤ b.min_key))
    (hr : rawTabs k ts = some v) (hv : v ≠ TOMBSTONE_VALUE) :
    ∀ b, scanLevel h ts k b = some v := by
  induction ts with
  | nil => cases hr
  | cons t rest ih =>
    intro b
    simp only [rawTabs] at hr
    simp only [scanLevel]
    cases hl : lookupKV k t.data with
    | some w =>
      rw [hl] at hr
      simp only [Option.some.injEq] at hr
      subst hr
      have hmem : (k, w) ∈ t.data := lookupKV_mem k w t.data hl
      have hrange := hb t (List.mem_cons_self _ _) (k, w) hmem
      rw [if_pos hrange, find_key_char h t k hrange, hl]
      simp only [if_neg hv]
    | none =>
      rw [hl] at hr
      simp only [List.pairwise_cons] at hs
      have ihr := ih (fun t' ht' => hb t' (List.mem_cons_of_mem _ ht')) hs.2 hr false
      by_cases hrange : t.min_key ≤ k ∧ k ≤ t.max_key
      · rw [if_pos hrange, find_key_none_of_none h t k hl]
        exact ihr
      · rw [if_neg hrange]
        obtain ⟨t', ht', hv'⟩ := rawTabs_mem k rest v hr
        have hrange' := hb t' (List.mem_cons_of_mem _ ht') (k, v) (lookupKV_mem k v t'.data hv')
        have hnlt : ¬ k < t.min_key := by
          have h1 : t.min_key ≤ t'.min_key := hs.1 t' ht'
          have h2 : t'.min_key ≤ k := hrange'.1
          exact not_lt.mpr (le_trans h1 h2)
        rw [if_neg (fun hh => hnlt hh.1), if_neg hnlt]
        exact ihr

theorem scanUpper_raw (h : Nat → Nat) (lvls : List (List SSTable)) (k : KeyType)
    (v : ValueType)
    (hb : ∀ l ∈ lvls, ∀ t ∈ l, ∀ p ∈ t.data, t.min_key ≤ p.1 ∧ p.1 ≤ t.max_key)
    (hs : ∀ l ∈ lvls, l.Pairwise (fun a b => a.min_key ≤ b.min_key))
    (hr : rawTabs k lvls.flatten = some v) (hv : v ≠ TOMBSTONE_VALUE) :
    scanUpperLevels h lvls k = some v := by
  induction lvls with
  | nil => cases hr
  | cons l rest ih =>
    simp only [List.flatten_cons] at hr
    rw [rawTabs_append] at hr
    simp only [scanUpperLevels]
    cases hrl : rawTabs k l with
    | some w =>
      rw [hrl] at hr
      simp only [Option.some.injEq] at hr
      subst hr
      rw [scanLevel_raw h l k w (hb l (List.mem_cons_self _ _)) (hs l (List.mem_cons_self _ _))
        hrl hv true]
    | none =>
      rw [hrl] at hr
      rw [scanLevel_none h l k hrl true]
      exact ih (fun l' hl' => hb l' (List.mem_cons_of_mem _ hl'))
        (fun l' hl' => hs l' (List.mem_cons_of_mem _ hl')) hr

theorem lsmGet_of_KState (cfg : LSMConfig) (h : Nat → Nat) (s : LSMState) (k : KeyType)
    (v : ValueType) (hwf : WfL cfg s) (hks : KState k v s) (hv : v ≠ TOMBSTONE_VALUE) :
    lsmGet h s k = some v := by
  unfold lsmGet
  rcases hks with hM | ⟨hMnone, hT⟩
  · rw [scanMems_raw, hM]
    simp only [if_neg hv]
  · rw [scanMems_raw, hMnone]
    simp only
    unfold tabsOf at hT
    rw [rawTabs_append] at hT
    have hbl0 : ∀ t ∈ (s.levels.getD 0 []).reverse, ∀ p ∈ t.data,
        t.min_key ≤ p.1 ∧ p.1 ≤ t.max_key := by
      intro t ht
      rcases Nat.eq_zero_or_pos s.levels.length with hlz | hlp
      · rw [List.getD_eq_default] at ht
        · simp at ht
        · omega
      · have hmem : s.levels.getD 0 [] ∈ s.levels := by
          rw [List.getD_eq_getElem _ _ hlp]
          exact List.getElem_mem _
        exact hwf.bounds _ hmem t (List.mem_reverse.mp ht)
    cases hr0 : rawTabs k (s.levels.getD 0 []).reverse with
    | some w =>
      rw [hr0] at hT
      simp only [Option.some.injEq] at hT
      subst hT
      rw [scanL0_raw h _ k w hbl0 hr0 hv]
    | none =>
      rw [hr0] at hT
      rw [scanL0_none h _ k hr0]
      exact scanUpper_raw h _ k v
        (fun l hl => hwf.bounds l (List.mem_of_mem_drop hl))
        (fun l hl => hwf.upperSorted l hl) hT hv

theorem lookup_foldl_insert_of_not_mem (k : KeyType) (l : List (KeyType × ValueType))
    (hk : k ∉ keysOfKV l) : ∀ m0,
    lookupKV k (l.foldl (fun m kv => mapInsert kv.1 kv.2 m) m0) = lookupKV k m0 := by
  induction l with
  | nil => intro m0; rfl
  | cons p rest ih =>
    intro m0
    have hne : k ≠ p.1 := by
      intro hh
      exact hk (hh ▸ List.mem_map_of_mem Prod.fst (List.mem_cons_self _ _))
    have hkr : k ∉ keysOfKV rest := by
      intro hh
      apply hk
      simp only [keysOfKV, List.map_cons]
      exact List.mem_cons_of_mem _ hh
    simp only [List.foldl_cons]
    rw [ih hkr]
    exact lookupKV_mapInsert_ne p.1 k p.2 m0 (Ne.symm hne)

theorem lookup_foldl_insert (k : KeyType) (l : List (KeyType × ValueType))
    (hnd : (keysOfKV l).Nodup) : ∀ m0,
    lookupKV k (l.foldl (fun m kv => mapInsert kv.1 kv.2 m) m0) =
      match lookupKV k l with
      | some v => some v
      | none => lookupKV k m0 := by
  induction l with
  | nil => intro m0; rfl
  | cons p rest ih =>
    intro m0
    obtain ⟨k0, v0⟩ := p
    simp only [keysOfKV, List.map_cons, List.nodup_cons] at hnd
    simp only [List.foldl_cons, lookupKV]
    by_cases hk : k0 = k
    · subst hk
      rw [if_pos rfl]
      rw [lookup_foldl_insert_of_not_mem k0 rest hnd.1]
      rw [lookupKV_mapInsert_self]
    · rw [if_neg hk]
      rw [ih hnd.2]
      cases lookupKV k rest with
      | some v => rfl
      | none =>
        show lookupKV k (mapInsert k0 v0 m0) = lookupKV k m0
        exact lookupKV_mapInsert_ne k0 k v0 m0 hk

theorem foldl_insert_nodup (l : List (KeyType × ValueType)) :
    ∀ m0, (keysOfKV m0).Nodup →
    (keysOfKV (l.foldl (fun m kv => mapInsert kv.1 kv.2 m) m0)).Nodup := by
  induction l with
  | nil => intro m0 h; exact h
  | cons p rest ih =>
    intro m0 h
    simp only [List.foldl_cons]
    exact ih _ (nodup_keys_mapInsert p.1 p.2 m0 h)

theorem rebuildMap_nodup (m : List (KeyType × ValueType)) :
    (keysOfKV (rebuildMap m)).Nodup :=
  foldl_insert_nodup m [] (by simp [keysOfKV])

theorem rebuildMap_lookup (k : KeyType) (m : List (KeyType × ValueType))
    (hnd : (keysOfKV m).Nodup) : lookupKV k (rebuildMap m) = lookupKV k m := by
  unfold rebuildMap
  rw [lookup_foldl_insert k m hnd []]
  cases lookupKV k m with
  | some v => rfl
  | none => rfl

theorem loadMap_lookup (k : KeyType) (ts : List SSTable)
    (hnd : ∀ t ∈ ts, (keysOfKV t.data).Nodup) : ∀ m0,
    lookupKV k (loadMapFromSstList ts m0) =
      match rawTabs k ts.reverse with
      | some v => some v
      | none => lookupKV k m0 := by
  induction ts with
  | nil => intro m0; rfl
  | cons t rest ih =>
    intro m0
    show lookupKV k (loadMapFromSstList rest
      (t.data.foldl (fun m kv => mapInsert kv.1 kv.2 m) m0)) = _
    rw [ih (fun t' ht' => hnd t' (List.mem_cons_of_mem _ ht')) _]
    rw [show (t :: rest).reverse = rest.reverse ++ [t] from by simp]
    rw [rawTabs_append]
    cases rawTabs k rest.reverse with
    | some v => rfl
    | none =>
      simp only [rawTabs]
      rw [lookup_foldl_insert k t.data (hnd t (List.mem_cons_self _ _)) m0]
      cases lookupKV k t.data with
      | some v => rfl
      | none => rfl

theorem loadMap_nodup (ts : List SSTable) (m0 : List (KeyType × ValueType))
    (h : (keysOfKV m0).Nodup) : (keysOfKV (loadMapFromSstList ts m0)).Nodup := by
  induction ts generalizing m0 with
  | nil => exact h
  | cons t rest ih =>
    exact ih _ (foldl_insert_nodup t.data m0 h)

theorem stripTombstones_nodup (m : List (KeyType × ValueType))
    (h : (keysOfKV m).Nodup) : (keysOfKV (stripTombstones m)).Nodup := by
  unfold stripTombstones keysOfKV
  have hsub : (m.filter (fun kv => ¬ (kv.2 = TOMBSTONE_VALUE))).Sublist m :=
    List.filter_sublist _
  exact (hsub.map Prod.fst).nodup h

theorem stripTombstones_lookup (k : KeyType) (m : List (KeyType × ValueType))
    (hnd : (keysOfKV m).Nodup) :
    lookupKV k (stripTombstones m) =
      match lookupKV k m with
      | some v => if v = TOMBSTONE_VALUE then none else some v
      | none => none := by
  induction m with
  | nil => rfl
  | cons p rest ih =>
    obtain ⟨k0, v0⟩ := p
    simp only [keysOfKV, List.map_cons, List.nodup_cons] at hnd
    simp only [stripTombstones, lookupKV]
    by_cases hk : k0 = k
    · subst hk
      by_cases ht : v0 = TOMBSTONE_VALUE
      · rw [List.filter_cons_of_neg (by simp [ht])]
        have : lookupKV k0 (stripTombstones rest) = none := by
          have hkr : k0 ∉ keysOfKV (stripTombstones rest) := by
            intro hh
            apply hnd.1
            unfold stripTombstones keysOfKV at hh
            obtain ⟨q, hq, rfl⟩ := List.mem_map.mp hh
            exact List.mem_map_of_mem Prod.fst (List.mem_of_mem_filter hq)
          exact lookupKV_eq_none_of_not_mem _ _ hkr
        unfold stripTombstones at this
        rw [this]
        simp [ht]
      · rw [List.filter_cons_of_pos (by simp [ht])]
        simp only [lookupKV, if_pos rfl]
        simp [ht]
    · have ihr := ih hnd.2
      unfold stripTombstones at ihr
      by_cases ht : v0 = TOMBSTONE_VALUE
      · rw [List.filter_cons_of_neg (by simp [ht])]
        rw [ihr]
        simp only [if_neg hk]
      · rw [List.filter_cons_of_pos (by simp [ht])]
        simp only [lookupKV, if_neg hk]
        exact ihr

theorem mapInsert_ne_nil (k : KeyType) (v : ValueType) (m : List (KeyType × ValueType)) :
    mapInsert k v m ≠ [] := by
  cases m with
  | nil => simp [mapInsert]
  | cons p rest =>
    obtain ⟨k', v'⟩ := p
    by_cases h : k' = k
    · subst h
      rw [mapInsert_cons_eq]
      simp
    · rw [mapInsert_cons_ne _ _ _ _ _ h]
      simp

theorem create_id (entries : List (KeyType × ValueType)) (sid : Nat) (t : SSTable)
    (hc : create_from_memtable entries sid = some t) : t.id = sid := by
  match entries, hc with
  | kv0 :: rest, hc =>
    simp only [create_from_memtable, Option.some.injEq] at hc
    rw [← hc]

theorem create_data (entries : List (KeyType × ValueType)) (sid : Nat) (t : SSTable)
    (hc : create_from_memtable entries sid = some t) : t.data = rebuildMap entries := by
  match entries, hc with
  | kv0 :: rest, hc =>
    simp only [create_from_memtable, Option.some.injEq] at hc
    rw [← hc]

theorem create_of_ne_nil (entries : List (KeyType × ValueType)) (sid : Nat)
    (h : entries ≠ []) : ∃ t, create_from_memtable entries sid = some t := by
  cases entries with
  | nil => exact absurd rfl h
  | cons kv0 rest => exact ⟨_, rfl⟩

theorem bsc_acc_sub (target : Nat) : ∀ (entries build : List (KeyType × ValueType))
    (nid : Nat) (acc : List SSTable), ∀ t ∈ acc,
    t ∈ (buildSstChunks target entries build nid acc).1 := by
  intro entries
  induction entries with
  | nil =>
    intro build nid acc t ht
    simp only [buildSstChunks]
    by_cases hb : build.isEmpty
    · rw [if_pos hb]
      exact ht
    · rw [if_neg hb]
      cases create_from_memtable build nid with
      | some t' => exact List.mem_append_left _ ht
      | none => exact ht
  | cons kv rest ih =>
    intro build nid acc t ht
    simp only [buildSstChunks]
    by_cases hfull : target ≤ (mapInsert kv.1 kv.2 build).length
    · rw [if_pos hfull]
      cases create_from_memtable (mapInsert kv.1 kv.2 build) nid with
      | some t' => exact ih _ _ _ t (List.mem_append_left _ ht)
      | none => exact ih _ _ _ t ht
    · rw [if_neg hfull]
      exact ih _ _ _ t ht

theorem bsc_tables (target : Nat) : ∀ (entries build : List (KeyType × ValueType))
    (nid : Nat) (acc : List SSTable), ∀ t ∈ (buildSstChunks target entries build nid acc).1,
    t ∈ acc ∨ ((∀ p ∈ t.data, t.min_key ≤ p.1 ∧ p.1 ≤ t.max_key) ∧
      (keysOfKV t.data).Nodup) := by
  intro entries
  induction entries with
  | nil =>
    intro build nid acc t ht
    simp only [buildSstChunks] at ht
    by_cases hb : build.isEmpty
    · rw [if_pos hb] at ht
      exact Or.inl ht
    · rw [if_neg hb] at ht
      cases hc : create_from_memtable build nid with
      | some t' =>
        rw [hc] at ht
        rcases List.mem_append.mp ht with ht | ht
        · exact Or.inl ht
        · rw [List.mem_singleton] at ht
          subst ht
          refine Or.inr ⟨fun p hp => create_from_memtable_bounds build nid t hc p hp, ?_⟩
          rw [create_data build nid t hc]
          exact rebuildMap_nodup build
      | none =>
        rw [hc] at ht
        exact Or.inl ht
  | cons kv rest ih =>
    intro build nid acc t ht
    simp only [buildSstChunks] at ht
    by_cases hfull : target ≤ (mapInsert kv.1 kv.2 build).length
    · rw [if_pos hfull] at ht
      cases hc : create_from_memtable (mapInsert kv.1 kv.2 build) nid with
      | some t' =>
        rw [hc] at ht
        rcases ih _ _ _ t ht with ht' | hq
        · rcases List.mem_append.mp ht' with ht' | ht'
          · exact Or.inl ht'
          · rw [List.mem_singleton] at ht'
            subst ht'
            refine Or.inr ⟨fun p hp => create_from_memtable_bounds _ nid t hc p hp, ?_⟩
            rw [create_data _ nid t hc]
            exact rebuildMap_nodup _
        · exact Or.inr hq
      | none =>
        rw [hc] at ht
        exact ih _ _ _ t ht
    · rw [if_neg hfull] at ht
      exact ih _ _ _ t ht

theorem bsc_ids (target : Nat) : ∀ (entries build : List (KeyType × ValueType))
    (nid : Nat) (acc : List SSTable),
    (∀ t ∈ acc, t.id < nid) → (acc.map SSTable.id).Nodup →
    nid ≤ (buildSstChunks target entries build nid acc).2 ∧
    (∀ t ∈ (buildSstChunks target entries build nid acc).1,
      t ∈ acc ∨ (nid ≤ t.id ∧ t.id < (buildSstChunks target entries build nid acc).2)) ∧
    (((buildSstChunks target entries build nid acc).1.map SSTable.id).Nodup) ∧
    (∀ t ∈ (buildSstChunks target entries build nid acc).1,
      t.id < (buildSstChunks target entries build nid acc).2) := by
  intro entries
  induction entries with
  | nil =>
    intro build nid acc hlt hnd
    simp only [buildSstChunks]
    by_cases hb : build.isEmpty
    · rw [if_pos hb]
      exact ⟨le_refl _, fun t ht => Or.inl ht, hnd, fun t ht => hlt t ht⟩
    · rw [if_neg hb]
      cases hc : create_from_memtable build nid with
      | some t' =>
        have hid : t'.id = nid := create_id build nid t' hc
        refine ⟨Nat.le_succ _, ?_, ?_, ?_⟩
        · intro t ht
          rcases List.mem_append.mp ht with ht | ht
          · exact Or.inl ht
          · rw [List.mem_singleton] at ht
            subst ht
            exact Or.inr ⟨le_of_eq hid.symm, by rw [hid]; exact Nat.lt_succ_self _⟩
        · rw [List.map_append, List.map_singleton]
          rw [List.nodup_append]
          refine ⟨hnd, List.nodup_singleton _, ?_⟩
          intro x hx hy
          rw [List.mem_singleton] at hy
          obtain ⟨t, ht, rfl⟩ := List.mem_map.mp hx
          rw [hid] at hy
          exact absurd hy (ne_of_lt (hlt t ht))
        · intro t ht
          rcases List.mem_append.mp ht with ht | ht
          · exact lt_trans (hlt t ht) (Nat.lt_succ_self _)
          · rw [List.mem_singleton] at ht
            subst ht
            rw [hid]
            exact Nat.lt_succ_self _
      | none =>
        exact ⟨Nat.le_succ _, fun t ht => Or.inl ht, hnd,
          fun t ht => lt_trans (hlt t ht) (Nat.lt_succ_self _)⟩
  | cons kv rest ih =>
    intro build nid acc hlt hnd
    simp only [buildSstChunks]
    by_cases hfull : target ≤ (mapInsert kv.1 kv.2 build).length
    · rw [if_pos hfull]
      cases hc : create_from_memtable (mapInsert kv.1 kv.2 build) nid with
      | some t' =>
        have hid : t'.id = nid := create_id _ nid t' hc
        have hlt' : ∀ t ∈ acc ++ [t'], t.id < nid + 1 := by
          intro t ht
          rcases List.mem_append.mp ht with ht | ht
          · exact lt_trans (hlt t ht) (Nat.lt_succ_self _)
          · rw [List.mem_singleton] at ht
            subst ht
            rw [hid]
            exact Nat.lt_succ_self _
        have hnd' : ((acc ++ [t']).map SSTable.id).Nodup := by
          rw [List.map_append, List.map_singleton, List.nodup_append]
          refine ⟨hnd, List.nodup_singleton _, ?_⟩
          intro x hx hy
          rw [List.mem_singleton] at hy
          obtain ⟨t, ht, rfl⟩ := List.mem_map.mp hx
          rw [hid] at hy
          exact absurd hy (ne_of_lt (hlt t ht))
        obtain ⟨h1, h2, h3, h4⟩ := ih [] (nid + 1) (acc ++ [t']) hlt' hnd'
        refine ⟨le_trans (Nat.le_succ _) h1, ?_, h3, h4⟩
        intro t ht
        rcases h2 t ht with ht' | ⟨ha, hb2⟩
        · rcases List.mem_append.mp ht' with ht' | ht'
          · exact Or.inl ht'
          · rw [List.mem_singleton] at ht'
            subst ht'
            exact Or.inr ⟨le_of_eq hid.symm, h4 _ ht⟩
        · exact Or.inr ⟨le_trans (Nat.le_succ _) ha, hb2⟩
      | none =>
        have hlt' : ∀ t ∈ acc, t.id < nid + 1 :=
          fun t ht => lt_trans (hlt t ht) (Nat.lt_succ_self _)
        obtain ⟨h1, h2, h3, h4⟩ := ih [] (nid + 1) acc hlt' hnd
        refine ⟨le_trans (Nat.le_succ _) h1, ?_, h3, h4⟩
        intro t ht
        rcases h2 t ht with ht' | ⟨ha, hb2⟩
        · exact Or.inl ht'
        · exact Or.inr ⟨le_trans (Nat.le_succ _) ha, hb2⟩
    · rw [if_neg hfull]
      exact ih _ nid acc hlt hnd

theorem keys_mapInsert_sub (k0 : KeyType) (v0 : ValueType) (m : List (KeyType × ValueType))
    (k : KeyType) (h : k ∈ keysOfKV (mapInsert k0 v0 m)) : k = k0 ∨ k ∈ keysOfKV m := by
  rw [keysOfKV_mapInsert] at h
  by_cases hm : k0 ∈ keysOfKV m
  · rw [if_pos hm] at h
    exact Or.inr h
  · rw [if_neg hm] at h
    rcases List.mem_append.mp h with h | h
    · exact Or.inr h
    · rw [List.mem_singleton] at h
      exact Or.inl h

theorem bsc_kfree (target : Nat) (k : KeyType) : ∀ (entries build : List (KeyType × ValueType))
    (nid : Nat) (acc : List SSTable), k ∉ keysOfKV entries → k ∉ keysOfKV build →
    ∀ t ∈ (buildSstChunks target entries build nid acc).1, k ∈ keysOfKV t.data → t ∈ acc := by
  intro entries
  induction entries with
  | nil =>
    intro build nid acc hE hB t ht hk
    simp only [buildSstChunks] at ht
    by_cases hb : build.isEmpty
    · rw [if_pos hb] at ht
      exact ht
    · rw [if_neg hb] at ht
      cases hc : create_from_memtable build nid with
      | some t' =>
        rw [hc] at ht
        rcases List.mem_append.mp ht with ht | ht
        · exact ht
        · rw [List.mem_singleton] at ht
          subst ht
          exfalso
          apply hB
          rw [create_data build nid t hc] at hk
          obtain ⟨q, hq, rfl⟩ := List.mem_map.mp hk
          exact List.mem_map_of_mem Prod.fst (mem_rebuildMap_elim build q hq)
      | none =>
        rw [hc] at ht
        exact ht
  | cons kv rest ih =>
    intro build nid acc hE hB t ht hk
    have hne : k ≠ kv.1 := by
      intro hh
      exact hE (hh ▸ List.mem_map_of_mem Prod.fst (List.mem_cons_self _ _))
    have hrest : k ∉ keysOfKV rest := by
      intro hh
      exact hE (List.mem_cons_of_mem _ hh)
    have hB' : k ∉ keysOfKV (mapInsert kv.1 kv.2 build) := by
      intro hh
      rcases keys_mapInsert_sub kv.1 kv.2 build k hh with hh | hh
      · exact hne hh
      · exact hB hh
    simp only [buildSstChunks] at ht
    by_cases hfull : target ≤ (mapInsert kv.1 kv.2 build).length
    · rw [if_pos hfull] at ht
      cases hc : create_from_memtable (mapInsert kv.1 kv.2 build) nid with
      | some t' =>
        rw [hc] at ht
        have := ih [] (nid + 1) (acc ++ [t']) hrest (by simp [keysOfKV]) t ht hk
        rcases List.mem_append.mp this with h' | h'
        · exact h'
        · rw [List.mem_singleton] at h'
          subst h'
          exfalso
          apply hB'
          rw [create_data _ nid t hc] at hk
          obtain ⟨q, hq, rfl⟩ := List.mem_map.mp hk
          exact List.mem_map_of_mem Prod.fst (mem_rebuildMap_elim _ q hq)
      | none =>
        rw [hc] at ht
        exact ih [] (nid + 1) acc hrest (by simp [keysOfKV]) t ht hk
    · rw [if_neg hfull] at ht
      exact ih _ nid acc hrest hB' t ht hk

theorem bsc_unique_of_kfree_entries (target : Nat) (k : KeyType) :
    ∀ (entries build : List (KeyType × ValueType)) (nid : Nat) (acc : List SSTable),
    k ∉ keysOfKV entries → (∀ t ∈ acc, k ∉ keysOfKV t.data) →
    ∀ t1 ∈ (buildSstChunks target entries build nid acc).1,
    ∀ t2 ∈ (buildSstChunks target entries build nid acc).1,
    k ∈ keysOfKV t1.data → k ∈ keysOfKV t2.data → t1 = t2 := by
  intro entries
  induction entries with
  | nil =>
    intro build nid acc hE hacc t1 ht1 t2 ht2 hk1 hk2
    simp only [buildSstChunks] at ht1 ht2
    by_cases hb : build.isEmpty
    · rw [if_pos hb] at ht1 ht2
      exact absurd hk1 (hacc t1 ht1)
    · rw [if_neg hb] at ht1 ht2
      cases hc : create_from_memtable build nid with
      | some t' =>
        rw [hc] at ht1 ht2
        rcases List.mem_append.mp ht1 with h1 | h1
        · exact absurd hk1 (hacc t1 h1)
        · rcases List.mem_append.mp ht2 with h2 | h2
          · exact absurd hk2 (hacc t2 h2)
          · rw [List.mem_singleton] at h1 h2
            rw [h1, h2]
      | none =>
        rw [hc] at ht1 ht2
        exact absurd hk1 (hacc t1 ht1)
  | cons kv rest ih =>
    intro build nid acc hE hacc t1 ht1 t2 ht2 hk1 hk2
    have hne : k ≠ kv.1 := by
      intro hh
      exact hE (hh ▸ List.mem_map_of_mem Prod.fst (List.mem_cons_self _ _))
    have hrest : k ∉ keysOfKV rest := by
      intro hh
      exact hE (List.mem_cons_of_mem _ hh)
    simp only [buildSstChunks] at ht1 ht2
    by_cases hfull : target ≤ (mapInsert kv.1 kv.2 build).length
    · rw [if_pos hfull] at ht1 ht2
      cases hc : create_from_memtable (mapInsert kv.1 kv.2 build) nid with
      | some t' =>
        rw [hc] at ht1 ht2
        have h1 := bsc_kfree target k rest [] (nid + 1) (acc ++ [t'])
          hrest (by simp [keysOfKV]) t1 ht1 hk1
        have h2 := bsc_kfree target k rest [] (nid + 1) (acc ++ [t'])
          hrest (by simp [keysOfKV]) t2 ht2 hk2
        rcases List.mem_append.mp h1 with h1' | h1'
        · exact absurd hk1 (hacc t1 h1')
        · rcases List.mem_append.mp h2 with h2' | h2'
          · exact absurd hk2 (hacc t2 h2')
          · rw [List.mem_singleton] at h1' h2'
            rw [h1', h2']
      | none =>
        rw [hc] at ht1 ht2
        exact ih [] (nid + 1) acc hrest hacc t1 ht1 t2 ht2 hk1 hk2
    · rw [if_neg hfull] at ht1 ht2
      exact ih _ nid acc hrest hacc t1 ht1 t2 ht2 hk1 hk2

theorem bsc_unique (target : Nat) (k : KeyType) :
    ∀ (entries build : List (KeyType × ValueType)) (nid : Nat) (acc : List SSTable),
    (keysOfKV entries).Nodup → k ∉ keysOfKV build → (∀ t ∈ acc, k ∉ keysOfKV t.data) →
    ∀ t1 ∈ (buildSstChunks target entries build nid acc).1,
    ∀ t2 ∈ (buildSstChunks target entries build nid acc).1,
    k ∈ keysOfKV t1.data → k ∈ keysOfKV t2.data → t1 = t2 := by
  intro entries
  induction entries with
  | nil =>
    intro build nid acc hnd hB hacc t1 ht1 t2 ht2 hk1 hk2
    have h1 := bsc_kfree target k [] build nid acc (by simp [keysOfKV]) hB t1 ht1 hk1
    exact absurd hk1 (hacc t1 h1)
  | cons kv rest ih =>
    intro build nid acc hnd hB hacc t1 ht1 t2 ht2 hk1 hk2
    simp only [keysOfKV, List.map_cons, List.nodup_cons] at hnd
    simp only [buildSstChunks] at ht1 ht2
    by_cases hkv : kv.1 = k
    · have hrest : k ∉ keysOfKV rest := by
        rw [← hkv]
        exact hnd.1
      by_cases hfull : target ≤ (mapInsert kv.1 kv.2 build).length
      · rw [if_pos hfull] at ht1 ht2
        cases hc : create_from_memtable (mapInsert kv.1 kv.2 build) nid with
        | some t' =>
          rw [hc] at ht1 ht2
          have h1 := bsc_kfree target k rest [] (nid + 1) (acc ++ [t'])
            hrest (by simp [keysOfKV]) t1 ht1 hk1
          have h2 := bsc_kfree target k rest [] (nid + 1) (acc ++ [t'])
            hrest (by simp [keysOfKV]) t2 ht2 hk2
          rcases List.mem_append.mp h1 with h1' | h1'
          · exact absurd hk1 (hacc t1 h1')
          · rcases List.mem_append.mp h2 with h2' | h2'
            · exact absurd hk2 (hacc t2 h2')
            · rw [List.mem_singleton] at h1' h2'
              rw [h1', h2']
        | none =>
          rw [hc] at ht1 ht2
          exact bsc_unique_of_kfree_entries target k rest [] (nid + 1) acc
            hrest hacc t1 ht1 t2 ht2 hk1 hk2
      · rw [if_neg hfull] at ht1 ht2
        exact bsc_unique_of_kfree_entries target k rest _ nid acc
          hrest hacc t1 ht1 t2 ht2 hk1 hk2
    · have hB' : k ∉ keysOfKV (mapInsert kv.1 kv.2 build) := by
        intro hh
        rcases keys_mapInsert_sub kv.1 kv.2 build k hh with hh | hh
        · exact hkv hh.symm
        · exact hB hh
      by_cases hfull : target ≤ (mapInsert kv.1 kv.2 build).length
      · rw [if_pos hfull] at ht1 ht2
        cases hc : create_from_memtable (mapInsert kv.1 kv.2 build) nid with
        | some t' =>
          rw [hc] at ht1 ht2
          have hacc' : ∀ t ∈ acc ++ [t'], k ∉ keysOfKV t.data := by
            intro t ht
            rcases List.mem_append.mp ht with ht | ht
            · exact hacc t ht
            · rw [List.mem_singleton] at ht
              subst ht
              intro hk
              apply hB'
              rw [create_data _ nid t hc] at hk
              obtain ⟨q, hq, rfl⟩ := List.mem_map.mp hk
              exact List.mem_map_of_mem Prod.fst (mem_rebuildMap_elim _ q hq)
          exact ih [] (nid + 1) (acc ++ [t']) hnd.2 (by simp [keysOfKV]) hacc'
            t1 ht1 t2 ht2 hk1 hk2
        | none =>
          rw [hc] at ht1 ht2
          exact ih [] (nid + 1) acc hnd.2 (by simp [keysOfKV]) hacc t1 ht1 t2 ht2 hk1 hk2
      · rw [if_neg hfull] at ht1 ht2
        exact ih _ nid acc hnd.2 hB' hacc t1 ht1 t2 ht2 hk1 hk2

theorem bsc_find_of_build (target : Nat) (k : KeyType) (v : ValueType) :
    ∀ (entries build : List (KeyType × ValueType)) (nid : Nat) (acc : List SSTable),
    lookupKV k build = some v → (keysOfKV build).Nodup → k ∉ keysOfKV entries →
    ∃ t ∈ (buildSstChunks target entries build nid acc).1, lookupKV k t.data = some v := by
  intro entries
  induction entries with
  | nil =>
    intro build nid acc hlk hnd hE
    have hne : build ≠ [] := by
      intro hh
      rw [hh] at hlk
      cases hlk
    obtain ⟨t', hc⟩ := create_of_ne_nil build nid hne
    have hbe : build.isEmpty = false := by
      cases build with
      | nil => exact absurd rfl hne
      | cons a l => rfl
    simp only [buildSstChunks, hbe, Bool.false_eq_true, if_false, hc]
    refine ⟨t', List.mem_append_right _ (List.mem_singleton_self _), ?_⟩
    rw [create_data build nid t' hc, rebuildMap_lookup k build hnd]
    exact hlk
  | cons kv rest ih =>
    intro build nid acc hlk hnd hE
    have hne : k ≠ kv.1 := by
      intro hh
      exact hE (hh ▸ List.mem_map_of_mem Prod.fst (List.mem_cons_self _ _))
    have hrest : k ∉ keysOfKV rest := by
      intro hh
      exact hE (List.mem_cons_of_mem _ hh)
    have hlk' : lookupKV k (mapInsert kv.1 kv.2 build) = some v := by
      rw [lookupKV_mapInsert_ne kv.1 k kv.2 build (Ne.symm hne)]
      exact hlk
    have hnd' : (keysOfKV (mapInsert kv.1 kv.2 build)).Nodup :=
      nodup_keys_mapInsert kv.1 kv.2 build hnd
    simp only [buildSstChunks]
    by_cases hfull : target ≤ (mapInsert kv.1 kv.2 build).length
    · rw [if_pos hfull]
      cases hc : create_from_memtable (mapInsert kv.1 kv.2 build) nid with
      | some t' =>
        refine ⟨t', bsc_acc_sub target rest [] (nid + 1) (acc ++ [t']) t'
          (List.mem_append_right _ (List.mem_singleton_self _)), ?_⟩
        rw [create_data _ nid t' hc, rebuildMap_lookup k _ hnd']
        exact hlk'
      | none =>
        exfalso
        obtain ⟨t', hc'⟩ := create_of_ne_nil (mapInsert kv.1 kv.2 build) nid
          (mapInsert_ne_nil _ _ _)
        rw [hc] at hc'
        cases hc'
    · rw [if_neg hfull]
      exact ih _ nid acc hlk' hnd' hrest

theorem bsc_find (target : Nat) (k : KeyType) (v : ValueType) :
    ∀ (entries build : List (KeyType × ValueType)) (nid : Nat) (acc : List SSTable),
    (keysOfKV entries).Nodup → lookupKV k entries = some v →
    k ∉ keysOfKV build → (keysOfKV build).Nodup →
    ∃ t ∈ (buildSstChunks target entries build nid acc).1, lookupKV k t.data = some v := by
  intro entries
  induction entries with
  | nil =>
    intro build nid acc hnd hlk hB hndB
    cases hlk
  | cons kv rest ih =>
    intro build nid acc hnd hlk hB hndB
    obtain ⟨k0, v0⟩ := kv
    simp only [keysOfKV, List.map_cons, List.nodup_cons] at hnd
    simp only [lookupKV] at hlk
    by_cases hk : k0 = k
    · subst hk
      rw [if_pos rfl] at hlk
      simp only [Option.some.injEq] at hlk
      subst hlk
      have hnd' : (keysOfKV (mapInsert k0 v0 build)).Nodup :=
        nodup_keys_mapInsert k0 v0 build hndB
      simp only [buildSstChunks]
      by_cases hfull : target ≤ (mapInsert (k0, v0).1 (k0, v0).2 build).length
      · rw [if_pos hfull]
        cases hc : create_from_memtable (mapInsert (k0, v0).1 (k0, v0).2 build) nid with
        | some t' =>
          refine ⟨t', bsc_acc_sub target rest [] (nid + 1) (acc ++ [t']) t'
            (List.mem_append_right _ (List.mem_singleton_self _)), ?_⟩
          rw [create_data _ nid t' hc, rebuildMap_lookup k0 _ hnd']
          exact lookupKV_mapInsert_self k0 v0 build
        | none =>
          exfalso
          obtain ⟨t', hc'⟩ := create_of_ne_nil (mapInsert (k0, v0).1 (k0, v0).2 build) nid
            (mapInsert_ne_nil _ _ _)
          rw [hc] at hc'
          cases hc'
      · rw [if_neg hfull]
        exact bsc_find_of_build target k0 v0 rest _ nid acc
          (lookupKV_mapInsert_self k0 v0 build) hnd' hnd.1
    · rw [if_neg hk] at hlk
      have hB' : k ∉ keysOfKV (mapInsert (k0, v0).1 (k0, v0).2 build) := by
        intro hh
        rcases keys_mapInsert_sub (k0, v0).1 (k0, v0).2 build k hh with hh | hh
        · exact hk hh.symm
        · exact hB hh
      have hnd' : (keysOfKV (mapInsert (k0, v0).1 (k0, v0).2 build)).Nodup :=
        nodup_keys_mapInsert _ _ build hndB
      simp only [buildSstChunks]
      by_cases hfull : target ≤ (mapInsert (k0, v0).1 (k0, v0).2 build).length
      · rw [if_pos hfull]
        cases hc : create_from_memtable (mapInsert (k0, v0).1 (k0, v0).2 build) nid with
        | some t' =>
          exact ih [] (nid + 1) (acc ++ [t']) hnd.2 hlk (by simp [keysOfKV])
            (by simp [keysOfKV])
        | none =>
          exact ih [] (nid + 1) acc hnd.2 hlk (by simp [keysOfKV]) (by simp [keysOfKV])
      · rw [if_neg hfull]
        exact ih _ nid acc hnd.2 hlk hB' hnd'

theorem sortedInsertBy_perm {α : Type} (le : α → α → Bool) (x : α) (l : List α) :
    (sortedInsertBy le x l).Perm (x :: l) := by
  induction l with
  | nil => exact List.Perm.refl _
  | cons b t ih =>
    simp only [sortedInsertBy]
    by_cases h : le x b
    · rw [if_pos h]
    · rw [if_neg h]
      have h1 : (b :: sortedInsertBy le x t).Perm (b :: x :: t) := List.Perm.cons b ih
      have h2 : (b :: x :: t).Perm (x :: b :: t) := List.Perm.swap x b t
      exact h1.trans h2

theorem sortListBy_perm {α : Type} (le : α → α → Bool) (l : List α) :
    (sortListBy le l).Perm l := by
  induction l with
  | nil => exact List.Perm.refl _
  | cons a t ih =>
    simp only [sortListBy]
    exact (sortedInsertBy_perm le a (sortListBy le t)).trans (List.Perm.cons a ih)

theorem sortedInsertBy_sorted {α : Type} (le : α → α → Bool)
    (htot : ∀ a b, le a b = true ∨ le b a = true)
    (htrans : ∀ a b c, le a b = true → le b c = true → le a c = true)
    (x : α) (l : List α) (hl : l.Pairwise (fun a b => le a b = true)) :
    (sortedInsertBy le x l).Pairwise (fun a b => le a b = true) := by
  induction l with
  | nil => simp [sortedInsertBy]
  | cons b t ih =>
    simp only [List.pairwise_cons] at hl
    simp only [sortedInsertBy]
    by_cases h : le x b
    · rw [if_pos h]
      rw [List.pairwise_cons]
      refine ⟨?_, List.pairwise_cons.mpr hl⟩
      intro c hc
      rcases List.mem_cons.mp hc with rfl | hc
      · exact h
      · exact htrans x b c h (hl.1 c hc)
    · rw [if_neg h]
      rw [List.pairwise_cons]
      refine ⟨?_, ih hl.2⟩
      intro c hc
      rcases (mem_sortedInsertBy le x c t).mp hc with rfl | hc
      · rcases htot c b with hh | hh
        · exact absurd hh h
        · exact hh
      · exact hl.1 c hc

theorem sortListBy_sorted {α : Type} (le : α → α → Bool)
    (htot : ∀ a b, le a b = true ∨ le b a = true)
    (htrans : ∀ a b c, le a b = true → le b c = true → le a c = true)
    (l : List α) : (sortListBy le l).Pairwise (fun a b => le a b = true) := by
  induction l with
  | nil => simp [sortListBy]
  | cons a t ih =>
    simp only [sortListBy]
    exact sortedInsertBy_sorted le htot htrans a (sortListBy le t) ih

theorem sortListBy_of_sorted {α : Type} (le : α → α → Bool) (l : List α)
    (hl : l.Pairwise (fun a b => le a b = true)) : sortListBy le l = l := by
  induction l with
  | nil => rfl
  | cons a t ih =>
    simp only [List.pairwise_cons] at hl
    simp only [sortListBy]
    rw [ih hl.2]
    cases t with
    | nil => rfl
    | cons b t' =>
      simp only [sortedInsertBy]
      rw [if_pos (hl.1 b (List.mem_cons_self _ _))]

theorem leById_total (a b : SSTable) : leById a b = true ∨ leById b a = true := by
  unfold leById
  rcases le_total a.id b.id with h | h
  · exact Or.inl (by simpa using h)
  · exact Or.inr (by simpa using h)

theorem leByMinKeyId_total (a b : SSTable) :
    leByMinKeyId a b = true ∨ leByMinKeyId b a = true := by
  unfold leByMinKeyId
  by_cases hmn : a.min_key = b.min_key
  · rw [if_neg (by simp [hmn]), if_neg (by simp [hmn])]
    rcases le_total a.id b.id with h | h
    · exact Or.inl (by simpa using h)
    · exact Or.inr (by simpa using h)
  · rw [if_pos (by simpa using hmn), if_pos (by simpa using Ne.symm hmn)]
    rcases le_total a.min_key b.min_key with h | h
    · exact Or.inl (by simpa using h)
    · exact Or.inr (by simpa using h)

theorem leByMinKeyId_trans (a b c : SSTable) (hab : leByMinKeyId a b = true)
    (hbc : leByMinKeyId b c = true) : leByMinKeyId a c = true := by
  unfold leByMinKeyId at hab hbc ⊢
  by_cases h1 : a.min_key = b.min_key
  · rw [if_neg (by simp [h1])] at hab
    by_cases h2 : b.min_key = c.min_key
    · rw [if_neg (by simp [h2])] at hbc
      have h3 : a.min_key = c.min_key := h1.trans h2
      rw [if_neg (by simp [h3])]
      simp only [decide_eq_true_eq] at hab hbc ⊢
      exact le_trans hab hbc
    · rw [if_pos (by simpa using h2)] at hbc
      simp only [decide_eq_true_eq] at hbc
      have h3 : a.min_key ≠ c.min_key := by
        rw [h1]
        exact h2
      rw [if_pos (by simpa using h3)]
      simp only [decide_eq_true_eq]
      rw [h1]
      exact hbc
  · rw [if_pos (by simpa using h1)] at hab
    simp only [decide_eq_true_eq] at hab
    by_cases h2 : b.min_key = c.min_key
    · rw [if_neg (by simp [h2])] at hbc
      have h3 : a.min_key ≠ c.min_key := by
        rw [← h2]
        exact h1
      rw [if_pos (by simpa using h3)]
      simp only [decide_eq_true_eq]
      rw [← h2]
      exact hab
    · rw [if_pos (by simpa using h2)] at hbc
      simp only [decide_eq_true_eq] at hbc
      have hlt : a.min_key < b.min_key := lt_of_le_of_ne hab h1
      have hlt2 : b.min_key < c.min_key := lt_of_le_of_ne hbc h2
      have h3 : a.min_key ≠ c.min_key := ne_of_lt (lt_trans hlt hlt2)
      rw [if_pos (by simpa using h3)]
      simp only [decide_eq_true_eq]
      exact le_of_lt (lt_trans hlt hlt2)

theorem leByMinKeyId_min_le (a b : SSTable) (h : leByMinKeyId a b = true) :
    a.min_key ≤ b.min_key := by
  unfold leByMinKeyId at h
  by_cases h1 : a.min_key = b.min_key
  · exact le_of_eq h1
  · rw [if_pos (by simpa using h1)] at h
    simpa using h

theorem removeCompacted_self (l : List SSTable) : removeCompacted l l = [] := by
  apply filter_nil_of_false
  intro t ht
  simp only [decide_eq_false_iff_not, Decidable.not_not]
  simp only [List.any_eq_true]
  exact ⟨t, ht, by simp⟩

theorem mem_removeCompacted_of_ne (l compacted : List SSTable) (t : SSTable)
    (ht : t ∈ l) (hid : ∀ c ∈ compacted, c.id ≠ t.id) :
    t ∈ removeCompacted l compacted := by
  rw [removeCompacted, List.mem_filter]
  refine ⟨ht, ?_⟩
  simp only [decide_eq_true_eq]
  intro hh
  simp only [List.any_eq_true, decide_eq_true_eq] at hh
  obtain ⟨c, hc, hcc⟩ := hh
  exact hid c hc hcc

theorem not_mem_removeCompacted (l compacted : List SSTable) (t : SSTable)
    (hc : t ∈ compacted) : t ∉ removeCompacted l compacted := by
  intro hmem
  rw [removeCompacted, List.mem_filter] at hmem
  have := hmem.2
  simp only [decide_eq_true_eq] at this
  apply this
  simp only [List.any_eq_true, decide_eq_true_eq]
  exact ⟨t, hc, rfl⟩

theorem getD_mem {α : Type} (l : List α) (i : Nat) (d : α) (h : i < l.length) :
    l.getD i d ∈ l := by
  rw [List.getD_eq_getElem _ _ h]
  exact List.getElem_mem _

theorem drop_one_set {α : Type} (l : List α) (j : Nat) (x : α) :
    (l.set (j + 1) x).drop 1 = (l.drop 1).set j x := by
  cases l with
  | nil => rfl
  | cons a t => rfl

theorem set_zero_decomp {α : Type} (l : List α) (d x : α) (h : 0 < l.length) :
    ∃ C, l = l.getD 0 d :: C ∧ l.set 0 x = x :: C := by
  cases l with
  | nil => simp at h
  | cons a t => exact ⟨t, rfl, rfl⟩

theorem set_set_decomp {α : Type} (d p q : α) : ∀ (j : Nat) (l : List α), j + 1 < l.length →
    ∃ A C, l = A ++ l.getD j d :: l.getD (j + 1) d :: C ∧ A.length = j ∧
      (l.set j p).set (j + 1) q = A ++ p :: q :: C := by
  intro j
  induction j with
  | zero =>
    intro l h
    cases l with
    | nil => simp at h
    | cons a t =>
      cases t with
      | nil => simp at h
      | cons b t' => exact ⟨[], t', rfl, rfl, rfl⟩
  | succ j ih =>
    intro l h
    cases l with
    | nil => simp at h
    | cons a t =>
      simp only [List.length_cons] at h
      obtain ⟨A, C, hdec, hlen, hset⟩ := ih t (by omega)
      refine ⟨a :: A, C, ?_, ?_, ?_⟩
      · show a :: t = a :: A ++ (t.getD j d :: t.getD (j + 1) d :: C)
        rw [List.cons_append]
        exact congrArg (fun l => a :: l) hdec
      · simp [hlen]
      · show a :: (t.set j p).set (j + 1) q = a :: A ++ (p :: q :: C)
        rw [List.cons_append]
        exact congrArg (fun l => a :: l) hset

theorem foldMinTab_le_init (ts : List SSTable) (init : Nat) :
    ts.foldl (fun a t => min a t.min_key) init ≤ init := by
  induction ts generalizing init with
  | nil => exact le_refl _
  | cons t rest ih => exact le_trans (ih _) (min_le_left _ _)

theorem foldMinTab_le_mem (ts : List SSTable) (init : Nat) (t : SSTable) (h : t ∈ ts) :
    ts.foldl (fun a t => min a t.min_key) init ≤ t.min_key := by
  induction ts generalizing init with
  | nil => simp at h
  | cons t0 rest ih =>
    rcases List.mem_cons.mp h with rfl | hmem
    · exact le_trans (foldMinTab_le_init rest _) (min_le_right _ _)
    · exact ih _ hmem

theorem foldMaxTab_ge_init (ts : List SSTable) (init : Nat) :
    init ≤ ts.foldl (fun a t => max a t.max_key) init := by
  induction ts generalizing init with
  | nil => exact le_refl _
  | cons t rest ih => exact le_trans (le_max_left _ _) (ih _)

theorem foldMaxTab_ge_mem (ts : List SSTable) (init : Nat) (t : SSTable) (h : t ∈ ts) :
    t.max_key ≤ ts.foldl (fun a t => max a t.max_key) init := by
  induction ts generalizing init with
  | nil => simp at h
  | cons t0 rest ih =>
    rcases List.mem_cons.mp h with rfl | hmem
    · exact le_trans (le_max_right _ _) (foldMaxTab_ge_init rest _)
    · exact ih _ hmem

theorem mem_findOverlapping (sources target_level : List SSTable) (t : SSTable)
    (ht : t ∈ target_level) (k : KeyType)
    (hsrc : ∃ s0 ∈ sources, s0.min_key ≤ k ∧ k ≤ s0.max_key)
    (htk : t.min_key ≤ k ∧ k ≤ t.max_key) :
    t ∈ findOverlapping sources target_level := by
  obtain ⟨s0, hs0, hs0k⟩ := hsrc
  cases hsc : sources with
  | nil =>
    subst hsc
    simp at hs0
  | cons sh stl =>
    subst hsc
    unfold findOverlapping
    rw [List.mem_filter]
    refine ⟨ht, ?_⟩
    have hmn : (sh :: stl).foldl (fun a t => min a t.min_key) sh.min_key ≤ k :=
      le_trans (foldMinTab_le_mem _ _ s0 hs0) hs0k.1
    have hmx : k ≤ (sh :: stl).foldl (fun a t => max a t.max_key) sh.max_key :=
      le_trans hs0k.2 (foldMaxTab_ge_mem _ _ s0 hs0)
    simp only [decide_eq_true_eq]
    exact ⟨le_trans htk.1 hmx, le_trans hmn htk.2⟩

theorem lsmPut_eq (cfg : LSMConfig) (s : LSMState) (k : KeyType) (v : ValueType) :
    lsmPut cfg s k v =
      if cfg.memtable_max_size_entries ≤ (mapInsert k v s.active).length
      then { s with active := [], imms := s.imms ++ [mapInsert k v s.active] }
      else { s with active := mapInsert k v s.active } := rfl

theorem csd_some (ml target si : Nat) (src tg : List SSTable) (nid0 : Nat)
    (p : List SSTable × Nat)
    (hc : compact_sstables_data ml target si src tg nid0 = some p) :
    src.isEmpty = false ∧ si + 1 < ml ∧
    p = buildSstChunks target (stripTombstones (loadMapFromSstList src
      (loadMapFromSstList tg []))) [] nid0 [] := by
  unfold compact_sstables_data at hc
  by_cases h1 : src.isEmpty
  · rw [if_pos h1] at hc
    cases hc
  · rw [if_neg h1] at hc
    by_cases h2 : ml ≤ si + 1
    · rw [if_pos h2] at hc
      cases hc
    · rw [if_neg h2] at hc
      simp only [Option.some.injEq] at hc
      refine ⟨by simpa using h1, by omega, hc.symm⟩

theorem lsmCompact_none_eq (cfg : LSMConfig) (s : LSMState) (i : Nat)
    (hc : compact_sstables_data cfg.max_levels cfg.sstable_target_entry_count i
      (s.levels.getD i [])
      (if i + 1 < cfg.max_levels
       then findOverlapping (s.levels.getD i []) (s.levels.getD (i + 1) []) else [])
      s.nextId = none) :
    lsmCompact cfg s i = s := by
  simp only [lsmCompact]
  rw [hc]

theorem lsmCompact_some_eq (cfg : LSMConfig) (s : LSMState) (i : Nat)
    (newTables : List SSTable) (nid : Nat)
    (hc : compact_sstables_data cfg.max_levels cfg.sstable_target_entry_count i
      (s.levels.getD i [])
      (if i + 1 < cfg.max_levels
       then findOverlapping (s.levels.getD i []) (s.levels.getD (i + 1) []) else [])
      s.nextId = some (newTables, nid)) :
    lsmCompact cfg s i =
      { s with
        levels := (s.levels.set i []).set (i + 1)
          (sortListBy leByMinKeyId
            (removeCompacted (s.levels.getD (i + 1) [])
              (if i + 1 < cfg.max_levels
               then findOverlapping (s.levels.getD i []) (s.levels.getD (i + 1) []) else [])
             ++ newTables)),
        nextId := nid } := by
  simp only [lsmCompact]
  rw [hc, removeCompacted_self, getD_set_ne_gen s.levels i (i + 1) [] [] (by omega)]

theorem wfl_init (cfg : LSMConfig) : WfL cfg (lsmInit cfg) := by
  refine ⟨?_, ?_, ?_, ?_, ?_, ?_, ?_, ?_, ?_⟩
  · simp [lsmInit]
  · show (List.getD (List.replicate cfg.max_levels []) 0 []).Pairwise _
    cases cfg.max_levels with
    | zero => simp
    | succ n => simp
  · intro l hl t ht
    rw [List.eq_of_mem_replicate hl] at ht
    simp at ht
  · intro l hl
    rw [List.eq_of_mem_replicate hl]
    simp
  · intro l hl t ht
    rw [List.eq_of_mem_replicate hl] at ht
    simp at ht
  · intro l hl t ht
    rw [List.eq_of_mem_replicate hl] at ht
    simp at ht
  · intro l hl
    rw [List.eq_of_mem_replicate (List.mem_of_mem_drop hl)]
    simp
  · simp [lsmInit, keysOfKV]
  · intro m hm
    simp [lsmInit] at hm

theorem wfl_put (cfg : LSMConfig) (s : LSMState) (k : KeyType) (v : ValueType)
    (hwf : WfL cfg s) : WfL cfg (lsmPut cfg s k v) := by
  rw [lsmPut_eq]
  by_cases hsz : cfg.memtable_max_size_entries ≤ (mapInsert k v s.active).length
  · rw [if_pos hsz]
    refine ⟨hwf.len, hwf.l0sorted, hwf.idsLt, hwf.idsNodup, hwf.bounds, hwf.dataNodup,
      hwf.upperSorted, by simp [keysOfKV], ?_⟩
    intro m hm
    rcases List.mem_append.mp hm with hm | hm
    · exact hwf.immsNodup m hm
    · rw [List.mem_singleton] at hm
      subst hm
      exact nodup_keys_mapInsert k v s.active hwf.activeNodup
  · rw [if_neg hsz]
    exact ⟨hwf.len, hwf.l0sorted, hwf.idsLt, hwf.idsNodup, hwf.bounds, hwf.dataNodup,
      hwf.upperSorted, nodup_keys_mapInsert k v s.active hwf.activeNodup, hwf.immsNodup⟩

theorem wfl_del (cfg : LSMConfig) (s : LSMState) (k : KeyType)
    (hwf : WfL cfg s) : WfL cfg (lsmDel cfg s k) :=
  wfl_put cfg s k TOMBSTONE_VALUE hwf

theorem wfl_flush (cfg : LSMConfig) (s : LSMState) (hwf : WfL cfg s) :
    WfL cfg (lsmFlushOne s) := by
  cases himm : s.imms with
  | nil =>
    have : lsmFlushOne s = s := by
      unfold lsmFlushOne
      rw [himm]
    rw [this]
    exact hwf
  | cons m rest =>
    cases hcr : create_from_memtable m s.nextId with
    | none =>
      have heq : lsmFlushOne s = { s with imms := rest } := by
        simp only [lsmFlushOne]
        rw [himm]
        show (match create_from_memtable m s.nextId with
          | none => { s with imms := rest }
          | some t => ⟨s.active, rest,
              s.levels.set 0 (sortListBy leById (s.levels.getD 0 [] ++ [t])),
              s.nextId + 1⟩) = ({ s with imms := rest } : LSMState)
        rw [hcr]
      rw [heq]
      refine ⟨hwf.len, hwf.l0sorted, hwf.idsLt, hwf.idsNodup, hwf.bounds, hwf.dataNodup,
        hwf.upperSorted, hwf.activeNodup, ?_⟩
      intro m' hm'
      exact hwf.immsNodup m' (himm ▸ List.mem_cons_of_mem _ hm')
    | some t =>
      have heq : lsmFlushOne s = ⟨s.active, rest,
          s.levels.set 0 (sortListBy leById (s.levels.getD 0 [] ++ [t])),
          s.nextId + 1⟩ := by
        simp only [lsmFlushOne]
        rw [himm]
        show (match create_from_memtable m s.nextId with
          | none => { s with imms := rest }
          | some t => ⟨s.active, rest,
              s.levels.set 0 (sortListBy leById (s.levels.getD 0 [] ++ [t])),
              s.nextId + 1⟩) = (⟨s.active, rest,
              s.levels.set 0 (sortListBy leById (s.levels.getD 0 [] ++ [t])),
              s.nextId + 1⟩ : LSMState)
        rw [hcr]
      rw [heq]
      have htid : t.id = s.nextId := create_id m s.nextId t hcr
      have htb : ∀ p ∈ t.data, t.min_key ≤ p.1 ∧ p.1 ≤ t.max_key :=
        fun p hp => create_from_memtable_bounds m s.nextId t hcr p hp
      have htnd : (keysOfKV t.data).Nodup := by
        rw [create_data m s.nextId t hcr]
        exact rebuildMap_nodup m
      have hl0cross : (s.levels.getD 0 [] ++ [t]).Pairwise (fun a b => a.id < b.id) := by
        rw [List.pairwise_append]
        refine ⟨hwf.l0sorted, List.pairwise_singleton _ _, ?_⟩
        intro a ha b hb
        rw [List.mem_singleton] at hb
        subst hb
        rw [htid]
        rcases Nat.eq_zero_or_pos s.levels.length with hlz | hlp
        · rw [List.getD_eq_default] at ha
          · simp at ha
          · omega
        · exact hwf.idsLt _ (getD_mem s.levels 0 [] hlp) a ha
      have hsortid : sortListBy leById (s.levels.getD 0 [] ++ [t]) =
          s.levels.getD 0 [] ++ [t] := by
        apply sortListBy_of_sorted
        apply hl0cross.imp
        intro a b hab
        unfold leById
        simpa using le_of_lt hab
      rw [hsortid]
      rcases Nat.eq_zero_or_pos s.levels.length with hlz | hlp
      · have hsetnil : s.levels.set 0 (s.levels.getD 0 [] ++ [t]) = s.levels := by
          have : s.levels = [] := List.length_eq_zero.mp (by omega)
          rw [this]
          rfl
        rw [hsetnil]
        refine ⟨hwf.len, hwf.l0sorted, ?_, hwf.idsNodup, hwf.bounds, hwf.dataNodup,
          hwf.upperSorted, hwf.activeNodup, ?_⟩
        · intro l hl t' ht'
          exact lt_trans (hwf.idsLt l hl t' ht') (Nat.lt_succ_self _)
        · intro m' hm'
          exact hwf.immsNodup m' (himm ▸ List.mem_cons_of_mem _ hm')
      · obtain ⟨C, hdec, hset⟩ := set_zero_decomp s.levels []
          (s.levels.getD 0 [] ++ [t]) hlp
        rw [hset]
        have hmemlvl : ∀ l, l ∈ (s.levels.getD 0 [] ++ [t]) :: C → l = s.levels.getD 0 [] ++ [t] ∨ l ∈ s.levels := by
          intro l hl
          rcases List.mem_cons.mp hl with rfl | hl
          · exact Or.inl rfl
          · right
            rw [hdec]
            exact List.mem_cons_of_mem _ hl
        refine ⟨?_, ?_, ?_, ?_, ?_, ?_, ?_, hwf.activeNodup, ?_⟩
        · have h1 : ((s.levels.getD 0 [] ++ [t]) :: C).length = s.levels.length := by
            rw [hdec]
            rfl
          rw [h1]
          exact hwf.len
        · show (((s.levels.getD 0 [] ++ [t]) :: C).getD 0 []).Pairwise _
          exact hl0cross
        · intro l hl t' ht'
          rcases hmemlvl l hl with rfl | hl'
          · rcases List.mem_append.mp ht' with ht' | ht'
            · exact lt_trans (hwf.idsLt _ (getD_mem s.levels 0 [] hlp) t' ht')
                (Nat.lt_succ_self _)
            · rw [List.mem_singleton] at ht'
              subst ht'
              rw [htid]
              exact Nat.lt_succ_self _
          · exact lt_trans (hwf.idsLt l hl' t' ht') (Nat.lt_succ_self _)
        · intro l hl
          rcases hmemlvl l hl with rfl | hl'
          · have hpne : (s.levels.getD 0 [] ++ [t]).Pairwise (fun a b => a.id ≠ b.id) :=
              hl0cross.imp (fun hab => ne_of_lt hab)
            exact List.Pairwise.map SSTable.id (fun a b hab => hab) hpne
          · exact hwf.idsNodup l hl'
        · intro l hl t' ht'
          rcases hmemlvl l hl with rfl | hl'
          · rcases List.mem_append.mp ht' with ht' | ht'
            · exact hwf.bounds _ (getD_mem s.levels 0 [] hlp) t' ht'
            · rw [List.mem_singleton] at ht'
              subst ht'
              exact htb
          · exact hwf.bounds l hl' t' ht'
        · intro l hl t' ht'
          rcases hmemlvl l hl with rfl | hl'
          · rcases List.mem_append.mp ht' with ht' | ht'
            · exact hwf.dataNodup _ (getD_mem s.levels 0 [] hlp) t' ht'
            · rw [List.mem_singleton] at ht'
              subst ht'
              exact htnd
          · exact hwf.dataNodup l hl' t' ht'
        · intro l hl
          apply hwf.upperSorted
          rw [hdec]
          exact hl
        · intro m' hm'
          exact hwf.immsNodup m' (himm ▸ List.mem_cons_of_mem _ hm')

theorem drop_set_zero {α : Type} (l : List α) (x : α) : (l.set 0 x).drop 1 = l.drop 1 := by
  cases l <;> rfl

theorem mem_levels_compact {α : Type} (L : List (List α)) (i : Nat) (Y : List α) :
    ∀ l ∈ ((L.set i []).set (i + 1) Y).drop 1, l = Y ∨ l = [] ∨ l ∈ L.drop 1 := by
  intro l hl
  cases i with
  | zero =>
    rw [show (0 : Nat) + 1 = 0 + 1 from rfl, drop_one_set, drop_set_zero] at hl
    rcases List.mem_or_eq_of_mem_set hl with hl | hl
    · exact Or.inr (Or.inr hl)
    · exact Or.inl hl
  | succ j =>
    rw [drop_one_set, drop_one_set] at hl
    rcases List.mem_or_eq_of_mem_set hl with hl | hl
    · rcases List.mem_or_eq_of_mem_set hl with hl | hl
      · exact Or.inr (Or.inr hl)
      · exact Or.inr (Or.inl hl)
    · exact Or.inl hl

theorem mem_levels_compact_all {α : Type} (L : List (List α)) (i : Nat) (Y : List α) :
    ∀ l ∈ (L.set i []).set (i + 1) Y, l = Y ∨ l = [] ∨ l ∈ L := by
  intro l hl
  rcases List.mem_or_eq_of_mem_set hl with hl | hl
  · rcases List.mem_or_eq_of_mem_set hl with hl | hl
    · exact Or.inr (Or.inr hl)
    · exact Or.inr (Or.inl hl)
  · exact Or.inl hl

theorem wfl_compact (cfg : LSMConfig) (s : LSMState) (i : Nat) (hwf : WfL cfg s) :
    WfL cfg (lsmCompact cfg s i) := by
  cases hc : compact_sstables_data cfg.max_levels cfg.sstable_target_entry_count i
      (s.levels.getD i [])
      (if i + 1 < cfg.max_levels
       then findOverlapping (s.levels.getD i []) (s.levels.getD (i + 1) []) else [])
      s.nextId with
  | none =>
    rw [lsmCompact_none_eq cfg s i hc]
    exact hwf
  | some p =>
    obtain ⟨newTables, nid⟩ := p
    obtain ⟨hsne, hml, hpeq⟩ := csd_some _ _ _ _ _ _ _ hc
    rw [lsmCompact_some_eq cfg s i newTables nid hc]
    have hlen2 : i + 1 < s.levels.length := by
      rw [hwf.len]
      exact hml
    have hn1 : newTables = (buildSstChunks cfg.sstable_target_entry_count
        (stripTombstones (loadMapFromSstList (s.levels.getD i [])
          (loadMapFromSstList (if i + 1 < cfg.max_levels
            then findOverlapping (s.levels.getD i []) (s.levels.getD (i + 1) []) else []) [])))
        [] s.nextId []).1 := congrArg Prod.fst hpeq
    have hn2 : nid = (buildSstChunks cfg.sstable_target_entry_count
        (stripTombstones (loadMapFromSstList (s.levels.getD i [])
          (loadMapFromSstList (if i + 1 < cfg.max_levels
            then findOverlapping (s.levels.getD i []) (s.levels.getD (i + 1) []) else []) [])))
        [] s.nextId []).2 := congrArg Prod.snd hpeq
    obtain ⟨hnle, hmemid, hndnew, hltnew⟩ := bsc_ids cfg.sstable_target_entry_count
      (stripTombstones (loadMapFromSstList (s.levels.getD i [])
        (loadMapFromSstList (if i + 1 < cfg.max_levels
          then findOverlapping (s.levels.getD i []) (s.levels.getD (i + 1) []) else []) [])))
      [] s.nextId [] (by simp) (by simp)
    rw [← hn2] at hnle
    rw [← hn1, ← hn2] at hmemid
    rw [← hn1] at hndnew
    rw [← hn1, ← hn2] at hltnew
    have hNTid : ∀ t ∈ newTables, s.nextId ≤ t.id ∧ t.id < nid := by
      intro t ht
      rcases hmemid t ht with h | h
      · simp at h
      · exact h
    have hNTtab : ∀ t ∈ newTables, (∀ p ∈ t.data, t.min_key ≤ p.1 ∧ p.1 ≤ t.max_key) ∧
        (keysOfKV t.data).Nodup := by
      intro t ht
      rw [hn1] at ht
      rcases bsc_tables cfg.sstable_target_entry_count _ [] s.nextId [] t ht with h | h
      · simp at h
      · exact h
    have hkeptmem : ∀ t ∈ removeCompacted (s.levels.getD (i + 1) [])
        (if i + 1 < cfg.max_levels
         then findOverlapping (s.levels.getD i []) (s.levels.getD (i + 1) []) else []),
        t ∈ s.levels.getD (i + 1) [] := by
      intro t ht
      exact removeCompacted_sub _ _ t ht
    have hl1mem : s.levels.getD (i + 1) [] ∈ s.levels := getD_mem _ _ _ hlen2
    have hYmem : ∀ t ∈ sortListBy leByMinKeyId (removeCompacted (s.levels.getD (i + 1) [])
        (if i + 1 < cfg.max_levels
         then findOverlapping (s.levels.getD i []) (s.levels.getD (i + 1) []) else [])
        ++ newTables), t ∈ s.levels.getD (i + 1) [] ∨ t ∈ newTables := by
      intro t ht
      rw [mem_sortListBy] at ht
      rcases List.mem_append.mp ht with ht | ht
      · exact Or.inl (hkeptmem t ht)
      · exact Or.inr ht
    have hYsorted : (sortListBy leByMinKeyId (removeCompacted (s.levels.getD (i + 1) [])
        (if i + 1 < cfg.max_levels
         then findOverlapping (s.levels.getD i []) (s.levels.getD (i + 1) []) else [])
        ++ newTables)).Pairwise (fun a b => a.min_key ≤ b.min_key) := by
      apply List.Pairwise.imp (fun hab => leByMinKeyId_min_le _ _ hab)
      exact sortListBy_sorted leByMinKeyId leByMinKeyId_total leByMinKeyId_trans _
    have hYidnodup : ((sortListBy leByMinKeyId (removeCompacted (s.levels.getD (i + 1) [])
        (if i + 1 < cfg.max_levels
         then findOverlapping (s.levels.getD i []) (s.levels.getD (i + 1) []) else [])
        ++ newTables)).map SSTable.id).Nodup := by
      apply (List.Perm.nodup_iff ((sortListBy_perm leByMinKeyId _).map SSTable.id)).mpr
      rw [List.map_append, List.nodup_append]
      refine ⟨?_, hndnew, ?_⟩
      · have hsub : (removeCompacted (s.levels.getD (i + 1) [])
            (if i + 1 < cfg.max_levels
             then findOverlapping (s.levels.getD i []) (s.levels.getD (i + 1) []) else [])).Sublist
            (s.levels.getD (i + 1) []) := List.filter_sublist _
        exact (hsub.map SSTable.id).nodup (hwf.idsNodup _ hl1mem)
      · intro x hx hy
        obtain ⟨t1, ht1, rfl⟩ := List.mem_map.mp hx
        obtain ⟨t2, ht2, hid2⟩ := List.mem_map.mp hy
        have h1 : t1.id < s.nextId := hwf.idsLt _ hl1mem t1 (hkeptmem t1 ht1)
        have h2 : s.nextId ≤ t2.id := (hNTid t2 ht2).1
        rw [hid2] at h2
        omega
    refine ⟨?_, ?_, ?_, ?_, ?_, ?_, ?_, hwf.activeNodup, hwf.immsNodup⟩
    · show (((s.levels.set i []).set (i + 1) _).length) = cfg.max_levels
      rw [List.length_set, List.length_set]
      exact hwf.len
    · show ((((s.levels.set i []).set (i + 1) _)).getD 0 []).Pairwise _
      cases i with
      | zero =>
        rw [getD_set_ne_gen _ (0 + 1) 0 _ _ (by omega),
          getD_set_self_gen _ 0 _ _ (by omega)]
        simp
      | succ j =>
        rw [getD_set_ne_gen _ (j + 1 + 1) 0 _ _ (by omega),
          getD_set_ne_gen _ (j + 1) 0 _ _ (by omega)]
        exact hwf.l0sorted
    · intro l hl t ht
      rcases mem_levels_compact_all s.levels i _ l hl with rfl | hl' | hl'
      · rcases hYmem t ht with ht' | ht'
        · exact lt_of_lt_of_le (hwf.idsLt _ hl1mem t ht') hnle
        · exact (hNTid t ht').2
      · subst hl'
        simp at ht
      · exact lt_of_lt_of_le (hwf.idsLt l hl' t ht) hnle
    · intro l hl
      rcases mem_levels_compact_all s.levels i _ l hl with rfl | hl' | hl'
      · exact hYidnodup
      · subst hl'
        simp
      · exact hwf.idsNodup l hl'
    · intro l hl t ht
      rcases mem_levels_compact_all s.levels i _ l hl with rfl | hl' | hl'
      · rcases hYmem t ht with ht' | ht'
        · exact hwf.bounds _ hl1mem t ht'
        · exact (hNTtab t ht').1
      · subst hl'
        simp at ht
      · exact hwf.bounds l hl' t ht
    · intro l hl t ht
      rcases mem_levels_compact_all s.levels i _ l hl with rfl | hl' | hl'
      · rcases hYmem t ht with ht' | ht'
        · exact hwf.dataNodup _ hl1mem t ht'
        · exact (hNTtab t ht').2
      · subst hl'
        simp at ht
      · exact hwf.dataNodup l hl' t ht
    · intro l hl
      rcases mem_levels_compact s.levels i _ l hl with rfl | hl' | hl'
      · exact hYsorted
      · subst hl'
        simp
      · exact hwf.upperSorted l hl'

theorem rawMems_cons (k : KeyType) (m : List (KeyType × ValueType))
    (ms : List (List (KeyType × ValueType))) :
    rawMems k (m :: ms) = match lookupKV k m with
      | some w => some w
      | none => rawMems k ms := rfl

theorem rawMems_none_iff (k : KeyType) (ms : List (List (KeyType × ValueType))) :
    rawMems k ms = none ↔ ∀ m ∈ ms, lookupKV k m = none := by
  induction ms with
  | nil => simp [rawMems]
  | cons m rest ih =>
    rw [rawMems_cons]
    cases hl : lookupKV k m with
    | some w =>
      simp only
      constructor
      · intro h; cases h
      · intro h
        have := h m (List.mem_cons_self _ _)
        rw [hl] at this
        cases this
    | none =>
      simp only
      rw [ih]
      constructor
      · intro h m' hm'
        rcases List.mem_cons.mp hm' with rfl | hm'
        · exact hl
        · exact h m' hm'
      · intro h m' hm'
        exact h m' (List.mem_cons_of_mem _ hm')

theorem create_none (entries : List (KeyType × ValueType)) (sid : Nat)
    (hc : create_from_memtable entries sid = none) : entries = [] := by
  cases entries with
  | nil => rfl
  | cons kv0 rest => cases hc

theorem tabsOf_fields (a : List (KeyType × ValueType)) (im : List (List (KeyType × ValueType)))
    (lv : List (List SSTable)) (n : Nat) :
    tabsOf ⟨a, im, lv, n⟩ = (lv.getD 0 []).reverse ++ (lv.drop 1).flatten := rfl

theorem kstate_put_other (cfg : LSMConfig) (s : LSMState) (k : KeyType) (v : ValueType)
    (k' : KeyType) (v' : ValueType) (hk : k' ≠ k) (hks : KState k v s) :
    KState k v (lsmPut cfg s k' v') := by
  rw [lsmPut_eq]
  have hlkp : lookupKV k (mapInsert k' v' s.active) = lookupKV k s.active :=
    lookupKV_mapInsert_ne k' k v' s.active hk
  by_cases hsz : cfg.memtable_max_size_entries ≤ (mapInsert k' v' s.active).length
  · rw [if_pos hsz]
    rcases hks with hM | ⟨hMn, hT⟩
    · left
      show rawMems k ([] :: (s.imms ++ [mapInsert k' v' s.active]).reverse) = some v
      rw [List.reverse_append]
      show rawMems k ([] :: mapInsert k' v' s.active :: s.imms.reverse) = some v
      rw [rawMems_cons, rawMems_cons, hlkp]
      rw [rawMems_cons] at hM
      show (match lookupKV k ([] : List (KeyType × ValueType)) with
        | some w => some w
        | none => match lookupKV k s.active with
          | some w => some w
          | none => rawMems k s.imms.reverse) = some v
      exact hM
    · right
      rw [rawMems_none_iff] at hMn
      refine ⟨?_, hT⟩
      rw [rawMems_none_iff]
      intro m hm
      rcases List.mem_cons.mp hm with rfl | hm
      · rfl
      · rw [List.reverse_append] at hm
        rcases List.mem_cons.mp (by simpa using hm) with rfl | hm'
        · rw [hlkp]
          exact hMn s.active (List.mem_cons_self _ _)
        · exact hMn m (List.mem_cons_of_mem _ (List.mem_reverse.mpr hm'))
  · rw [if_neg hsz]
    rcases hks with hM | ⟨hMn, hT⟩
    · left
      show rawMems k (mapInsert k' v' s.active :: s.imms.reverse) = some v
      rw [rawMems_cons, hlkp]
      rw [rawMems_cons] at hM
      exact hM
    · right
      rw [rawMems_none_iff] at hMn
      refine ⟨?_, hT⟩
      rw [rawMems_none_iff]
      intro m hm
      rcases List.mem_cons.mp hm with rfl | hm
      · rw [hlkp]
        exact hMn s.active (List.mem_cons_self _ _)
      · exact hMn m (List.mem_cons_of_mem _ hm)

theorem kstate_put_self (cfg : LSMConfig) (s : LSMState) (k : KeyType) (v : ValueType) :
    KState k v (lsmPut cfg s k v) := by
  rw [lsmPut_eq]
  by_cases hsz : cfg.memtable_max_size_entries ≤ (mapInsert k v s.active).length
  · rw [if_pos hsz]
    left
    show rawMems k ([] :: (s.imms ++ [mapInsert k v s.active]).reverse) = some v
    rw [List.reverse_append]
    show rawMems k ([] :: mapInsert k v s.active :: s.imms.reverse) = some v
    rw [rawMems_cons, rawMems_cons, lookupKV_mapInsert_self]
    rfl
  · rw [if_neg hsz]
    left
    show rawMems k (mapInsert k v s.active :: s.imms.reverse) = some v
    rw [rawMems_cons, lookupKV_mapInsert_self]

theorem l0_sort_append (cfg : LSMConfig) (s : LSMState) (hwf : WfL cfg s) (t : SSTable)
    (htid : t.id = s.nextId) :
    sortListBy leById (s.levels.getD 0 [] ++ [t]) = s.levels.getD 0 [] ++ [t] := by
  apply sortListBy_of_sorted
  have hl0cross : (s.levels.getD 0 [] ++ [t]).Pairwise (fun a b => a.id < b.id) := by
    rw [List.pairwise_append]
    refine ⟨hwf.l0sorted, List.pairwise_singleton _ _, ?_⟩
    intro a ha b hb
    rw [List.mem_singleton] at hb
    subst hb
    rw [htid]
    rcases Nat.eq_zero_or_pos s.levels.length with hlz | hlp
    · rw [List.getD_eq_default] at ha
      · simp at ha
      · omega
    · exact hwf.idsLt _ (getD_mem s.levels 0 [] hlp) a ha
  apply hl0cross.imp
  intro a b hab
  unfold leById
  simpa using le_of_lt hab

theorem kstate_flush (cfg : LSMConfig) (s : LSMState) (k : KeyType) (v : ValueType)
    (hwf : WfL cfg s) (hlp : 0 < s.levels.length) (hks : KState k v s) :
    KState k v (lsmFlushOne s) := by
  cases himm : s.imms with
  | nil =>
    have heq : lsmFlushOne s = s := by
      unfold lsmFlushOne
      rw [himm]
    rw [heq]
    exact hks
  | cons m rest =>
    have hrevimm : s.imms.reverse = rest.reverse ++ [m] := by
      rw [himm]
      simp
    cases hcr : create_from_memtable m s.nextId with
    | none =>
      have hmnil : m = [] := create_none m s.nextId hcr
      have heq : lsmFlushOne s = { s with imms := rest } := by
        simp only [lsmFlushOne]
        rw [himm]
        show (match create_from_memtable m s.nextId with
          | none => { s with imms := rest }
          | some t => ⟨s.active, rest,
              s.levels.set 0 (sortListBy leById (s.levels.getD 0 [] ++ [t])),
              s.nextId + 1⟩) = ({ s with imms := rest } : LSMState)
        rw [hcr]
      rw [heq]
      have hsame : rawMems k (s.active :: s.imms.reverse) =
          rawMems k (s.active :: rest.reverse) := by
        rw [hrevimm, rawMems_cons, rawMems_cons]
        cases lookupKV k s.active with
        | some w => rfl
        | none =>
          simp only
          rw [rawMems_append]
          cases rawMems k rest.reverse with
          | some w => rfl
          | none =>
            simp only
            rw [hmnil]
            rfl
      rcases hks with hM | ⟨hMn, hT⟩
      · left
        show rawMems k (s.active :: rest.reverse) = some v
        rw [← hsame]
        exact hM
      · right
        refine ⟨?_, hT⟩
        show rawMems k (s.active :: rest.reverse) = none
        rw [← hsame]
        exact hMn
    | some t =>
      have htid : t.id = s.nextId := create_id m s.nextId t hcr
      have heq : lsmFlushOne s = ⟨s.active, rest,
          s.levels.set 0 (sortListBy leById (s.levels.getD 0 [] ++ [t])),
          s.nextId + 1⟩ := by
        simp only [lsmFlushOne]
        rw [himm]
        show (match create_from_memtable m s.nextId with
          | none => { s with imms := rest }
          | some t => ⟨s.active, rest,
              s.levels.set 0 (sortListBy leById (s.levels.getD 0 [] ++ [t])),
              s.nextId + 1⟩) = (⟨s.active, rest,
              s.levels.set 0 (sortListBy leById (s.levels.getD 0 [] ++ [t])),
              s.nextId + 1⟩ : LSMState)
        rw [hcr]
      rw [heq, l0_sort_append cfg s hwf t htid]
      obtain ⟨C, hdec, hset⟩ := set_zero_decomp s.levels [] (s.levels.getD 0 [] ++ [t]) hlp
      rw [hset]
      have hlkt : lookupKV k t.data = lookupKV k m := by
        rw [create_data m s.nextId t hcr]
        exact rebuildMap_lookup k m (hwf.immsNodup m (himm ▸ List.mem_cons_self _ _))
      have htabs : tabsOf (⟨s.active, rest, (s.levels.getD 0 [] ++ [t]) :: C,
          s.nextId + 1⟩ : LSMState) = t :: tabsOf s := by
        rw [tabsOf_fields]
        show (s.levels.getD 0 [] ++ [t]).reverse ++ C.flatten = t :: tabsOf s
        rw [List.reverse_append]
        show t :: (s.levels.getD 0 []).reverse ++ C.flatten = _
        unfold tabsOf
        rw [List.cons_append]
        have hC : s.levels.drop 1 = C := by
          rw [hdec]
          rfl
        rw [hC]
      have hdrop : ((s.levels.getD 0 [] ++ [t]) :: C).drop 1 = s.levels.drop 1 := by
        rw [hdec]
        rfl
      rcases hks with hM | ⟨hMn, hT⟩
      · rw [rawMems_cons] at hM
        cases hla : lookupKV k s.active with
        | some w =>
          rw [hla] at hM
          left
          show rawMems k (s.active :: rest.reverse) = some v
          rw [rawMems_cons, hla]
          exact hM
        | none =>
          rw [hla] at hM
          simp only at hM
          rw [hrevimm, rawMems_append] at hM
          cases hrr : rawMems k rest.reverse with
          | some w =>
            rw [hrr] at hM
            left
            show rawMems k (s.active :: rest.reverse) = some v
            rw [rawMems_cons, hla]
            simp only
            rw [hrr]
            exact hM
          | none =>
            rw [hrr] at hM
            simp only at hM
            rw [rawMems_cons] at hM
            right
            refine ⟨?_, ?_⟩
            · show rawMems k (s.active :: rest.reverse) = none
              rw [rawMems_cons, hla]
              simp only
              exact hrr
            · rw [htabs]
              show (match lookupKV k t.data with
                | some w => some w
                | none => rawTabs k (tabsOf s)) = some v
              rw [hlkt]
              cases hlm : lookupKV k m with
              | some w =>
                rw [hlm] at hM
                exact hM
              | none =>
                rw [hlm] at hM
                cases hM
      · rw [rawMems_none_iff] at hMn
        have hlm : lookupKV k m = none := by
          apply hMn
          apply List.mem_cons_of_mem
          rw [hrevimm]
          exact List.mem_append_right _ (List.mem_singleton_self _)
        right
        refine ⟨?_, ?_⟩
        · rw [rawMems_none_iff]
          intro m' hm'
          rcases List.mem_cons.mp hm' with rfl | hm'
          · exact hMn s.active (List.mem_cons_self _ _)
          · apply hMn
            apply List.mem_cons_of_mem
            rw [hrevimm]
            exact List.mem_append_left _ hm'
        · rw [htabs]
          show (match lookupKV k t.data with
            | some w => some w
            | none => rawTabs k (tabsOf s)) = some v
          rw [hlkt, hlm]
          exact hT

theorem mem_findOverlapping_sub (sources l : List SSTable) (t : SSTable)
    (h : t ∈ findOverlapping sources l) : t ∈ l := by
  cases sources with
  | nil => simp [findOverlapping] at h
  | cons s0 stl =>
    unfold findOverlapping at h
    exact (List.mem_filter.mp h).1

theorem not_mem_tgts_of_mem_removeCompacted (l tgts : List SSTable) (t : SSTable)
    (h : t ∈ removeCompacted l tgts) : t ∉ tgts := by
  intro htg
  exact not_mem_removeCompacted l tgts t htg h

theorem lookup_ne_none_key_mem (k : KeyType) (m : List (KeyType × ValueType))
    (h : lookupKV k m ≠ none) : k ∈ keysOfKV m := by
  apply mem_of_lookupKV_isSome
  cases hl : lookupKV k m with
  | none => exact absurd hl h
  | some w => rfl

theorem key_mem_range (k : KeyType) (t : SSTable)
    (hb : ∀ p ∈ t.data, t.min_key ≤ p.1 ∧ p.1 ≤ t.max_key)
    (h : lookupKV k t.data ≠ none) : t.min_key ≤ k ∧ k ≤ t.max_key := by
  cases hl : lookupKV k t.data with
  | none => exact absurd hl h
  | some w => exact hb (k, w) (lookupKV_mem k w t.data hl)

theorem rawTabs_compact_level (k : KeyType) (v : ValueType)
    (sources oldL1 tgts kept newTables Y : List SSTable)
    (E : List (KeyType × ValueType)) (tc nid0 : Nat)
    (htgts : tgts = findOverlapping sources oldL1)
    (hkept : kept = removeCompacted oldL1 tgts)
    (hE : E = stripTombstones (loadMapFromSstList sources (loadMapFromSstList tgts [])))
    (hnew : newTables = (buildSstChunks tc E [] nid0 []).1)
    (hY : Y = sortListBy leByMinKeyId (kept ++ newTables))
    (hndS : ∀ t ∈ sources, (keysOfKV t.data).Nodup)
    (hndT : ∀ t ∈ oldL1, (keysOfKV t.data).Nodup)
    (hidT : (oldL1.map SSTable.id).Nodup)
    (hUL1 : ∀ t1 ∈ oldL1, ∀ t2 ∈ oldL1, lookupKV k t1.data ≠ none →
      lookupKV k t2.data ≠ none → t1 = t2)
    (hbS : ∀ t ∈ sources, ∀ p ∈ t.data, t.min_key ≤ p.1 ∧ p.1 ≤ t.max_key)
    (hbT : ∀ t ∈ oldL1, ∀ p ∈ t.data, t.min_key ≤ p.1 ∧ p.1 ≤ t.max_key)
    (hv : v ≠ TOMBSTONE_VALUE) :
    (rawTabs k sources.reverse = some v → rawTabs k Y = some v) ∧
    (rawTabs k sources.reverse = none → rawTabs k oldL1 = some v → rawTabs k Y = some v) ∧
    (rawTabs k sources.reverse = none → rawTabs k oldL1 = none → rawTabs k Y = none) := by
  have hndTgts : ∀ t ∈ tgts, (keysOfKV t.data).Nodup := by
    intro t ht
    exact hndT t (mem_findOverlapping_sub sources oldL1 t (htgts ▸ ht))
  have hmergednd : (keysOfKV (loadMapFromSstList sources
      (loadMapFromSstList tgts []))).Nodup :=
    loadMap_nodup _ _ (loadMap_nodup _ _ (by simp [keysOfKV]))
  have hEnd : (keysOfKV E).Nodup := by
    rw [hE]
    exact stripTombstones_nodup _ hmergednd
  have hML : lookupKV k (loadMapFromSstList sources (loadMapFromSstList tgts [])) =
      match rawTabs k sources.reverse with
      | some w => some w
      | none => match rawTabs k tgts.reverse with
        | some w => some w
        | none => none := by
    rw [loadMap_lookup k sources hndS _]
    cases rawTabs k sources.reverse with
    | some w => rfl
    | none =>
      simp only
      rw [loadMap_lookup k tgts hndTgts []]
      cases rawTabs k tgts.reverse with
      | some w => rfl
      | none => rfl
  have hEl : lookupKV k E =
      match lookupKV k (loadMapFromSstList sources (loadMapFromSstList tgts [])) with
      | some w => if w = TOMBSTONE_VALUE then none else some w
      | none => none := by
    rw [hE]
    exact stripTombstones_lookup k _ hmergednd
  have hkept_not_tgts : ∀ t ∈ kept, t ∉ tgts := by
    intro t ht
    exact not_mem_tgts_of_mem_removeCompacted oldL1 tgts t (hkept ▸ ht)
  have hkept_sub : ∀ t ∈ kept, t ∈ oldL1 := by
    intro t ht
    exact removeCompacted_sub oldL1 tgts t (hkept ▸ ht)
  -- from a hit value in E, a unique chunk holds it
  have hchunk : lookupKV k E = some v →
      (∃ t ∈ newTables, lookupKV k t.data = some v) ∧
      (∀ t1 ∈ newTables, ∀ t2 ∈ newTables, k ∈ keysOfKV t1.data →
        k ∈ keysOfKV t2.data → t1 = t2) := by
    intro hEv
    constructor
    · obtain ⟨t, ht, hval⟩ := bsc_find tc k v E [] nid0 [] hEnd hEv
        (by simp [keysOfKV]) (by simp [keysOfKV])
      exact ⟨t, hnew ▸ ht, hval⟩
    · intro t1 ht1 t2 ht2 h1 h2
      exact bsc_unique tc k E [] nid0 [] hEnd (by simp [keysOfKV]) (by simp) t1
        (hnew ▸ ht1) t2 (hnew ▸ ht2) h1 h2
  -- chunks are k-free when E has no k
  have hchunk_free : lookupKV k E = none → ∀ t ∈ newTables, lookupKV k t.data = none := by
    intro hEn t ht
    by_contra hne
    have hkmem := lookup_ne_none_key_mem k t.data hne
    have hkE : k ∉ keysOfKV E := by
      intro hh
      have := lookupKV_isSome_of_mem k E hh
      rw [hEn] at this
      cases this
    have := bsc_kfree tc k E [] nid0 [] hkE (by simp [keysOfKV]) t (hnew ▸ ht) hkmem
    simp at this
  refine ⟨?_, ?_, ?_⟩
  · intro hs
    have hkmem_src : ∃ s0 ∈ sources, s0.min_key ≤ k ∧ k ≤ s0.max_key := by
      obtain ⟨t, ht, hval⟩ := rawTabs_mem k sources.reverse v hs
      have ht' : t ∈ sources := List.mem_reverse.mp ht
      exact ⟨t, ht', key_mem_range k t (hbS t ht') (by rw [hval]; exact fun h => by cases h)⟩
    have hEv : lookupKV k E = some v := by
      rw [hEl, hML, hs]
      simp only [if_neg hv]
    obtain ⟨⟨tstar, htstar, hvalstar⟩, huniqnew⟩ := hchunk hEv
    apply rawTabs_of_unique k Y tstar v ?_ hvalstar
    · intro t ht hne
      rw [hY, mem_sortListBy] at ht
      rcases List.mem_append.mp ht with ht | ht
      · exfalso
        apply hkept_not_tgts t ht
        rw [htgts]
        exact mem_findOverlapping sources oldL1 t (hkept_sub t ht) k hkmem_src
          (key_mem_range k t (hbT t (hkept_sub t ht)) hne)
      · apply huniqnew t ht tstar htstar (lookup_ne_none_key_mem k t.data hne)
        exact lookup_ne_none_key_mem k tstar.data (by rw [hvalstar]; exact fun h => by cases h)
    · rw [hY, mem_sortListBy]
      exact List.mem_append_right _ htstar
  · intro hs h1
    obtain ⟨tstar, htstar, hvalstar⟩ := rawTabs_mem k oldL1 v h1
    have hstarne : lookupKV k tstar.data ≠ none := by
      rw [hvalstar]
      exact fun h => by cases h
    by_cases htg : tstar ∈ tgts
    · have hTGrev : rawTabs k tgts.reverse = some v := by
        apply rawTabs_of_unique k tgts.reverse tstar v (List.mem_reverse.mpr htg) hvalstar
        intro t ht hne
        exact hUL1 t (mem_findOverlapping_sub sources oldL1 t
          (htgts ▸ List.mem_reverse.mp ht)) tstar htstar hne hstarne
      have hEv : lookupKV k E = some v := by
        rw [hEl, hML, hs]
        simp only
        rw [hTGrev]
        simp only [if_neg hv]
      obtain ⟨⟨tchunk, htchunk, hvalchunk⟩, huniqnew⟩ := hchunk hEv
      apply rawTabs_of_unique k Y tchunk v ?_ hvalchunk
      · intro t ht hne
        rw [hY, mem_sortListBy] at ht
        rcases List.mem_append.mp ht with ht | ht
        · exfalso
          have := hUL1 t (hkept_sub t ht) tstar htstar hne hstarne
          subst this
          exact hkept_not_tgts t ht htg
        · apply huniqnew t ht tchunk htchunk (lookup_ne_none_key_mem k t.data hne)
          exact lookup_ne_none_key_mem k tchunk.data (by rw [hvalchunk]; exact fun h => by cases h)
      · rw [hY, mem_sortListBy]
        exact List.mem_append_right _ htchunk
    · have htgfree : ∀ c ∈ tgts, lookupKV k c.data = none := by
        intro c hc
        by_contra hne
        have := hUL1 c (mem_findOverlapping_sub sources oldL1 c (htgts ▸ hc)) tstar htstar
          hne hstarne
        subst this
        exact htg hc
      have hTGrev : rawTabs k tgts.reverse = none := by
        rw [rawTabs_none_iff]
        intro c hc
        exact htgfree c (List.mem_reverse.mp hc)
      have hEn : lookupKV k E = none := by
        rw [hEl, hML, hs]
        simp only
        rw [hTGrev]
      have hfree := hchunk_free hEn
      have hstar_kept : tstar ∈ kept := by
        rw [hkept]
        apply mem_removeCompacted_of_ne oldL1 tgts tstar htstar
        intro c hc hid
        have hceq : c = tstar := by
          apply List.inj_on_of_nodup_map hidT
            (mem_findOverlapping_sub sources oldL1 c (htgts ▸ hc)) htstar hid
        rw [hceq] at hc
        exact htg hc
      apply rawTabs_of_unique k Y tstar v ?_ hvalstar
      · intro t ht hne
        rw [hY, mem_sortListBy] at ht
        rcases List.mem_append.mp ht with ht | ht
        · exact hUL1 t (hkept_sub t ht) tstar htstar hne hstarne
        · exact absurd (hfree t ht) hne
      · rw [hY, mem_sortListBy]
        exact List.mem_append_left _ hstar_kept
  · intro hs h1
    rw [rawTabs_none_iff] at h1 ⊢
    have htgfree : ∀ c ∈ tgts, lookupKV k c.data = none := by
      intro c hc
      exact h1 c (mem_findOverlapping_sub sources oldL1 c (htgts ▸ hc))
    have hTGrev : rawTabs k tgts.reverse = none := by
      rw [rawTabs_none_iff]
      intro c hc
      exact htgfree c (List.mem_reverse.mp hc)
    have hEn : lookupKV k E = none := by
      rw [hEl, hML, hs]
      simp only
      rw [hTGrev]
    have hfree := hchunk_free hEn
    intro t ht
    rw [hY, mem_sortListBy] at ht
    rcases List.mem_append.mp ht with ht | ht
    · exact h1 t (hkept_sub t ht)
    · exact hfree t ht

theorem loadMap_keys_sub (k : KeyType) : ∀ (ts : List SSTable)
    (m0 : List (KeyType × ValueType)), k ∈ keysOfKV (loadMapFromSstList ts m0) →
    (∃ t ∈ ts, k ∈ keysOfKV t.data) ∨ k ∈ keysOfKV m0 := by
  intro ts
  induction ts with
  | nil => intro m0 h; exact Or.inr h
  | cons t rest ih =>
    intro m0 h
    have h' : k ∈ keysOfKV (loadMapFromSstList rest
        (t.data.foldl (fun m kv => mapInsert kv.1 kv.2 m) m0)) := h
    rcases ih _ h' with h'' | h''
    · obtain ⟨t', ht', hk⟩ := h''
      exact Or.inl ⟨t', List.mem_cons_of_mem _ ht', hk⟩
    · obtain ⟨kv, hkv, rfl⟩ := List.mem_map.mp h''
      rcases mem_foldl_mapInsert_elim t.data m0 kv hkv with hkv' | hkv'
      · exact Or.inl ⟨t, List.mem_cons_self _ _, List.mem_map_of_mem Prod.fst hkv'⟩
      · exact Or.inr (List.mem_map_of_mem Prod.fst hkv')

theorem unique_compact_level (k : KeyType)
    (sources oldL1 tgts kept newTables Y : List SSTable)
    (E : List (KeyType × ValueType)) (tc nid0 : Nat)
    (htgts : tgts = findOverlapping sources oldL1)
    (hkept : kept = removeCompacted oldL1 tgts)
    (hE : E = stripTombstones (loadMapFromSstList sources (loadMapFromSstList tgts [])))
    (hnew : newTables = (buildSstChunks tc E [] nid0 []).1)
    (hY : Y = sortListBy leByMinKeyId (kept ++ newTables))
    (hUL1 : ∀ t1 ∈ oldL1, ∀ t2 ∈ oldL1, lookupKV k t1.data ≠ none →
      lookupKV k t2.data ≠ none → t1 = t2)
    (hbS : ∀ t ∈ sources, ∀ p ∈ t.data, t.min_key ≤ p.1 ∧ p.1 ≤ t.max_key)
    (hbT : ∀ t ∈ oldL1, ∀ p ∈ t.data, t.min_key ≤ p.1 ∧ p.1 ≤ t.max_key) :
    ∀ t1 ∈ Y, ∀ t2 ∈ Y, lookupKV k t1.data ≠ none → lookupKV k t2.data ≠ none →
      t1 = t2 := by
  have hmergednd : (keysOfKV (loadMapFromSstList sources
      (loadMapFromSstList tgts []))).Nodup :=
    loadMap_nodup _ _ (loadMap_nodup _ _ (by simp [keysOfKV]))
  have hEnd : (keysOfKV E).Nodup := by
    rw [hE]
    exact stripTombstones_nodup _ hmergednd
  have hkept_not_tgts : ∀ t ∈ kept, t ∉ tgts := by
    intro t ht
    exact not_mem_tgts_of_mem_removeCompacted oldL1 tgts t (hkept ▸ ht)
  have hkept_sub : ∀ t ∈ kept, t ∈ oldL1 := by
    intro t ht
    exact removeCompacted_sub oldL1 tgts t (hkept ▸ ht)
  -- a chunk holding k forces every kept table to be k-free
  have hcross : (∃ tn ∈ newTables, k ∈ keysOfKV tn.data) →
      ∀ t ∈ kept, lookupKV k t.data = none := by
    intro hnewk t ht
    by_contra hne
    obtain ⟨tn, htn, hkn⟩ := hnewk
    have hkE : k ∈ keysOfKV E := by
      by_contra hkE
      have := bsc_kfree tc k E [] nid0 [] hkE (by simp [keysOfKV]) tn (hnew ▸ htn) hkn
      simp at this
    have hkM : k ∈ keysOfKV (loadMapFromSstList sources (loadMapFromSstList tgts [])) := by
      rw [hE] at hkE
      obtain ⟨kv, hkv, rfl⟩ := List.mem_map.mp hkE
      exact List.mem_map_of_mem Prod.fst (mem_stripTombstones _ kv hkv).1
    rcases loadMap_keys_sub k sources _ hkM with hks | hks
    · obtain ⟨s0, hs0, hs0k⟩ := hks
      apply hkept_not_tgts t ht
      rw [htgts]
      apply mem_findOverlapping sources oldL1 t (hkept_sub t ht) k
      · refine ⟨s0, hs0, ?_⟩
        have := lookupKV_isSome_of_mem k s0.data hs0k
        apply key_mem_range k s0 (hbS s0 hs0)
        cases hl : lookupKV k s0.data with
        | none => rw [hl] at this; cases this
        | some w => exact fun h => by cases h
      · exact key_mem_range k t (hbT t (hkept_sub t ht)) hne
    · rcases loadMap_keys_sub k tgts [] hks with hks' | hks'
      · obtain ⟨c, hc, hck⟩ := hks'
        have hcne : lookupKV k c.data ≠ none := by
          have := lookupKV_isSome_of_mem k c.data hck
          cases hl : lookupKV k c.data with
          | none => rw [hl] at this; cases this
          | some w => exact fun h => by cases h
        have hct := hUL1 c (mem_findOverlapping_sub sources oldL1 c (htgts ▸ hc))
          t (hkept_sub t ht) hcne hne
        rw [hct] at hc
        exact hkept_not_tgts t ht (htgts ▸ hc)
      · simp [keysOfKV] at hks'
  intro t1 ht1 t2 ht2 h1 h2
  rw [hY, mem_sortListBy] at ht1 ht2
  rcases List.mem_append.mp ht1 with ht1' | ht1'
  · rcases List.mem_append.mp ht2 with ht2' | ht2'
    · exact hUL1 t1 (hkept_sub t1 ht1') t2 (hkept_sub t2 ht2') h1 h2
    · exfalso
      have := hcross ⟨t2, ht2', lookup_ne_none_key_mem k t2.data h2⟩ t1 ht1'
      exact h1 this
  · rcases List.mem_append.mp ht2 with ht2' | ht2'
    · exfalso
      have := hcross ⟨t1, ht1', lookup_ne_none_key_mem k t1.data h1⟩ t2 ht2'
      exact h2 this
    · exact bsc_unique tc k E [] nid0 [] hEnd (by simp [keysOfKV]) (by simp) t1
        (hnew ▸ ht1') t2 (hnew ▸ ht2') (lookup_ne_none_key_mem k t1.data h1)
        (lookup_ne_none_key_mem k t2.data h2)

theorem kunique_of_levels_eq (k : KeyType) (s s' : LSMState) (h : KUnique k s)
    (heq : s'.levels.drop 1 = s.levels.drop 1) : KUnique k s' := by
  intro l hl
  rw [heq] at hl
  exact h l hl

theorem kunique_put (cfg : LSMConfig) (s : LSMState) (k : KeyType) (k' : KeyType)
    (v' : ValueType) (h : KUnique k s) : KUnique k (lsmPut cfg s k' v') := by
  rw [lsmPut_eq]
  by_cases hsz : cfg.memtable_max_size_entries ≤ (mapInsert k' v' s.active).length
  · rw [if_pos hsz]
    exact h
  · rw [if_neg hsz]
    exact h

theorem kunique_flush (cfg : LSMConfig) (s : LSMState) (k : KeyType)
    (h : KUnique k s) : KUnique k (lsmFlushOne s) := by
  cases himm : s.imms with
  | nil =>
    have heq : lsmFlushOne s = s := by
      unfold lsmFlushOne
      rw [himm]
    rw [heq]
    exact h
  | cons m rest =>
    cases hcr : create_from_memtable m s.nextId with
    | none =>
      have heq : lsmFlushOne s = { s with imms := rest } := by
        simp only [lsmFlushOne]
        rw [himm]
        show (match create_from_memtable m s.nextId with
          | none => { s with imms := rest }
          | some t => ⟨s.active, rest,
              s.levels.set 0 (sortListBy leById (s.levels.getD 0 [] ++ [t])),
              s.nextId + 1⟩) = ({ s with imms := rest } : LSMState)
        rw [hcr]
      rw [heq]
      exact h
    | some t =>
      have heq : lsmFlushOne s = ⟨s.active, rest,
          s.levels.set 0 (sortListBy leById (s.levels.getD 0 [] ++ [t])),
          s.nextId + 1⟩ := by
        simp only [lsmFlushOne]
        rw [himm]
        show (match create_from_memtable m s.nextId with
          | none => { s with imms := rest }
          | some t => ⟨s.active, rest,
              s.levels.set 0 (sortListBy leById (s.levels.getD 0 [] ++ [t])),
              s.nextId + 1⟩) = (⟨s.active, rest,
              s.levels.set 0 (sortListBy leById (s.levels.getD 0 [] ++ [t])),
              s.nextId + 1⟩ : LSMState)
        rw [hcr]
      refine kunique_of_levels_eq k s (lsmFlushOne s) h ?_
      rw [heq]
      exact drop_set_zero _ _

theorem kunique_compact (cfg : LSMConfig) (s : LSMState) (i : Nat) (k : KeyType)
    (hwf : WfL cfg s) (h : KUnique k s) : KUnique k (lsmCompact cfg s i) := by
  cases hc : compact_sstables_data cfg.max_levels cfg.sstable_target_entry_count i
      (s.levels.getD i [])
      (if i + 1 < cfg.max_levels
       then findOverlapping (s.levels.getD i []) (s.levels.getD (i + 1) []) else [])
      s.nextId with
  | none =>
    rw [lsmCompact_none_eq cfg s i hc]
    exact h
  | some p =>
    obtain ⟨newTables, nid⟩ := p
    obtain ⟨hsne, hml, hpeq⟩ := csd_some _ _ _ _ _ _ _ hc
    rw [lsmCompact_some_eq cfg s i newTables nid hc]
    have hlen2 : i + 1 < s.levels.length := by
      rw [hwf.len]
      exact hml
    have hUL1 : ∀ t1 ∈ s.levels.getD (i + 1) [], ∀ t2 ∈ s.levels.getD (i + 1) [],
        lookupKV k t1.data ≠ none → lookupKV k t2.data ≠ none → t1 = t2 := by
      have hmem : s.levels.getD (i + 1) [] ∈ s.levels.drop 1 := by
        have : (s.levels.drop 1).getD i [] = s.levels.getD (i + 1) [] := by
          rw [List.getD_eq_getElem?_getD, List.getElem?_drop, ← List.getD_eq_getElem?_getD,
            Nat.add_comm]
        rw [← this]
        apply getD_mem
        rw [List.length_drop]
        omega
      exact h _ hmem
    intro l hl t1 ht1 t2 ht2 h1 h2
    rcases mem_levels_compact s.levels i _ l hl with rfl | hl' | hl'
    · refine unique_compact_level k (s.levels.getD i []) (s.levels.getD (i + 1) [])
        (if i + 1 < cfg.max_levels
         then findOverlapping (s.levels.getD i []) (s.levels.getD (i + 1) []) else [])
        (removeCompacted (s.levels.getD (i + 1) [])
          (if i + 1 < cfg.max_levels
           then findOverlapping (s.levels.getD i []) (s.levels.getD (i + 1) []) else []))
        newTables _
        (stripTombstones (loadMapFromSstList (s.levels.getD i [])
          (loadMapFromSstList (if i + 1 < cfg.max_levels
            then findOverlapping (s.levels.getD i []) (s.levels.getD (i + 1) []) else []) [])))
        cfg.sstable_target_entry_count s.nextId (if_pos hml) rfl rfl
        (congrArg Prod.fst hpeq) rfl hUL1 ?_ ?_ t1 ht1 t2 ht2 h1 h2
      · intro t ht
        rcases Nat.lt_or_ge i s.levels.length with hilt | hige
        · exact hwf.bounds _ (getD_mem s.levels i [] hilt) t ht
        · rw [List.getD_eq_default _ _ (by omega)] at ht
          simp at ht
      · intro t ht
        exact hwf.bounds _ (getD_mem s.levels (i + 1) [] hlen2) t ht
    · subst hl'
      simp at ht1
    · exact h l hl' t1 ht1 t2 ht2 h1 h2

theorem getD_drop_one {α : Type} (l : List α) (j : Nat) (d : α) :
    (l.drop 1).getD j d = l.getD (j + 1) d := by
  rw [List.getD_eq_getElem?_getD, List.getElem?_drop, ← List.getD_eq_getElem?_getD,
    Nat.add_comm]

theorem kstate_compact (cfg : LSMConfig) (s : LSMState) (i : Nat) (k : KeyType)
    (v : ValueType) (hwf : WfL cfg s) (hKU : KUnique k s) (hv : v ≠ TOMBSTONE_VALUE)
    (hks : KState k v s) : KState k v (lsmCompact cfg s i) := by
  cases hc : compact_sstables_data cfg.max_levels cfg.sstable_target_entry_count i
      (s.levels.getD i [])
      (if i + 1 < cfg.max_levels
       then findOverlapping (s.levels.getD i []) (s.levels.getD (i + 1) []) else [])
      s.nextId with
  | none =>
    rw [lsmCompact_none_eq cfg s i hc]
    exact hks
  | some p =>
    obtain ⟨newTables, nid⟩ := p
    obtain ⟨hsne, hml, hpeq⟩ := csd_some _ _ _ _ _ _ _ hc
    rw [lsmCompact_some_eq cfg s i newTables nid hc]
    have hlen2 : i + 1 < s.levels.length := by
      rw [hwf.len]
      exact hml
    rcases hks with hM | ⟨hMn, hT⟩
    · exact Or.inl hM
    right
    refine ⟨hMn, ?_⟩
    have hUL1 : ∀ t1 ∈ s.levels.getD (i + 1) [], ∀ t2 ∈ s.levels.getD (i + 1) [],
        lookupKV k t1.data ≠ none → lookupKV k t2.data ≠ none → t1 = t2 := by
      have hmem : s.levels.getD (i + 1) [] ∈ s.levels.drop 1 := by
        rw [← getD_drop_one s.levels i ([] : List SSTable)]
        apply getD_mem
        rw [List.length_drop]
        omega
      exact hKU _ hmem
    obtain ⟨hI1, hI2, hI3⟩ := rawTabs_compact_level k v (s.levels.getD i [])
      (s.levels.getD (i + 1) [])
      (if i + 1 < cfg.max_levels
       then findOverlapping (s.levels.getD i []) (s.levels.getD (i + 1) []) else [])
      (removeCompacted (s.levels.getD (i + 1) [])
        (if i + 1 < cfg.max_levels
         then findOverlapping (s.levels.getD i []) (s.levels.getD (i + 1) []) else []))
      newTables
      (sortListBy leByMinKeyId
        (removeCompacted (s.levels.getD (i + 1) [])
          (if i + 1 < cfg.max_levels
           then findOverlapping (s.levels.getD i []) (s.levels.getD (i + 1) []) else [])
         ++ newTables))
      (stripTombstones (loadMapFromSstList (s.levels.getD i [])
        (loadMapFromSstList (if i + 1 < cfg.max_levels
          then findOverlapping (s.levels.getD i []) (s.levels.getD (i + 1) []) else []) [])))
      cfg.sstable_target_entry_count s.nextId
      (if_pos hml) rfl rfl (congrArg Prod.fst hpeq) rfl
      (fun t ht => hwf.dataNodup _ (getD_mem s.levels i [] (by omega)) t ht)
      (fun t ht => hwf.dataNodup _ (getD_mem s.levels (i + 1) [] hlen2) t ht)
      (hwf.idsNodup _ (getD_mem s.levels (i + 1) [] hlen2))
      hUL1
      (fun t ht => hwf.bounds _ (getD_mem s.levels i [] (by omega)) t ht)
      (fun t ht => hwf.bounds _ (getD_mem s.levels (i + 1) [] hlen2) t ht)
      hv
    cases i with
    | zero =>
      have hup : 0 < (s.levels.drop 1).length := by
        rw [List.length_drop]
        omega
      obtain ⟨C, hdecU, hsetU⟩ := set_zero_decomp (s.levels.drop 1) []
        (sortListBy leByMinKeyId
          (removeCompacted (s.levels.getD (0 + 1) [])
            (if 0 + 1 < cfg.max_levels
             then findOverlapping (s.levels.getD 0 []) (s.levels.getD (0 + 1) []) else [])
           ++ newTables)) hup
      rw [getD_drop_one] at hdecU
      have htabs_s : tabsOf s = (s.levels.getD 0 []).reverse ++
          (s.levels.getD (0 + 1) [] ++ C.flatten) := by
        unfold tabsOf
        rw [hdecU, List.flatten_cons]
      show rawTabs k (((((s.levels.set 0 []).set (0 + 1) _)).getD 0 []).reverse ++
        ((((s.levels.set 0 []).set (0 + 1) _)).drop 1).flatten) = some v
      rw [getD_set_ne_gen _ (0 + 1) 0 _ _ (by omega), getD_set_self_gen _ 0 _ _ (by omega)]
      rw [drop_one_set, drop_set_zero, hsetU, List.flatten_cons]
      rw [htabs_s, rawTabs_append] at hT
      simp only [List.reverse_nil, List.nil_append]
      cases hS0 : rawTabs k (s.levels.getD 0 []).reverse with
      | some w =>
        rw [hS0] at hT
        simp only [Option.some.injEq] at hT
        subst hT
        rw [rawTabs_append, hI1 hS0]
      | none =>
        rw [hS0] at hT
        simp only at hT
        rw [rawTabs_append] at hT
        cases hO : rawTabs k (s.levels.getD (0 + 1) []) with
        | some w =>
          rw [hO] at hT
          simp only [Option.some.injEq] at hT
          subst hT
          rw [rawTabs_append, hI2 hS0 hO]
        | none =>
          rw [hO] at hT
          simp only at hT
          rw [rawTabs_append, hI3 hS0 hO]
          simp only
          exact hT
    | succ j =>
      have hjlt : j + 1 < (s.levels.drop 1).length := by
        rw [List.length_drop]
        omega
      obtain ⟨A, C, hdecU, hAlen, hsetU⟩ := set_set_decomp ([] : List SSTable) []
        (sortListBy leByMinKeyId
          (removeCompacted (s.levels.getD (j + 1 + 1) [])
            (if j + 1 + 1 < cfg.max_levels
             then findOverlapping (s.levels.getD (j + 1) [])
               (s.levels.getD (j + 1 + 1) []) else [])
           ++ newTables)) j (s.levels.drop 1) hjlt
      rw [getD_drop_one, getD_drop_one] at hdecU
      have htabs_s : tabsOf s = (s.levels.getD 0 []).reverse ++
          (A.flatten ++ (s.levels.getD (j + 1) [] ++
            (s.levels.getD (j + 1 + 1) [] ++ C.flatten))) := by
        unfold tabsOf
        rw [hdecU, List.flatten_append, List.flatten_cons, List.flatten_cons]
      have hsrcmem : s.levels.getD (j + 1) [] ∈ s.levels.drop 1 := by
        rw [← getD_drop_one s.levels j ([] : List SSTable)]
        apply getD_mem
        omega
      have hrevS : rawTabs k (s.levels.getD (j + 1) []).reverse =
          rawTabs k (s.levels.getD (j + 1) []) :=
        rawTabs_reverse_of_unique k _ (hKU _ hsrcmem)
      show rawTabs k (((((s.levels.set (j + 1) []).set (j + 1 + 1) _)).getD 0 []).reverse ++
        ((((s.levels.set (j + 1) []).set (j + 1 + 1) _)).drop 1).flatten) = some v
      rw [getD_set_ne_gen _ (j + 1 + 1) 0 _ _ (by omega),
        getD_set_ne_gen _ (j + 1) 0 _ _ (by omega)]
      rw [drop_one_set, drop_one_set, hsetU, List.flatten_append, List.flatten_cons,
        List.flatten_cons, List.nil_append]
      rw [htabs_s, rawTabs_append] at hT
      cases hS0 : rawTabs k (s.levels.getD 0 []).reverse with
      | some w =>
        rw [hS0] at hT
        simp only [Option.some.injEq] at hT
        subst hT
        rw [rawTabs_append, hS0]
      | none =>
        rw [hS0] at hT
        simp only at hT
        rw [rawTabs_append] at hT
        cases hA : rawTabs k A.flatten with
        | some w =>
          rw [hA] at hT
          simp only [Option.some.injEq] at hT
          subst hT
          rw [rawTabs_append, hS0]
          simp only
          rw [rawTabs_append, hA]
        | none =>
          rw [hA] at hT
          simp only at hT
          rw [rawTabs_append] at hT
          cases hSrc : rawTabs k (s.levels.getD (j + 1) []) with
          | some w =>
            rw [hSrc] at hT
            simp only [Option.some.injEq] at hT
            subst hT
            have hYv := hI1 (by rw [hrevS]; exact hSrc)
            rw [rawTabs_append, hS0]
            simp only
            rw [rawTabs_append, hA]
            simp only
            rw [rawTabs_append, hYv]
          | none =>
            have hSrcRev : rawTabs k (s.levels.getD (j + 1) []).reverse = none := by
              rw [hrevS]
              exact hSrc
            rw [hSrc] at hT
            simp only at hT
            rw [rawTabs_append] at hT
            cases hO : rawTabs k (s.levels.getD (j + 1 + 1) []) with
            | some w =>
              rw [hO] at hT
              simp only [Option.some.injEq] at hT
              subst hT
              have hYv := hI2 hSrcRev hO
              rw [rawTabs_append, hS0]
              simp only
              rw [rawTabs_append, hA]
              simp only
              rw [rawTabs_append, hYv]
            | none =>
              rw [hO] at hT
              simp only at hT
              have hYn := hI3 hSrcRev hO
              rw [rawTabs_append, hS0]
              simp only
              rw [rawTabs_append, hA]
              simp only
              rw [rawTabs_append, hYn]
              simp only
              exact hT

theorem wfl_step (cfg : LSMConfig) (s : LSMState) (op : LSMOp) (hwf : WfL cfg s) :
    WfL cfg (lsmStep cfg s op) := by
  cases op with
  | put k v => exact wfl_put cfg s k v hwf
  | del k => exact wfl_del cfg s k hwf
  | flush => exact wfl_flush cfg s hwf
  | compact i => exact wfl_compact cfg s i hwf

theorem kunique_step (cfg : LSMConfig) (s : LSMState) (op : LSMOp) (k : KeyType)
    (hwf : WfL cfg s) (h : KUnique k s) : KUnique k (lsmStep cfg s op) := by
  cases op with
  | put k' v' => exact kunique_put cfg s k k' v' h
  | del k' => exact kunique_put cfg s k k' TOMBSTONE_VALUE h
  | flush => exact kunique_flush cfg s k h
  | compact i => exact kunique_compact cfg s i k hwf h

theorem kstate_step (cfg : LSMConfig) (s : LSMState) (op : LSMOp) (k : KeyType)
    (v : ValueType) (hml : 1 ≤ cfg.max_levels) (hwf : WfL cfg s) (hKU : KUnique k s)
    (hv : v ≠ TOMBSTONE_VALUE) (hop : OtherKeyOp k op = true) (hks : KState k v s) :
    KState k v (lsmStep cfg s op) := by
  cases op with
  | put k' v' =>
    exact kstate_put_other cfg s k v k' v' (of_decide_eq_true hop) hks
  | del k' =>
    exact kstate_put_other cfg s k v k' TOMBSTONE_VALUE (of_decide_eq_true hop) hks
  | flush =>
    have hlp : 0 < s.levels.length := by
      rw [hwf.len]
      exact hml
    exact kstate_flush cfg s k v hwf hlp hks
  | compact i => exact kstate_compact cfg s i k v hwf hKU hv hks

theorem lsm_inv_run (cfg : LSMConfig) (s : LSMState) (ops : List LSMOp) (k : KeyType)
    (hwf : WfL cfg s) (hKU : KUnique k s) :
    WfL cfg (lsmRunFrom cfg s ops) ∧ KUnique k (lsmRunFrom cfg s ops) := by
  induction ops generalizing s with
  | nil => exact ⟨hwf, hKU⟩
  | cons op rest ih =>
    exact ih (lsmStep cfg s op) (wfl_step cfg s op hwf) (kunique_step cfg s op k hwf hKU)

theorem kstate_run (cfg : LSMConfig) (s : LSMState) (ops : List LSMOp) (k : KeyType)
    (v : ValueType) (hml : 1 ≤ cfg.max_levels) (hv : v ≠ TOMBSTONE_VALUE)
    (hops : ∀ op ∈ ops, OtherKeyOp k op = true)
    (hwf : WfL cfg s) (hKU : KUnique k s) (hks : KState k v s) :
    KState k v (lsmRunFrom cfg s ops) := by
  induction ops generalizing s with
  | nil => exact hks
  | cons op rest ih =>
    exact ih (lsmStep cfg s op) (fun o ho => hops o (List.mem_cons_of_mem _ ho))
      (wfl_step cfg s op hwf) (kunique_step cfg s op k hwf hKU)
      (kstate_step cfg s op k v hml hwf hKU hv (hops op (List.mem_cons_self _ _)) hks)

theorem kunique_init (cfg : LSMConfig) (k : KeyType) : KUnique k (lsmInit cfg) := by
  intro l hl t1 ht1 t2 ht2 h1 h2
  have : l = [] := by
    have := List.mem_of_mem_drop hl
    exact List.eq_of_mem_replicate this
  rw [this] at ht1
  cases ht1

/-- C3: last-writer-wins for both engines.  B+ tree: after any put sequence
`pre ++ [(k,v1)] ++ mid ++ [(k,v2)] ++ post` in which no put after the second
write touches `k`, `get k` returns `v2` (the second write overwrites the
record for `k` in place).  LSM tree: after any event sequence
`lpre ++ [put k v1] ++ lmid ++ [put k v2] ++ lpost` in which every event
after the second write is on another key or a background flush/compaction
step, `get k` returns `v2` (the newest write shadows all older locations on
the read path), provided `v2` is not the reserved tombstone string and the
configuration has at least one level. -/
theorem claim_C3_last_writer_wins (pre mid post : List (Nat × String)) (k : Nat)
    (v1 v2 : String) (cfg : LSMConfig) (h : Nat → Nat)
    (lpre lmid lpost : List LSMOp)
    (hpost : ∀ p ∈ post, p.1 ≠ k)
    (hlpost : ∀ op ∈ lpost, OtherKeyOp k op = true)
    (hml : 1 ≤ cfg.max_levels) (hv : v2 ≠ TOMBSTONE_VALUE) :
    btGet (btRun (pre ++ [(k, v1)] ++ mid ++ [(k, v2)] ++ post)) k = some v2 ∧
    lsmGet h (lsmRun cfg (lpre ++ [LSMOp.put k v1] ++ lmid ++ [LSMOp.put k v2] ++ lpost)) k
      = some v2 := by
  constructor
  · exact btree_lww pre mid post k v1 v2 hpost
  · have hsplit : lpre ++ [LSMOp.put k v1] ++ lmid ++ [LSMOp.put k v2] ++ lpost =
        ((lpre ++ [LSMOp.put k v1] ++ lmid) ++ [LSMOp.put k v2]) ++ lpost := by
      simp [List.append_assoc]
    rw [hsplit]
    unfold lsmRun lsmRunFrom
    rw [List.foldl_append, List.foldl_append]
    have hinv := lsm_inv_run cfg (lsmInit cfg) (lpre ++ [LSMOp.put k v1] ++ lmid) k
      (wfl_init cfg) (kunique_init cfg k)
    obtain ⟨hwf1, hKU1⟩ := hinv
    have hwf1' : WfL cfg (List.foldl (lsmStep cfg) (lsmInit cfg)
      (lpre ++ [LSMOp.put k v1] ++ lmid)) := hwf1
    have hKU1' : KUnique k (List.foldl (lsmStep cfg) (lsmInit cfg)
      (lpre ++ [LSMOp.put k v1] ++ lmid)) := hKU1
    have hwf2 := wfl_put cfg _ k v2 hwf1'
    have hKU2 := kunique_put cfg _ k k v2 hKU1'
    have hks2 := kstate_put_self cfg
      (List.foldl (lsmStep cfg) (lsmInit cfg) (lpre ++ [LSMOp.put k v1] ++ lmid)) k v2
    have hks3 := kstate_run cfg _ lpost k v2 hml hv hlpost hwf2 hKU2 hks2
    have hwf3 := (lsm_inv_run cfg _ lpost k hwf2 hKU2).1
    exact lsmGet_of_KState cfg h _ k v2 hwf3 hks3 hv

theorem claim_C3_witness :
    btGet (btRun ([(1, "a")] ++ [(7, "x")] ++ [(2, "b")] ++ [(7, "y")] ++ [(3, "c")])) 7
      = some "y" ∧
    lsmGet (fun n => n)
      (lsmRun ⟨2, 2, 2, 4⟩
        ([LSMOp.put 1 "a"] ++ [LSMOp.put 7 "x"] ++ [LSMOp.put 2 "b"]
          ++ [LSMOp.put 7 "y"] ++ [LSMOp.flush, LSMOp.compact 0])) 7 = some "y" :=
  claim_C3_last_writer_wins [(1, "a")] [(2, "b")] [(3, "c")] 7 "x" "y" ⟨2, 2, 2, 4⟩
    (fun n => n) [LSMOp.put 1 "a"] [LSMOp.put 2 "b"] [LSMOp.flush, LSMOp.compact 0]
    (by decide) (by decide) (by decide) (by decide)
